import Mathlib

/-!
Verification of the asa-graphs repository (Rust): a shallow embedding of the
neural ASA-graph (src/src/neural/graph.rs, src/src/neural/element.rs,
src/src/neural/sensor.rs) together with the multiway-node operations of the
missing file src/src/neural/node.rs, which are modelled from the
specification (spec.md, section 4.2).

Modelling conventions:
  * Keys are rationals (the Rust code is generic over any SensorData key with
    a numeric distance; the integer keys of the repository tests and the
    fractional-distance keys needed by some claims both embed into the
    rationals).  The distance function is the absolute difference.
  * f32 arithmetic is modelled by rational arithmetic.  Every concrete
    computation appearing in the claims involves only small dyadic rationals
    (sums and products of values such as 7/8 and 1/2), on which f32
    arithmetic is exact, so the rational model agrees with the Rust code.
  * Reference-counted heap cells are modelled by an arena: the graph owns a
    list of elements, and Rc/Weak references to elements are arena indices.
    The tree stores element indices next to keys exactly like the Rust nodes
    store Rc clones of the elements.
  * Rust panics (unwrap on None, usize underflow followed by out-of-bounds
    indexing) are modelled by an explicit panic result; loops are given
    explicit fuel, and running out of fuel is modelled by Option.none at the
    outermost level.  All concrete runs below terminate within their fuel.
-/

namespace ASA

/-- Data category of a sensor, from the external bionet-common crate
(spec.md section 3: keys are categorised as Numerical, Ordinal or
Categorical). -/
inductive DataCategory where
  | numerical
  | ordinal
  | categorical
deriving DecidableEq, Repr

/-- Absolute value written with an if, so that concrete runs evaluate by
rewriting; equal to the lattice absolute value (lemma qabs_eq_abs). -/
def qabs (x : ℚ) : ℚ := if x < 0 then -x else x

theorem qabs_eq_abs (x : ℚ) : qabs x = |x| := by
  unfold qabs
  by_cases h : x < 0
  · rw [if_pos h, abs_of_neg h]
  · rw [if_neg h, abs_of_nonneg (le_of_not_lt h)]

/-- Distance of two keys: the numeric distance of bionet-common for numeric
keys is the absolute difference. -/
def dist (a b : ℚ) : ℚ := qabs (a - b)

theorem dist_eq_abs (a b : ℚ) : dist a b = |a - b| := qabs_eq_abs _

/-- Element (src/src/neural/element.rs, struct Element): leaf record holding
the key, the occurrence counter, the current activation, the weighted
next/prev chain links (arena indices paired with the cached weight) and the
list of defining connections to higher-order neurons (arena-external neuron
identifiers; they stay empty unless connect is called).  The parent-name and
self-pointer fields of the Rust struct are identity plumbing with no
observable role in the claims and are omitted. -/
structure Element where
  key : ℚ
  counter : ℕ
  activation : ℚ
  next : Option (ℕ × ℚ)
  prev : Option (ℕ × ℚ)
  defs : List ℕ
deriving DecidableEq, Repr

/-- Element::new (element.rs, lines 34-53): counter 1, activation 0, no
neighbours, no definitions. -/
def Element.new (k : ℚ) : Element :=
  { key := k, counter := 1, activation := 0, next := none, prev := none, defs := [] }

/-- Weight of a chain edge as Element::weight computes it (element.rs,
lines 82-84): 1 - |distance(other.key, self.key)| / range; the outer abs of
the Rust code is redundant for the absolute-difference distance. -/
def wf (a b : ℚ) (range : ℚ) : ℚ := 1 - qabs (dist b a) / range

/-- Element::weight (element.rs, lines 82-84). -/
def Element.weight (self other : Element) (range : ℚ) : ℚ :=
  wf self.key other.key range

/-- In-place update of one arena slot (the effect of borrow_mut on one
Rc(RefCell(Element))). Out-of-range indices leave the arena unchanged. -/
def modAt (A : List Element) (i : ℕ) (f : Element → Element) : List Element :=
  match A[i]? with
  | some e => A.set i (f e)
  | none => A

/-- Key stored at an arena index. -/
def keyAt (A : List Element) (i : ℕ) : Option ℚ := (A[i]?).map Element.key

theorem modAt_length (A : List Element) (i : ℕ) (f : Element → Element) :
    (modAt A i f).length = A.length := by
  unfold modAt
  cases h : A[i]? with
  | none => rfl
  | some e => simp

theorem modAt_get_self (A : List Element) (i : ℕ) (f : Element → Element)
    (e : Element) (h : A[i]? = some e) : (modAt A i f)[i]? = some (f e) := by
  unfold modAt
  rw [h]
  have hi : i < A.length := by
    by_contra hc
    rw [List.getElem?_eq_none (le_of_not_lt hc)] at h
    exact Option.noConfusion h
  simp [List.getElem?_set, hi]

theorem modAt_get_ne (A : List Element) (i j : ℕ) (f : Element → Element)
    (h : j ≠ i) : (modAt A i f)[j]? = A[j]? := by
  unfold modAt
  cases hg : A[i]? with
  | none => rfl
  | some e => simp [List.getElem?_set, (Ne.symm h)]

/-- Element::set_connections (element.rs, lines 55-80): atomically replaces
the prev and next links of the element at index eid, mirroring the links in
the touched neighbours and recomputing the two affected weights with the
given range. -/
def set_connections (A : List Element) (eid : ℕ) (prevOpt nextOpt : Option ℕ)
    (range : ℚ) : List Element :=
  let A1 :=
    match prevOpt with
    | some p =>
      match A[eid]?, A[p]? with
      | some e, some pe =>
        let w := wf e.key pe.key range
        modAt (modAt A eid (fun x => { x with prev := some (p, w) }))
          p (fun x => { x with next := some (eid, w) })
      | _, _ => A
    | none => modAt A eid (fun x => { x with prev := none })
  match nextOpt with
  | some n =>
    match A1[eid]?, A1[n]? with
    | some e, some ne =>
      let w := wf e.key ne.key range
      modAt (modAt A1 eid (fun x => { x with next := some (n, w) }))
        n (fun x => { x with prev := some (eid, w) })
    | _, _ => A1
  | none => modAt A1 eid (fun x => { x with next := none })

/-- Multiway tree node (spec.md section 3, Node): sorted keys, parallel
element indices, children, leaf flag.  The fixed-capacity arrays of the Rust
node are modelled by lists whose length is the size field; the parent weak
link is not needed by the embedded operations.  Modelled from the spec:
src/src/neural/node.rs is not part of the source tree. -/
inductive BT where
  | mk (keys : List ℚ) (elemIds : List ℕ) (children : List BT) (isLeaf : Bool)

namespace BT

def keys : BT → List ℚ
  | .mk k _ _ _ => k

def elemIds : BT → List ℕ
  | .mk _ e _ _ => e

def children : BT → List BT
  | .mk _ _ c _ => c

def isLeaf : BT → Bool
  | .mk _ _ _ l => l

/-- Node size: number of keys currently stored. -/
def size (t : BT) : ℕ := t.keys.length

/-- The empty leaf node the graph is created with (graph.rs line 126). -/
def newLeaf : BT := .mk [] [] [] true

end BT

mutual

/-- Number of nodes of a tree, used as fuel for the descents: every descent
step moves into a child, so any fuel of at least this size completes. -/
def BT.msize : BT → ℕ
  | .mk _ _ cs _ => 1 + msizeList cs

/-- Total number of nodes of a list of trees. -/
def msizeList : List BT → ℕ
  | [] => 0
  | c :: cs => BT.msize c + msizeList cs

end

/-- Node::MAX_KEYS.  Modelled from the spec with one correction taken from
the source, which is the authority where the two disagree: spec.md section
4.2 says MAX_KEYS = ORDER - 1, but the source sizes every node for ORDER + 1
children (the const-generic bound on ORDER in graph.rs line 19 and
element.rs line 19 exists to type the children array), hence ORDER keys,
and the tree shapes asserted by the in-source tests (graph.rs tests
insert_3_degree and insert_25_degree: root.elements[0].key equal to 128 for
ORDER 3 and 169 for ORDER 25 after a fixed 601-insert sequence) are
reproduced by this model exactly for MAX_KEYS = ORDER and refuted for
MAX_KEYS = ORDER - 1. -/
def maxKeys (order : ℕ) : ℕ := order

/-- Result of a tree search: the element index, a definite miss, or a Rust
panic (unwrap of a None key slot, or the usize underflow of size - 1 on an
empty node followed by an out-of-bounds index). -/
inductive SRes where
  | found (e : ℕ)
  | notFound
  | panicked
deriving DecidableEq, Repr

/-- Index at which the ascending scan of a node stops: the number of
leading keys strictly below the query (the walk of graph.rs lines 159-166
and of the spec-modelled Node::insert_existing_key). -/
def scanIdx (k : ℚ) : List ℚ → ℕ
  | [] => 0
  | x :: xs => if x < k then scanIdx k xs + 1 else 0

/-- ASAGraph::search_left (graph.rs, lines 153-179): descend scanning each
node ascending from index 0 while the query is greater than the current key.
Reading keys[0] of an empty node unwraps None and panics. -/
def search_left : ℕ → BT → ℚ → Option SRes
  | 0, _, _ => none
  | fuel + 1, t, k =>
    match t.keys.head? with
    | none => some .panicked
    | some _ =>
      let idx := scanIdx k t.keys
      match t.keys[idx]? with
      | some c =>
        if c = k then
          match t.elemIds[idx]? with
          | some e => some (.found e)
          | none => some .panicked
        else if t.isLeaf then some .notFound
        else
          match t.children[idx]? with
          | some ch => search_left fuel ch k
          | none => some .panicked
      | none =>
        if t.isLeaf then some .notFound
        else
          match t.children[idx]? with
          | some ch => search_left fuel ch k
          | none => some .panicked

/-- Index where the descending scan of search_right stops: starting from i
and walking down while the query is smaller than the key at the index
(graph.rs, lines 185-192). -/
def srIdx (keys : List ℚ) (k : ℚ) : ℕ → ℕ
  | 0 => 0
  | i + 1 =>
    match keys[i + 1]? with
    | some c => if k < c then srIdx keys k i else i + 1
    | none => i + 1

/-- ASAGraph::search_right (graph.rs, lines 181-206): descend scanning each
node descending from size - 1.  On a node of size 0 the Rust expression
node.size - 1 underflows and the subsequent indexing panics. -/
def search_right : ℕ → BT → ℚ → Option SRes
  | 0, _, _ => none
  | fuel + 1, t, k =>
    if t.keys.isEmpty then some .panicked
    else
      let i := srIdx t.keys k (t.keys.length - 1)
      match t.keys[i]? with
      | none => some .panicked
      | some c =>
        if k = c then
          match t.elemIds[i]? with
          | some e => some (.found e)
          | none => some .panicked
        else if t.isLeaf then some .notFound
        else
          let j := if k > c then i + 1 else i
          match t.children[j]? with
          | some ch => search_right fuel ch k
          | none => some .panicked

/-- ASAGraph (graph.rs, lines 18-27): name omitted (no observable role in
the claims), root node, element arena, chain endpoints and cached extrema
keys. -/
structure Graph where
  dataCategory : DataCategory
  root : BT
  elems : List Element
  element_min : Option ℕ
  element_max : Option ℕ
  key_min : Option ℚ
  key_max : Option ℚ

/-- ASAGraph::new (graph.rs, lines 119-132): a single empty leaf and no
extrema. Construction with ORDER < 3 panics in Rust; the order is a
parameter of the mutating operations below and the reachable-state
predicate carries the bound 3 ≤ order. -/
def Graph.new (cat : DataCategory) : Graph :=
  { dataCategory := cat, root := BT.newLeaf, elems := [],
    element_min := none, element_max := none, key_min := none, key_max := none }

/-- ASAGraph::extreme_keys (graph.rs, lines 288-293). -/
def Graph.extreme_keys (g : Graph) : Option (ℚ × ℚ) :=
  match g.key_min, g.key_max with
  | some a, some b => some (a, b)
  | _, _ => none

/-- ASAGraph::range (graph.rs, lines 248-252): NaN (modelled as none) when
either extremum is unset; otherwise the distance of the extrema, replaced by
1 exactly when that distance is 0. -/
def Graph.range (g : Graph) : Option ℚ :=
  match g.key_min, g.key_max with
  | some a, some b => some (if dist a b = 0 then 1 else dist a b)
  | _, _ => none

/-- The range value that flows into Node::insert_key_leaf: insert only runs
with both extrema present, where range() is the guarded distance. -/
def Graph.rangeD (g : Graph) : ℚ :=
  match g.range with
  | some r => r
  | none => 0

/-- ASAGraph::search (graph.rs, lines 141-151): not-found on an empty graph
(the question-mark early return), otherwise descend left-scanning when the
query is strictly closer to the minimum and right-scanning otherwise. -/
def Graph.search (g : Graph) (k : ℚ) : Option SRes :=
  match g.extreme_keys with
  | none => some .notFound
  | some (kmin, kmax) =>
    if dist k kmax > dist k kmin then search_left (g.root.msize + 1) g.root k
    else search_right (g.root.msize + 1) g.root k

/-- Modelled from the spec: Node::insert_existing_key (spec.md section 4.2,
src/src/neural/node.rs is missing).  On the strictly sorted keys of a node
both the left-to-right and the right-to-left scan find the matching index
when the key is present and otherwise stop at the number of keys smaller
than the query, which is the index where descent or insertion occurs; the
from_right flag chosen by the caller (graph.rs lines 220-224) only changes
the scanning cost, so it is not a parameter here.  The counter increment of
the matched element is performed by the caller of this pure function. -/
def insert_existing_key (keys : List ℚ) (k : ℚ) : Option ℕ × ℕ :=
  let idx := scanIdx k keys
  match keys[idx]? with
  | some x => if x = k then (some idx, idx) else (none, idx)
  | none => (none, idx)

/-- Modelled from the spec: Node::split_child (spec.md section 4.2,
src/src/neural/node.rs is missing).  The full child at position i is split
at the median index ORDER / 2 (the median position of MAX_KEYS = ORDER
keys); the upper half of its keys, element pointers and children moves to a
new right sibling, and the median key and its element are promoted into the
parent at position i.  The median convention is pinned by the source tests:
the model reproduces root.elements[0].key = 128 (ORDER 3) and 169 (ORDER
25) asserted by the in-source tests insert_3_degree and insert_25_degree
exactly for this convention.  For ORDER at least 3 both halves are
non-empty. -/
def split_child (order : ℕ) (t : BT) (i : ℕ) : BT :=
  match t with
  | .mk keys elemIds children isLeaf =>
    match children[i]? with
    | none => t
    | some c =>
      let mid := order / 2
      match c.keys[mid]?, c.elemIds[mid]? with
      | some pk, some pe =>
        let left : BT :=
          .mk (c.keys.take mid) (c.elemIds.take mid) (c.children.take (mid + 1)) c.isLeaf
        let right : BT :=
          .mk (c.keys.drop (mid + 1)) (c.elemIds.drop (mid + 1))
            (c.children.drop (mid + 1)) c.isLeaf
        .mk (keys.insertIdx i pk) (elemIds.insertIdx i pe)
          ((children.set i left).insertIdx (i + 1) right) isLeaf
      | _, _ => t

/-- Walk of the element chain used to locate the in-order neighbours of a
new key: follow next from element_min while the key stays below the new
key; the last element visited is the in-order predecessor and the element
the walk stops at is the in-order successor.  Modelled from the spec:
Node::insert_key_leaf identifies the immediate in-order neighbours of the
inserted key (spec.md section 4.2). -/
def chainNeighbours :
    ℕ → List Element → Option ℕ → ℚ → Option ℕ → Option ℕ × Option ℕ
  | 0, _, cur, _, acc => (acc, cur)
  | fuel + 1, A, cur, k, acc =>
    match cur with
    | none => (acc, none)
    | some i =>
      match A[i]? with
      | none => (acc, none)
      | some e =>
        if e.key < k then chainNeighbours fuel A (e.next.map Prod.fst) k (some i)
        else (acc, some i)

/-- Modelled from the spec: Node::insert_key_leaf (spec.md section 4.2,
src/src/neural/node.rs is missing).  Shifts the keys and element pointers
of the leaf right from the insertion index, creates the new Element, links
it to its in-order neighbours via Element::set_connections (element.rs,
source) and computes the two new weights against the range passed by the
caller (graph.rs line 229 passes self.range()). -/
def insert_key_leaf (t : BT) (idx : ℕ) (k : ℚ) (g : Graph) : BT × Graph × ℕ :=
  let newId := g.elems.length
  let A0 := g.elems ++ [Element.new k]
  let ps := chainNeighbours (g.elems.length + 1) g.elems g.element_min k none
  let A1 := set_connections A0 newId ps.1 ps.2 g.rangeD
  let t1 : BT := .mk (t.keys.insertIdx idx k) (t.elemIds.insertIdx idx newId)
    t.children t.isLeaf
  (t1, { g with elems := A1 }, newId)

/-- Body of the chain walk of ASAGraph::update_elements_weights (graph.rs,
lines 353-385): at the element with index i refresh the weight of its prev
edge on both endpoints, then refresh the weight of its next edge on both
endpoints and continue with the next element. -/
def update_weights_go : ℕ → List Element → ℕ → ℚ → List Element
  | 0, A, _, _ => A
  | fuel + 1, A, i, range =>
    let A1 :=
      match A[i]? with
      | some e =>
        match e.prev with
        | some (p, _) =>
          match A[p]? with
          | some pe =>
            let w := wf e.key pe.key range
            modAt (modAt A i (fun x => { x with prev := some (p, w) }))
              p (fun x => { x with next := some (i, w) })
          | none => A
        | none => A
      | none => A
    match A1[i]? with
    | some e1 =>
      match e1.next with
      | some (nx, _) =>
        match A1[nx]? with
        | some nxe =>
          let w := wf e1.key nxe.key range
          let A2 := modAt (modAt A1 i (fun x => { x with next := some (nx, w) }))
            nx (fun x => { x with prev := some (i, w) })
          update_weights_go fuel A2 nx range
        | none => A1
      | none => A1
    | none => A1

/-- ASAGraph::update_elements_weights (graph.rs, lines 353-385): forward
walk from element_min refreshing every cached chain weight with the given
range; a graph without element_min returns unchanged. -/
def Graph.update_elements_weights (g : Graph) (range : ℚ) : Graph :=
  match g.element_min with
  | none => g
  | some i => { g with elems := update_weights_go (g.elems.length + 1) g.elems i range }

/-- ASAGraph::set_extrema (graph.rs, lines 321-351): update the cached
extrema when the new element extends the range, and when anything changed
recompute every chain weight with the raw distance of the new extrema
(line 348 uses the unguarded distance, not range()).  The inconsistent
state with exactly one extremum set panics in Rust and is modelled by
none. -/
def Graph.set_extrema (g : Graph) (eid : ℕ) : Option Graph :=
  match g.elems[eid]? with
  | none => none
  | some e =>
    let key := e.key
    match g.key_min, g.key_max with
    | none, some _ => none
    | some _, none => none
    | none, none =>
      let g1 := { g with key_min := some key, key_max := some key,
                         element_min := some eid, element_max := some eid }
      some (g1.update_elements_weights (dist key key))
    | some kmin, some kmax =>
      let g1 := if key < kmin then
          { g with key_min := some key, element_min := some eid } else g
      let g2 := if key > kmax then
          { g1 with key_max := some key, element_max := some eid } else g1
      if key < kmin ∨ key > kmax then
        match g2.key_min, g2.key_max with
        | some a, some b => some (g2.update_elements_weights (dist a b))
        | _, _ => none
      else some g2

/-- Replace child j of a node (the effect of mutating through the Rc to the
child while keeping the parent). -/
def BT.setChild (t : BT) (j : ℕ) (c : BT) : BT :=
  .mk t.keys t.elemIds (t.children.set j c) t.isLeaf

/-- Descent loop of ASAGraph::insert (graph.rs, lines 219-245).  At the
current node: if the key is already among the node keys, increment that
element's counter and return it; at a leaf run insert_key_leaf followed by
set_extrema; at an internal node split the chosen child when it is full,
after the split advance the index when the key exceeds the promoted key or
return the promoted element without touching its counter when the key
equals the promoted key (lines 236-240), and descend.  none models a Rust
panic (unwrap on a missing slot) or fuel exhaustion; all concrete runs
below complete. -/
def insertGo (order : ℕ) : ℕ → BT → Graph → ℚ → Option (BT × Graph × ℕ)
  | 0, _, _, _ => none
  | fuel + 1, t, g, k =>
    match insert_existing_key t.keys k with
    | (some mi, _) =>
      match t.elemIds[mi]? with
      | none => none
      | some eid =>
        let A := modAt g.elems eid (fun e => { e with counter := e.counter + 1 })
        some (t, { g with elems := A }, eid)
    | (none, idx) =>
      if t.isLeaf then
        let r := insert_key_leaf t idx k g
        match r.2.1.set_extrema r.2.2 with
        | none => none
        | some g2 => some (r.1, g2, r.2.2)
      else
        match t.children[idx]? with
        | none => none
        | some c =>
          if c.size = maxKeys order then
            let t1 := split_child order t idx
            match t1.elemIds[idx]? with
            | none => none
            | some pe =>
              match g.elems[pe]? with
              | none => none
              | some pelem =>
                if k > pelem.key then
                  match t1.children[idx + 1]? with
                  | none => none
                  | some c1 =>
                    match insertGo order fuel c1 g k with
                    | none => none
                    | some (c2, g2, eid) => some (t1.setChild (idx + 1) c2, g2, eid)
                else
                  match t1.keys[idx]? with
                  | none => none
                  | some pk =>
                    if pk = k then some (t1, g, pe)
                    else
                      match t1.children[idx]? with
                      | none => none
                      | some c1 =>
                        match insertGo order fuel c1 g k with
                        | none => none
                        | some (c2, g2, eid) => some (t1.setChild idx c2, g2, eid)
          else
            match insertGo order fuel c g k with
            | none => none
            | some (c2, g2, eid) => some (t.setChild idx c2, g2, eid)

/-- ASAGraph::insert_first_element (graph.rs, lines 295-309): place the new
element in slot 0 of the root, set size to 1 and point all four extrema at
it. -/
def Graph.insert_first_element (g : Graph) (k : ℚ) : Graph × ℕ :=
  let eid := g.elems.length
  ({ g with
      root := .mk [k] [eid] g.root.children g.root.isLeaf,
      elems := g.elems ++ [Element.new k],
      key_min := some k, key_max := some k,
      element_min := some eid, element_max := some eid }, eid)

/-- ASAGraph::split_root (graph.rs, lines 311-319): a fresh internal root
whose only child is the old root, then split_child at index 0. -/
def Graph.split_root (order : ℕ) (g : Graph) : Graph :=
  { g with root := split_child order (.mk [] [] [g.root] false) 0 }

/-- ASAGraph::insert (graph.rs, lines 208-246): first element directly into
the root, split a full root, then run the descent loop.  The Rust panic
when the extrema are absent with a non-empty root (lines 215-217) is
modelled by none. -/
def Graph.insert (order : ℕ) (g : Graph) (k : ℚ) : Option (Graph × ℕ) :=
  if g.root.size = 0 then some (g.insert_first_element k)
  else
    let g1 := if g.root.size = maxKeys order then g.split_root order else g
    match g1.extreme_keys with
    | none => none
    | some _ =>
      match insertGo order (g1.root.msize + 1) g1.root g1 k with
      | none => none
      | some (t2, g2, eid) => some ({ g2 with root := t2 }, eid)

/-- Fold a list of keys through insert, propagating incompleteness. -/
def insertList (order : ℕ) (g : Graph) : List ℚ → Option Graph
  | [] => some g
  | k :: ks =>
    match g.insert order k with
    | none => none
    | some (g1, _) => insertList order g1 ks

/-- Body of the chain walk of ASAGraph::count_elements_agg (graph.rs, lines
403-417). -/
def countAggGo : ℕ → List Element → Option ℕ → ℕ → ℕ
  | 0, _, _, acc => acc
  | fuel + 1, A, cur, acc =>
    match cur with
    | none => acc
    | some i =>
      match A[i]? with
      | none => acc
      | some e => countAggGo fuel A (e.next.map Prod.fst) (acc + e.counter)

/-- ASAGraph::count_elements_agg (graph.rs, lines 403-417): sum of the
counters along the chain from element_min. -/
def Graph.count_elements_agg (g : Graph) : ℕ :=
  match g.element_min with
  | none => 0
  | some i => countAggGo (g.elems.length + 1) g.elems (some i) 0

/-- Body of the chain walk of ASAGraph::count_elements_unique (graph.rs,
lines 387-401). -/
def countUniqueGo : ℕ → List Element → Option ℕ → ℕ → ℕ
  | 0, _, _, acc => acc
  | fuel + 1, A, cur, acc =>
    match cur with
    | none => acc
    | some i =>
      match A[i]? with
      | none => acc
      | some e => countUniqueGo fuel A (e.next.map Prod.fst) (acc + 1)

/-- ASAGraph::count_elements_unique (graph.rs, lines 387-401). -/
def Graph.count_elements_unique (g : Graph) : ℕ :=
  match g.element_min with
  | none => 0
  | some i => countUniqueGo (g.elems.length + 1) g.elems (some i) 0


/-- Interelement activation threshold (element.rs, line 32). -/
def threshold : ℚ := 4/5

/-- Defining-connection targets of an element (the set harvested from the
definitions list); element.rs collects them into a HashMap keyed by neuron
id, modelled as a list whose emptiness is the observable of the claims. -/
def defsAt (A : List Element) (i : ℕ) : List ℕ :=
  match A[i]? with
  | some e => e.defs
  | none => []

/-- Body of the forward walk of Element::fuzzy_activate (element.rs, lines
98-119), transcribed exactly: while the propagating activation exceeds the
threshold, add propagating * weight to the current neighbour, harvest its
definitions, then move to the following neighbour, and continue with that
following neighbour's current (not yet updated) activation as the next
propagating activation (line 117 reads the activation of the element the
walk has just moved to). -/
def fuzzyGoNext : ℕ → List Element → ℕ → ℚ → ℚ → List ℕ → List Element × List ℕ
  | 0, A, _, _, _, ns => (A, ns)
  | fuel + 1, A, cur, w, ea, ns =>
    if ea > threshold then
      let A1 := modAt A cur (fun e => { e with activation := e.activation + ea * w })
      let ns1 := ns ++ defsAt A1 cur
      match A1[cur]? with
      | none => (A1, ns1)
      | some e =>
        match e.next with
        | none => (A1, ns1)
        | some (nx, w2) =>
          let ea2 := match A1[nx]? with
            | some e2 => e2.activation
            | none => 0
          fuzzyGoNext fuel A1 nx w2 ea2 ns1
    else (A, ns)

/-- Body of the backward walk of Element::fuzzy_activate (element.rs, lines
121-142), symmetric to the forward walk. -/
def fuzzyGoPrev : ℕ → List Element → ℕ → ℚ → ℚ → List ℕ → List Element × List ℕ
  | 0, A, _, _, _, ns => (A, ns)
  | fuel + 1, A, cur, w, ea, ns =>
    if ea > threshold then
      let A1 := modAt A cur (fun e => { e with activation := e.activation + ea * w })
      let ns1 := ns ++ defsAt A1 cur
      match A1[cur]? with
      | none => (A1, ns1)
      | some e =>
        match e.prev with
        | none => (A1, ns1)
        | some (px, w2) =>
          let ea2 := match A1[px]? with
            | some e2 => e2.activation
            | none => 0
          fuzzyGoPrev fuel A1 px w2 ea2 ns1
    else (A, ns)

/-- Element::fuzzy_activate (element.rs, lines 86-145): add the signal to
the own activation, harvest the own definitions, then walk the next chain
and the prev chain as above, both seeded with the updated own activation. -/
def fuzzy_activate (A : List Element) (eid : ℕ) (signal : ℚ) :
    List Element × List ℕ :=
  let A1 := modAt A eid (fun e => { e with activation := e.activation + signal })
  let ns0 := defsAt A1 eid
  match A1[eid]? with
  | none => (A1, ns0)
  | some e =>
    let r1 :=
      match e.next with
      | some (nx, w) => fuzzyGoNext (A1.length + 1) A1 nx w e.activation ns0
      | none => (A1, ns0)
    let ea2 := match r1.1[eid]? with
      | some e2 => e2.activation
      | none => 0
    match (r1.1[eid]?).bind Element.prev with
    | some (px, w) => fuzzyGoPrev (r1.1.length + 1) r1.1 px w ea2 r1.2
    | none => r1

/-- Element::simple_activate (element.rs, lines 175-180): add the signal to
the activation and return the defined neurons. -/
def simple_activate (A : List Element) (eid : ℕ) (signal : ℚ) :
    List Element × List ℕ :=
  let A1 := modAt A eid (fun e => { e with activation := e.activation + signal })
  (A1, defsAt A1 eid)

/-- Neuron::activate for Element (element.rs, lines 207-229): dispatch to
fuzzy_activate when propagate_horizontal and to simple_activate otherwise.
The vertical loop re-activates every harvested non-sensor neuron; those are
higher-order neurons outside this graph (out of scope, spec.md section 1),
so it does not modify this graph's elements and is the identity on the
arena; the neuron sets returned by the external calls are not modelled. -/
def elemActivate (A : List Element) (eid : ℕ) (signal : ℚ)
    (ph : Bool) (pv : Bool) : List Element × List ℕ :=
  if ph then fuzzy_activate A eid signal else simple_activate A eid signal

/-- Forward sweep of Element::deactivate_neighbours (element.rs, lines
150-160): unconditionally reset every following neighbour to activation
0. -/
def deactGoNext : ℕ → List Element → ℕ → List Element
  | 0, A, _ => A
  | fuel + 1, A, i =>
    let A1 := modAt A i (fun e => { e with activation := 0 })
    match A1[i]? with
    | none => A1
    | some e =>
      match e.next with
      | none => A1
      | some (nx, _) => deactGoNext fuel A1 nx

/-- Backward sweep of Element::deactivate_neighbours (element.rs, lines
162-172). -/
def deactGoPrev : ℕ → List Element → ℕ → List Element
  | 0, A, _ => A
  | fuel + 1, A, i =>
    let A1 := modAt A i (fun e => { e with activation := 0 })
    match A1[i]? with
    | none => A1
    | some e =>
      match e.prev with
      | none => A1
      | some (px, _) => deactGoPrev fuel A1 px

/-- Element::deactivate_neighbours (element.rs, lines 147-173): reset the
own activation and sweep both chain directions to their ends. -/
def deactivate_neighbours (A : List Element) (eid : ℕ) : List Element :=
  let A1 := modAt A eid (fun e => { e with activation := 0 })
  let A2 :=
    match (A1[eid]?).bind Element.next with
    | some (nx, _) => deactGoNext (A1.length + 1) A1 nx
    | none => A1
  match (A2[eid]?).bind Element.prev with
  | some (px, _) => deactGoPrev (A2.length + 1) A2 px
  | none => A2

/-- Neuron::deactivate for Element (element.rs, lines 237-250): reset the
own activation, sweep the neighbours when propagate_horizontal, and when
propagate_vertical deactivate the defined non-sensor neurons, which live
outside this graph and leave the arena unchanged. -/
def elemDeactivate (A : List Element) (eid : ℕ) (ph : Bool) (pv : Bool) :
    List Element :=
  let A1 := modAt A eid (fun e => { e with activation := 0 })
  if ph then deactivate_neighbours A1 eid else A1

/-- Body of the chain walk of Sensor::deactivate_sensor (graph.rs, lines
99-114): deactivate with both flags false (reset the activation) and follow
next. -/
def deactSensorGo : ℕ → List Element → ℕ → List Element
  | 0, A, _ => A
  | fuel + 1, A, i =>
    let A1 := elemDeactivate A i false false
    match A1[i]? with
    | none => A1
    | some e =>
      match e.next with
      | none => A1
      | some (nx, _) => deactSensorGo fuel A1 nx

/-- Sensor::deactivate_sensor (graph.rs, lines 99-114): walk from
element_min resetting every activation; a graph without element_min logs a
warning and returns with no change. -/
def Graph.deactivate_sensor (g : Graph) : Graph :=
  match g.element_min with
  | none => g
  | some i => { g with elems := deactSensorGo (g.elems.length + 1) g.elems i }

/-- Result of the Sensor-facade search (graph.rs lines 41-43 and sensor.rs
lines 33-39): Some(self.search(key).unwrap()) panics whenever the inner
search returns None, so the facade never produces a none result. -/
inductive FRes where
  | ok (e : Option ℕ)
  | panicked
  | fuelOut
deriving DecidableEq, Repr

/-- Sensor::search facade (graph.rs, lines 41-43; identically sensor.rs,
lines 33-39): wrap the unwrapped inner search result in Some. -/
def Graph.sensor_search (g : Graph) (k : ℚ) : FRes :=
  match g.search k with
  | none => .fuelOut
  | some (.found e) => .ok (some e)
  | some .notFound => .panicked
  | some .panicked => .panicked

/-- Result of the Sensor-facade activate. -/
inductive ActRes where
  | ok (g : Graph) (ns : List ℕ)
  | err
  | panicked
  | fuelOut

/-- Sensor::activate facade (graph.rs, lines 45-81): look the key up; when
missing, fail for a categorical graph, auto-insert for a numerical or
ordinal graph when propagate_horizontal is set and fail otherwise; then
dispatch to the element's Neuron::activate. -/
def Graph.activate (order : ℕ) (g : Graph) (k : ℚ) (signal : ℚ)
    (ph : Bool) (pv : Bool) : ActRes :=
  match g.search k with
  | none => .fuelOut
  | some .panicked => .panicked
  | some (.found e) =>
    let r := elemActivate g.elems e signal ph pv
    .ok { g with elems := r.1 } r.2
  | some .notFound =>
    match g.dataCategory with
    | .categorical => .err
    | _ =>
      if ph then
        match g.insert order k with
        | none => .fuelOut
        | some (g1, e) =>
          let r := elemActivate g1.elems e signal ph pv
          .ok { g1 with elems := r.1 } r.2
      else .err



/-!
Reachable-state invariants: the chain view of the arena.
-/

/-- Total key lookup in the arena (0 for invalid indices, which the
invariants rule out). -/
def keyD (A : List Element) (i : ℕ) : ℚ :=
  match A[i]? with
  | some e => e.key
  | none => 0

/-- The next link of the element at an index. -/
def nextOf (A : List Element) (i : ℕ) : Option (ℕ × ℚ) := (A[i]?).bind Element.next

/-- The prev link of the element at an index. -/
def prevOf (A : List Element) (i : ℕ) : Option (ℕ × ℚ) := (A[i]?).bind Element.prev

/-- Two arenas with the same length whose entries agree on key and both
links (activation, counter and definitions may differ). -/
def shapeOf (e : Element) : ℚ × Option (ℕ × ℚ) × Option (ℕ × ℚ) :=
  (e.key, e.next, e.prev)

structure sameShape (A B : List Element) : Prop where
  len : A.length = B.length
  shape : ∀ i : ℕ, (A[i]?).map shapeOf = (B[i]?).map shapeOf

/-- The list of arena indices visited by following next links from a
starting point to the end of the chain. -/
inductive ChainFrom (A : List Element) : Option ℕ → List ℕ → Prop where
  | nil : ChainFrom A none []
  | cons {i : ℕ} {e : Element} {L : List ℕ} :
      A[i]? = some e → ChainFrom A (e.next.map Prod.fst) L →
      ChainFrom A (some i) (i :: L)

/-- The chain invariant of a graph: following next from element_min visits
the list L, which enumerates the whole arena exactly once in strictly
ascending key order; adjacent elements are doubly linked with a shared
cached weight; the endpoints carry no outer links and are cached in
element_min / element_max together with their keys. -/
structure ChainOK (g : Graph) (L : List ℕ) : Prop where
  walk : ChainFrom g.elems g.element_min L
  complete : ∀ i, i ∈ L ↔ i < g.elems.length
  nodup : L.Nodup
  sorted : L.Chain' (fun a b => keyD g.elems a < keyD g.elems b)
  emax : g.element_max = L.getLast?
  kmin : g.key_min = L.head?.map (keyD g.elems)
  kmax : g.key_max = L.getLast?.map (keyD g.elems)
  links : ∀ j a b, L[j]? = some a → L[j + 1]? = some b →
    ∃ w, nextOf g.elems a = some (b, w) ∧ prevOf g.elems b = some (a, w)
  headPrev : ∀ a, L.head? = some a → prevOf g.elems a = none

/-- The weight invariant: every chain edge carries, on both of its cached
sides, the weight 1 - distance / range computed at the graph's current
range value (the raw extremum distance, 1 when that distance is 0). -/
def WeightsOK (g : Graph) (L : List ℕ) : Prop :=
  ∀ j a b, L[j]? = some a → L[j + 1]? = some b →
    nextOf g.elems a = some (b, wf (keyD g.elems a) (keyD g.elems b) g.rangeD) ∧
    prevOf g.elems b = some (a, wf (keyD g.elems a) (keyD g.elems b) g.rangeD)

theorem chainFrom_head {A : List Element} {o : Option ℕ} {L : List ℕ}
    (h : ChainFrom A o L) : o = L.head? := by
  cases h with
  | nil => rfl
  | cons he hL => rfl

theorem chainFrom_valid {A : List Element} {o : Option ℕ} {L : List ℕ}
    (h : ChainFrom A o L) : ∀ i ∈ L, ∃ e, A[i]? = some e := by
  induction h with
  | nil => intro i hi; cases hi
  | cons he hL ih =>
    intro j hj
    rcases List.mem_cons.mp hj with rfl | hj2
    · exact ⟨_, he⟩
    · exact ih j hj2

theorem chainFrom_nil_none {A : List Element} {o : Option ℕ}
    (h : ChainFrom A o []) : o = none := by
  cases h
  rfl

theorem chainFrom_last {A : List Element} {o : Option ℕ} {L : List ℕ}
    (h : ChainFrom A o L) : ∀ a, L.getLast? = some a → nextOf A a = none := by
  induction h with
  | nil => intro a ha; cases ha
  | @cons i e L he hL ih =>
    intro a ha
    cases L with
    | nil =>
      simp at ha
      subst ha
      have hnone := chainFrom_nil_none hL
      have : e.next = none := Option.map_eq_none.mp hnone
      simp [nextOf, he, this]
    | cons b L2 =>
      rw [List.getLast?_cons_cons] at ha
      exact ih a ha

theorem sameShape_keyD {A B : List Element} (h : sameShape A B) (i : ℕ) :
    keyD A i = keyD B i := by
  have h2 := h.shape i
  unfold keyD
  cases hA : A[i]? with
  | none =>
    rw [hA] at h2
    cases hB : B[i]? with
    | none => rfl
    | some e => rw [hB] at h2; simp [shapeOf] at h2
  | some e =>
    rw [hA] at h2
    cases hB : B[i]? with
    | none => rw [hB] at h2; simp [shapeOf] at h2
    | some e2 =>
      rw [hB] at h2
      simp [shapeOf] at h2
      exact h2.1

theorem sameShape_nextOf {A B : List Element} (h : sameShape A B) (i : ℕ) :
    nextOf A i = nextOf B i := by
  have h2 := h.shape i
  unfold nextOf
  cases hA : A[i]? with
  | none =>
    rw [hA] at h2
    cases hB : B[i]? with
    | none => rfl
    | some e => rw [hB] at h2; simp [shapeOf] at h2
  | some e =>
    rw [hA] at h2
    cases hB : B[i]? with
    | none => rw [hB] at h2; simp [shapeOf] at h2
    | some e2 =>
      rw [hB] at h2
      simp [shapeOf] at h2
      simp [h2.2.1]

theorem sameShape_prevOf {A B : List Element} (h : sameShape A B) (i : ℕ) :
    prevOf A i = prevOf B i := by
  have h2 := h.shape i
  unfold prevOf
  cases hA : A[i]? with
  | none =>
    rw [hA] at h2
    cases hB : B[i]? with
    | none => rfl
    | some e => rw [hB] at h2; simp [shapeOf] at h2
  | some e =>
    rw [hA] at h2
    cases hB : B[i]? with
    | none => rw [hB] at h2; simp [shapeOf] at h2
    | some e2 =>
      rw [hB] at h2
      simp [shapeOf] at h2
      simp [h2.2.2]

theorem sameShape_chainFrom {A B : List Element} (h : sameShape A B)
    {o : Option ℕ} {L : List ℕ} (hc : ChainFrom A o L) : ChainFrom B o L := by
  induction hc with
  | nil => exact ChainFrom.nil
  | @cons i e L he hL ih =>
    have h2 := h.shape i
    rw [he] at h2
    cases hB : B[i]? with
    | none => rw [hB] at h2; simp [shapeOf] at h2
    | some e2 =>
      rw [hB] at h2
      simp [shapeOf] at h2
      refine ChainFrom.cons hB ?_
      rw [← h2.2.1]
      exact ih

/-- Transfer of the chain invariant along a shape-preserving arena update
that keeps all four cached chain fields. -/
theorem chainOK_of_sameShape {g g2 : Graph} {L : List ℕ}
    (hs : sameShape g.elems g2.elems)
    (hmin : g2.element_min = g.element_min) (hmax : g2.element_max = g.element_max)
    (hkmin : g2.key_min = g.key_min) (hkmax : g2.key_max = g.key_max)
    (h : ChainOK g L) : ChainOK g2 L := by
  refine ⟨?_, ?_, h.nodup, ?_, ?_, ?_, ?_, ?_, ?_⟩
  · rw [hmin]; exact sameShape_chainFrom hs h.walk
  · intro i
    rw [← hs.len]
    exact h.complete i
  · refine List.Chain'.imp ?_ h.sorted
    intro a b hab
    rw [← sameShape_keyD hs a, ← sameShape_keyD hs b]
    exact hab
  · rw [hmax]; exact h.emax
  · rw [hkmin, h.kmin]
    cases L.head? with
    | none => rfl
    | some a => simp [sameShape_keyD hs a]
  · rw [hkmax, h.kmax]
    cases L.getLast? with
    | none => rfl
    | some a => simp [sameShape_keyD hs a]
  · intro j a b ha hb
    rcases h.links j a b ha hb with ⟨w, hw1, hw2⟩
    exact ⟨w, by rw [← sameShape_nextOf hs]; exact hw1,
      by rw [← sameShape_prevOf hs]; exact hw2⟩
  · intro a ha
    rw [← sameShape_prevOf hs]
    exact h.headPrev a ha

/-- Transfer of the weight invariant along a shape-preserving update that
keeps the extrema keys (hence the range). -/
theorem weightsOK_of_sameShape {g g2 : Graph} {L : List ℕ}
    (hs : sameShape g.elems g2.elems)
    (hkmin : g2.key_min = g.key_min) (hkmax : g2.key_max = g.key_max)
    (h : WeightsOK g L) : WeightsOK g2 L := by
  intro j a b ha hb
  rcases h j a b ha hb with ⟨hw1, hw2⟩
  have hr : g2.rangeD = g.rangeD := by
    unfold Graph.rangeD Graph.range
    rw [hkmin, hkmax]
  rw [← sameShape_nextOf hs, ← sameShape_prevOf hs, ← sameShape_keyD hs a,
    ← sameShape_keyD hs b, hr]
  exact ⟨hw1, hw2⟩

theorem sameShape_refl (A : List Element) : sameShape A A := ⟨rfl, fun _ => rfl⟩

theorem sameShape_trans {A B C : List Element} (h1 : sameShape A B)
    (h2 : sameShape B C) : sameShape A C :=
  ⟨h1.len.trans h2.len, fun i => (h1.shape i).trans (h2.shape i)⟩

/-- modAt with a function that keeps key and both links preserves the
shape. -/
theorem sameShape_modAt (A : List Element) (i : ℕ) (f : Element → Element)
    (hf : ∀ e, (f e).key = e.key ∧ (f e).next = e.next ∧ (f e).prev = e.prev) :
    sameShape A (modAt A i f) := by
  constructor
  · exact (modAt_length A i f).symm
  · intro j
    by_cases hj : j = i
    · subst hj
      cases hA : A[j]? with
      | none =>
        simp [modAt, hA]
      | some e =>
        rw [modAt_get_self A j f e hA]
        simp [shapeOf, hA, hf e]
    · rw [modAt_get_ne A i j f hj]

/-!
Reachable-state invariants: the search-tree view.
-/

/-- Strict open-interval membership with optional bounds. -/
def inB (lo hi : Option ℚ) (k : ℚ) : Prop :=
  (∀ a, lo = some a → a < k) ∧ (∀ b, hi = some b → k < b)

/-- Lower bound of the interval of the i-th child of a node with the given
keys and outer lower bound. -/
def boundL (keys : List ℚ) (lo : Option ℚ) : ℕ → Option ℚ
  | 0 => lo
  | j + 1 => keys[j]?

/-- Upper bound of the interval of the i-th child. -/
def boundR (keys : List ℚ) (hi : Option ℚ) (i : ℕ) : Option ℚ :=
  match keys[i]? with
  | some k => some k
  | none => hi

/-- Order validity of a (sub)tree within an interval, relative to a key
lookup for the arena: node keys strictly ascending and inside the
interval, element pointers parallel to the keys and resolving to arena
entries with the same key, leaves childless, internal nodes with one more
child than keys, and children valid in the induced subintervals. -/
inductive ValidT (κ : ℕ → Option ℚ) : Option ℚ → Option ℚ → BT → Prop where
  | mk {lo hi : Option ℚ} {keys : List ℚ} {elemIds : List ℕ}
      {children : List BT} {isLeaf : Bool} :
      keys.Chain' (· < ·) →
      (∀ k ∈ keys, inB lo hi k) →
      elemIds.length = keys.length →
      (∀ i : ℕ, i < keys.length → ∃ eid, elemIds[i]? = some eid ∧ κ eid = keys[i]?) →
      (isLeaf = true → children = []) →
      (isLeaf = false → children.length = keys.length + 1) →
      (∀ i c, children[i]? = some c →
        ValidT κ (boundL keys lo i) (boundR keys hi i) c) →
      ValidT κ lo hi (.mk keys elemIds children isLeaf)

/-- Every node of the tree holds at least one key (true for every tree
reachable from a non-empty graph: splits with ORDER at least 3 leave both
halves non-empty). -/
inductive NodesNE : BT → Prop where
  | mk {keys : List ℚ} {elemIds : List ℕ} {children : List BT} {isLeaf : Bool} :
      keys ≠ [] →
      (∀ c ∈ children, NodesNE c) →
      NodesNE (.mk keys elemIds children isLeaf)

/-- Key membership in a (sub)tree. -/
inductive KeyInT : BT → ℚ → Prop where
  | here {keys : List ℚ} {elemIds : List ℕ} {children : List BT}
      {isLeaf : Bool} {k : ℚ} :
      k ∈ keys → KeyInT (.mk keys elemIds children isLeaf) k
  | child {keys : List ℚ} {elemIds : List ℕ} {children : List BT}
      {isLeaf : Bool} {k : ℚ} {c : BT} :
      c ∈ children → KeyInT c k → KeyInT (.mk keys elemIds children isLeaf) k

theorem validT_sorted {κ : ℕ → Option ℚ} {lo hi : Option ℚ} {t : BT}
    (h : ValidT κ lo hi t) : t.keys.Chain' (· < ·) := by
  cases h
  assumption

theorem validT_bound {κ : ℕ → Option ℚ} {lo hi : Option ℚ} {t : BT}
    (h : ValidT κ lo hi t) : ∀ k ∈ t.keys, inB lo hi k := by
  cases h
  assumption

theorem validT_elen {κ : ℕ → Option ℚ} {lo hi : Option ℚ} {t : BT}
    (h : ValidT κ lo hi t) : t.elemIds.length = t.keys.length := by
  cases h
  assumption

theorem validT_elem {κ : ℕ → Option ℚ} {lo hi : Option ℚ} {t : BT}
    (h : ValidT κ lo hi t) :
    ∀ i : ℕ, i < t.keys.length → ∃ eid, t.elemIds[i]? = some eid ∧ κ eid = t.keys[i]? := by
  cases h
  assumption

theorem validT_leaf {κ : ℕ → Option ℚ} {lo hi : Option ℚ} {t : BT}
    (h : ValidT κ lo hi t) : t.isLeaf = true → t.children = [] := by
  cases h
  assumption

theorem validT_internal {κ : ℕ → Option ℚ} {lo hi : Option ℚ} {t : BT}
    (h : ValidT κ lo hi t) : t.isLeaf = false → t.children.length = t.keys.length + 1 := by
  cases h
  assumption

theorem validT_child {κ : ℕ → Option ℚ} {lo hi : Option ℚ} {t : BT}
    (h : ValidT κ lo hi t) :
    ∀ i c, t.children[i]? = some c →
      ValidT κ (boundL t.keys lo i) (boundR t.keys hi i) c := by
  cases h
  assumption

theorem nodesNE_keys {t : BT} (h : NodesNE t) : t.keys ≠ [] := by
  cases h
  assumption

theorem nodesNE_child {t : BT} (h : NodesNE t) : ∀ c ∈ t.children, NodesNE c := by
  cases h
  assumption

/-- Key lookup monotone extension: a valid tree stays valid for any lookup
that agrees on defined values. -/
theorem validT_mono {κ κ2 : ℕ → Option ℚ} (hk : ∀ i v, κ i = some v → κ2 i = some v)
    {lo hi : Option ℚ} {t : BT} (h : ValidT κ lo hi t) : ValidT κ2 lo hi t := by
  induction h with
  | @mk lo hi keys elemIds children isLeaf hs hb hel hep hl hi2 hc ih =>
    refine ValidT.mk hs hb hel ?_ hl hi2 ?_
    · intro i hilt
      rcases hep i hilt with ⟨eid, h1, h2⟩
      refine ⟨eid, h1, ?_⟩
      cases hkk : keys[i]? with
      | none =>
        rw [hkk] at h2
        rw [List.getElem?_eq_none_iff] at hkk
        omega
      | some v =>
        rw [hkk] at h2
        exact hk eid v h2
    · intro i c hc2
      exact ih i c hc2

/-- Every key of a valid tree resolves to an arena entry with that key. -/
theorem keyInT_arena {κ : ℕ → Option ℚ} {lo hi : Option ℚ} {t : BT} {k : ℚ}
    (hv : ValidT κ lo hi t) (h : KeyInT t k) : ∃ eid, κ eid = some k := by
  induction h generalizing lo hi with
  | @here keys elemIds children isLeaf k hmem =>
    rcases List.mem_iff_getElem.mp hmem with ⟨i, hilt, hik⟩
    rcases validT_elem hv i (by simpa [BT.keys] using hilt) with ⟨eid, h1, h2⟩
    refine ⟨eid, ?_⟩
    rw [h2]
    show keys[i]? = some k
    rw [List.getElem?_eq_getElem hilt, hik]
  | @child keys elemIds children isLeaf k c hmem hkin ih =>
    rcases List.mem_iff_getElem.mp hmem with ⟨i, hilt, hic⟩
    have hci : (BT.mk keys elemIds children isLeaf).children[i]? = some c := by
      simp [BT.children] at hilt ⊢
      rw [List.getElem?_eq_getElem hilt, hic]
    exact ih (validT_child hv i c hci)

/-- A child slot of a valid internal node has an in-range index. -/
theorem validT_child_idx {κ : ℕ → Option ℚ} {lo hi : Option ℚ} {t : BT}
    (hv : ValidT κ lo hi t) {i : ℕ} {c : BT} (hc : t.children[i]? = some c) :
    t.isLeaf = false ∧ i < t.keys.length + 1 := by
  have hlen : i < t.children.length := by
    by_contra hc2
    rw [List.getElem?_eq_none (le_of_not_lt hc2)] at hc
    exact Option.noConfusion hc
  cases hl : t.isLeaf with
  | true =>
    rw [validT_leaf hv hl] at hlen
    simp at hlen
  | false =>
    refine ⟨rfl, ?_⟩
    rw [validT_internal hv hl] at hlen
    exact hlen

/-- Keys of a valid tree lie inside its interval. -/
theorem keyInT_inB {κ : ℕ → Option ℚ} {lo hi : Option ℚ} {t : BT} {k : ℚ}
    (hv : ValidT κ lo hi t) (h : KeyInT t k) : inB lo hi k := by
  induction h generalizing lo hi with
  | @here keys elemIds children isLeaf k hmem => exact validT_bound hv k hmem
  | @child keys elemIds children isLeaf k c hmem hkin ih =>
    rcases List.mem_iff_getElem.mp hmem with ⟨i, hilt, hic⟩
    have hci : (BT.mk keys elemIds children isLeaf).children[i]? = some c := by
      simp [BT.children] at hilt ⊢
      rw [List.getElem?_eq_getElem hilt, hic]
    have hsub := ih (validT_child hv i c hci)
    have hidx := validT_child_idx hv hci
    simp [BT.keys] at hidx
    constructor
    · intro a ha
      cases i with
      | zero => exact hsub.1 a (by simpa [BT.keys, boundL] using ha)
      | succ j =>
        have hjlt : j < keys.length := by omega
        have hkey : keys[j]? = some keys[j] := List.getElem?_eq_getElem hjlt
        have h1 : keys[j] < k := hsub.1 keys[j] (by simpa [BT.keys, boundL] using hkey)
        have h2 : a < keys[j] := (validT_bound hv keys[j]
          (by simp [BT.keys])).1 a ha
        exact h2.trans h1
    · intro b hb2
      have hR := hsub.2
      simp only [BT.keys, boundR] at hR
      cases hkk : keys[i]? with
      | some x =>
        rw [hkk] at hR
        have h1 : k < x := hR x rfl
        have h2 : x < b := (validT_bound hv x
          (by show x ∈ keys; exact List.mem_iff_getElem?.mpr ⟨i, hkk⟩)).2 b hb2
        exact h1.trans h2
      | none =>
        rw [hkk] at hR
        exact hR b hb2

/-!
Scan-index characterisation and sorted-insertion list lemmas.
-/

theorem scanIdx_le (k : ℚ) (keys : List ℚ) : scanIdx k keys ≤ keys.length := by
  induction keys with
  | nil => simp [scanIdx]
  | cons x xs ih =>
    unfold scanIdx
    by_cases h : x < k
    · rw [if_pos h]
      simp
      omega
    · rw [if_neg h]
      simp

theorem scanIdx_lt_keys (k : ℚ) (keys : List ℚ) :
    ∀ j, j < scanIdx k keys → ∃ x, keys[j]? = some x ∧ x < k := by
  induction keys with
  | nil => intro j hj; simp [scanIdx] at hj
  | cons x xs ih =>
    intro j hj
    unfold scanIdx at hj
    by_cases h : x < k
    · rw [if_pos h] at hj
      cases j with
      | zero => exact ⟨x, by simp, h⟩
      | succ j2 =>
        rcases ih j2 (by omega) with ⟨y, hy1, hy2⟩
        exact ⟨y, by simpa using hy1, hy2⟩
    · rw [if_neg h] at hj
      omega

theorem scanIdx_stop (k : ℚ) (keys : List ℚ) :
    ∀ x, keys[scanIdx k keys]? = some x → ¬ x < k := by
  induction keys with
  | nil => intro x hx; simp [scanIdx] at hx
  | cons y xs ih =>
    intro x hx
    unfold scanIdx at hx
    by_cases h : y < k
    · rw [if_pos h] at hx
      simp at hx
      exact ih x hx
    · rw [if_neg h] at hx
      simp at hx
      rw [← hx]
      exact h

theorem scanIdx_mem (k : ℚ) (keys : List ℚ) (hs : keys.Pairwise (· < ·))
    (hm : k ∈ keys) : keys[scanIdx k keys]? = some k := by
  induction keys with
  | nil => cases hm
  | cons x xs ih =>
    unfold scanIdx
    by_cases h : x < k
    · rw [if_pos h]
      have hk : k ∈ xs := by
        rcases List.mem_cons.mp hm with rfl | h2
        · exact absurd h (lt_irrefl k)
        · exact h2
      simpa using ih (List.Pairwise.of_cons hs) hk
    · rw [if_neg h]
      rcases List.mem_cons.mp hm with rfl | h2
      · simp
      · exact absurd (List.rel_of_pairwise_cons hs h2) h

theorem scanIdx_get_mem {k : ℚ} {keys : List ℚ} {x : ℚ}
    (h : keys[scanIdx k keys]? = some x) : x ∈ keys :=
  List.mem_iff_getElem?.mpr ⟨scanIdx k keys, h⟩

/-- insertIdx within bounds is take-cons-drop. -/
theorem insertIdx_split (i : ℕ) (a : ℚ) (l : List ℚ) (h : i ≤ l.length) :
    l.insertIdx i a = l.take i ++ a :: l.drop i := by
  induction l generalizing i with
  | nil =>
    simp at h
    subst h
    simp
  | cons x xs ih =>
    cases i with
    | zero => simp [List.insertIdx]
    | succ j =>
      simp [List.insertIdx]
      exact ih j (by simpa using h)

theorem insertIdxN_split (i : ℕ) (a : ℕ) (l : List ℕ) (h : i ≤ l.length) :
    l.insertIdx i a = l.take i ++ a :: l.drop i := by
  induction l generalizing i with
  | nil =>
    simp at h
    subst h
    simp
  | cons x xs ih =>
    cases i with
    | zero => simp [List.insertIdx]
    | succ j =>
      simp [List.insertIdx]
      exact ih j (by simpa using h)

theorem mem_insertIdx {i : ℕ} {a x : ℚ} {l : List ℚ} (h : i ≤ l.length) :
    x ∈ l.insertIdx i a ↔ x = a ∨ x ∈ l := by
  rw [insertIdx_split i a l h]
  simp
  constructor
  · rintro (h1 | h1 | h1)
    · exact Or.inr (List.mem_of_mem_take h1)
    · exact Or.inl h1
    · exact Or.inr (List.mem_of_mem_drop h1)
  · rintro (h1 | h1)
    · exact Or.inr (Or.inl h1)
    · rw [← List.take_append_drop i l] at h1
      rcases List.mem_append.mp h1 with h2 | h2
      · exact Or.inl h2
      · exact Or.inr (Or.inr h2)

/-- Sorted insertion: with everything before position i below a and
everything from position i above a, insertIdx keeps strict sortedness. -/
theorem pairwise_insertIdx {i : ℕ} {a : ℚ} {l : List ℚ}
    (hs : l.Pairwise (· < ·)) (h : i ≤ l.length)
    (hlo : ∀ x ∈ l.take i, x < a) (hhi : ∀ x ∈ l.drop i, a < x) :
    (l.insertIdx i a).Pairwise (· < ·) := by
  rw [insertIdx_split i a l h]
  rw [List.pairwise_append]
  refine ⟨hs.sublist (List.take_sublist i l), ?_, ?_⟩
  · rw [List.pairwise_cons]
    exact ⟨hhi, hs.sublist (List.drop_sublist i l)⟩
  · intro x hx y hy
    rcases List.mem_cons.mp hy with rfl | h2
    · exact hlo x hx
    · have hsplit : (l.take i ++ l.drop i).Pairwise (· < ·) := by
        rw [List.take_append_drop i l]
        exact hs
      exact (List.pairwise_append.mp hsplit).2.2 x hx y h2

/-!
Search correctness.
-/

theorem msizeList_mem {c : BT} {cs : List BT} (h : c ∈ cs) :
    c.msize ≤ msizeList cs := by
  induction cs with
  | nil => cases h
  | cons x xs ih =>
    rcases List.mem_cons.mp h with rfl | h2
    · unfold msizeList
      omega
    · have := ih h2
      unfold msizeList
      omega

theorem msize_child_lt {keys : List ℚ} {elemIds : List ℕ} {children : List BT}
    {isLeaf : Bool} {i : ℕ} {c : BT}
    (h : children[i]? = some c) :
    c.msize < (BT.mk keys elemIds children isLeaf).msize := by
  have hm : c ∈ children := List.mem_iff_getElem?.mpr ⟨i, h⟩
  have h1 := msizeList_mem hm
  have h2 : (BT.mk keys elemIds children isLeaf).msize = 1 + msizeList children := by
    simp [BT.msize]
  omega

theorem sorted_getElem_lt {keys : List ℚ} (hs : keys.Pairwise (· < ·))
    {i j : ℕ} (hij : i < j) (hj : j < keys.length) :
    keys.get ⟨i, by omega⟩ < keys.get ⟨j, hj⟩ :=
  List.pairwise_iff_getElem.mp hs i j (by omega) hj hij

/-- Pairwise-sorted keys compared through optional indexing. -/
theorem sorted_get_le {keys : List ℚ} (hs : keys.Pairwise (· < ·)) {i j : ℕ}
    (hij : i ≤ j) {x y : ℚ} (hx : keys[i]? = some x) (hy : keys[j]? = some y) :
    x ≤ y := by
  rcases eq_or_lt_of_le hij with rfl | hlt
  · rw [hx] at hy
    cases hy
    exact le_refl x
  · have hjlen : j < keys.length := by
      by_contra hc
      rw [List.getElem?_eq_none (le_of_not_lt hc)] at hy
      exact Option.noConfusion hy
    have hilen : i < keys.length := by omega
    rw [List.getElem?_eq_getElem hilen] at hx
    rw [List.getElem?_eq_getElem hjlen] at hy
    cases hx
    cases hy
    exact le_of_lt (sorted_getElem_lt hs hlt hjlen)

/-- If k is among sorted keys then the scan index points at it. -/
theorem sorted_mem_scanIdx {k : ℚ} {keys : List ℚ} (hs : keys.Pairwise (· < ·))
    (hm : k ∈ keys) : keys[scanIdx k keys]? = some k := scanIdx_mem k keys hs hm

/-- Routing: a valid subtree key inside the scan gap lies in child scanIdx. -/
theorem keyInT_route {κ : ℕ → Option ℚ} {lo hi : Option ℚ}
    {keys : List ℚ} {elemIds : List ℕ} {children : List BT} {isLeaf : Bool} {k : ℚ}
    (hv : ValidT κ lo hi (.mk keys elemIds children isLeaf))
    (hin : KeyInT (.mk keys elemIds children isLeaf) k)
    (hnot : k ∉ keys) :
    ∃ ch, children[scanIdx k keys]? = some ch ∧ KeyInT ch k := by
  have hs : keys.Pairwise (· < ·) :=
    List.chain'_iff_pairwise.mp (by simpa [BT.keys] using validT_sorted hv)
  cases hin with
  | here hmem => exact absurd hmem hnot
  | @child _ _ _ _ _ c hmem hkin =>
    rcases List.mem_iff_getElem.mp hmem with ⟨j, hjlt, hjc⟩
    have hcj : children[j]? = some c := by
      rw [List.getElem?_eq_getElem hjlt, hjc]
    have hcv := validT_child hv j c (by simpa [BT.children] using hcj)
    have hbounds := keyInT_inB hcv hkin
    simp only [BT.keys] at hbounds
    have hidx : j = scanIdx k keys := by
      by_contra hne
      rcases Nat.lt_or_ge j (scanIdx k keys) with hlt | hge
      · -- j < scanIdx: upper bound of child j is keys[j], and keys[j] < k
        rcases scanIdx_lt_keys k keys j hlt with ⟨x, hx1, hx2⟩
        have : k < x := by
          have := hbounds.2 x (by simp [boundR, hx1])
          exact this
        exact absurd (this.trans hx2) (lt_irrefl k)
      · -- scanIdx < j: lower bound of child j is keys[j-1] with k ≤ keys[scanIdx] ≤ keys[j-1]
        have hgt : scanIdx k keys < j := lt_of_le_of_ne hge (Ne.symm hne)
        cases j with
        | zero => omega
        | succ j2 =>
          have hj2 : j2 < keys.length := by
            have hidxlen := validT_child_idx hv (by simpa [BT.children] using hcj)
            simp [BT.keys] at hidxlen
            omega
          have hkey : keys[j2]? = some keys[j2] := List.getElem?_eq_getElem hj2
          have hlow : keys[j2] < k := hbounds.1 keys[j2] (by simp [boundL, hkey])
          -- but keys[scanIdx]: not below k, and scanIdx ≤ j2 so keys[scanIdx] ≤ keys[j2]
          have hsi : scanIdx k keys ≤ j2 := by omega
          rcases Nat.lt_or_ge (scanIdx k keys) keys.length with hsl | hsl
          · obtain ⟨y, hy⟩ : ∃ y, keys[scanIdx k keys]? = some y :=
              ⟨_, List.getElem?_eq_getElem hsl⟩
            have h1 : ¬ y < k := scanIdx_stop k keys y hy
            have h2 : y ≤ keys[j2] := sorted_get_le hs hsi hy hkey
            exact h1 (lt_of_le_of_lt h2 hlow)
          · omega
    subst hidx
    exact ⟨c, hcj, hkin⟩

/-- When k is not in the node keys, the interval of child scanIdx contains
k. -/
theorem scan_child_inB {κ : ℕ → Option ℚ} {lo hi : Option ℚ}
    {keys : List ℚ} {elemIds : List ℕ} {children : List BT} {isLeaf : Bool} {k : ℚ}
    (hv : ValidT κ lo hi (.mk keys elemIds children isLeaf))
    (hin : inB lo hi k) (hnot : k ∉ keys) :
    inB (boundL keys lo (scanIdx k keys)) (boundR keys hi (scanIdx k keys)) k := by
  constructor
  · intro a ha
    cases hsi : scanIdx k keys with
    | zero =>
      rw [hsi] at ha
      exact hin.1 a (by simpa [boundL] using ha)
    | succ j =>
      rw [hsi] at ha
      simp [boundL] at ha
      rcases scanIdx_lt_keys k keys j (by omega) with ⟨x, hx1, hx2⟩
      rw [hx1] at ha
      cases ha
      exact hx2
  · intro b hb
    unfold boundR at hb
    cases hk : keys[scanIdx k keys]? with
    | some x =>
      rw [hk] at hb
      obtain rfl : x = b := by injection hb
      have h1 : ¬ x < k := scanIdx_stop k keys x hk
      have h2 : x ≠ k := by
        intro he
        subst he
        exact hnot (scanIdx_get_mem hk)
      exact lt_of_le_of_ne (le_of_not_lt h1) (Ne.symm h2)
    | none =>
      rw [hk] at hb
      exact hin.2 b hb

theorem search_left_eq (fuel : ℕ) (keys : List ℚ) (elemIds : List ℕ)
    (children : List BT) (isLeaf : Bool) (k : ℚ) :
    search_left (fuel + 1) (.mk keys elemIds children isLeaf) k =
      match keys.head? with
      | none => some .panicked
      | some _ =>
        match keys[scanIdx k keys]? with
        | some c =>
          if c = k then
            match elemIds[scanIdx k keys]? with
            | some e => some (.found e)
            | none => some .panicked
          else if isLeaf then some .notFound
          else
            match children[scanIdx k keys]? with
            | some ch => search_left fuel ch k
            | none => some .panicked
        | none =>
          if isLeaf then some .notFound
          else
            match children[scanIdx k keys]? with
            | some ch => search_left fuel ch k
            | none => some .panicked := rfl

/-- Left-scan descent: on a valid, everywhere-non-empty tree with enough
fuel it finds an element carrying the key exactly when the key is in the
subtree and reports not-found otherwise. -/
theorem search_left_spec {κ : ℕ → Option ℚ} :
    ∀ (fuel : ℕ) (t : BT) (lo hi : Option ℚ) (k : ℚ),
    t.msize < fuel → ValidT κ lo hi t → NodesNE t → inB lo hi k →
    (KeyInT t k → ∃ e, search_left fuel t k = some (.found e) ∧ κ e = some k) ∧
    (¬ KeyInT t k → search_left fuel t k = some .notFound) := by
  intro fuel
  induction fuel with
  | zero => intro t lo hi k hf; omega
  | succ fuel ih =>
    intro t lo hi k hf hv hne hb
    cases t with
    | mk keys elemIds children isLeaf =>
      have hs : keys.Pairwise (· < ·) :=
        List.chain'_iff_pairwise.mp (by simpa [BT.keys] using validT_sorted hv)
      have hkne : keys ≠ [] := by simpa [BT.keys] using nodesNE_keys hne
      rw [search_left_eq]
      obtain ⟨k0, hk0⟩ : ∃ k0, keys.head? = some k0 := by
        cases keys with
        | nil => exact absurd rfl hkne
        | cons a l => exact ⟨a, rfl⟩
      simp only [hk0]
      cases hkk : keys[scanIdx k keys]? with
      | some c =>
        simp only [hkk]
        by_cases hck : c = k
        · subst hck
          have hmem : c ∈ keys := scanIdx_get_mem hkk
          have hlt : scanIdx c keys < keys.length := by
            by_contra hc2
            rw [List.getElem?_eq_none (le_of_not_lt hc2)] at hkk
            exact Option.noConfusion hkk
          rcases validT_elem hv (scanIdx c keys) (by simpa [BT.keys] using hlt)
            with ⟨eid, he1, he2⟩
          rw [if_pos rfl]
          have he1v : elemIds[scanIdx c keys]? = some eid := by
            simpa [BT.elemIds] using he1
          simp only [he1v]
          constructor
          · intro _
            refine ⟨eid, rfl, ?_⟩
            rw [he2]
            simpa [BT.keys] using hkk
          · intro hni
            exact absurd (KeyInT.here hmem) hni
        · rw [if_neg hck]
          have hknotmem : k ∉ keys := by
            intro hm
            rw [sorted_mem_scanIdx hs hm] at hkk
            exact hck (Option.some.inj hkk).symm
          cases hleaf : isLeaf with
          | true =>
            rw [if_pos rfl]
            have hchn : children = [] := by
              simpa [BT.isLeaf, BT.children] using validT_leaf hv (by simpa [BT.isLeaf] using hleaf)
            constructor
            · intro hin
              exfalso
              cases hin with
              | here hmem => exact hknotmem hmem
              | child hmem _ => rw [hchn] at hmem; cases hmem
            · intro _; rfl
          | false =>
            subst hleaf
            rw [if_neg (by simp)]
            have hchlen : children.length = keys.length + 1 := by
              simpa [BT.isLeaf, BT.keys, BT.children] using
                validT_internal hv (by simp [BT.isLeaf])
            have hchlt : scanIdx k keys < children.length := by
              have := scanIdx_le k keys
              omega
            obtain ⟨ch, hch⟩ : ∃ ch, children[scanIdx k keys]? = some ch :=
              ⟨_, List.getElem?_eq_getElem hchlt⟩
            simp only [hch]
            have hcv := validT_child hv (scanIdx k keys) ch (by simpa [BT.children] using hch)
            have hcne : NodesNE ch :=
              nodesNE_child hne ch (by
                simp [BT.children]
                exact List.mem_iff_getElem?.mpr ⟨_, hch⟩)
            have hcin : inB (boundL keys lo (scanIdx k keys))
                (boundR keys hi (scanIdx k keys)) k := scan_child_inB hv hb hknotmem
            have hfm : ch.msize < fuel := by
              have h3 : ch.msize < (BT.mk keys elemIds children false).msize :=
                msize_child_lt hch
              omega
            have ihc := ih ch _ _ k hfm (by simpa [BT.keys] using hcv) hcne hcin
            constructor
            · intro hin
              rcases keyInT_route hv hin hknotmem with ⟨ch2, hch2, hkin2⟩
              rw [hch] at hch2
              injection hch2 with he
              subst he
              exact ihc.1 hkin2
            · intro hni
              refine ihc.2 ?_
              intro hkin2
              exact hni (KeyInT.child (List.mem_iff_getElem?.mpr ⟨_, hch⟩) hkin2)
      | none =>
        simp only [hkk]
        have hsilen : scanIdx k keys = keys.length := by
          have h1 := scanIdx_le k keys
          have h2 : keys.length ≤ scanIdx k keys := by
            by_contra hc2
            rw [List.getElem?_eq_getElem (lt_of_not_le hc2)] at hkk
            exact Option.noConfusion hkk
          omega
        have hknotmem : k ∉ keys := by
          intro hm
          rw [sorted_mem_scanIdx hs hm] at hkk
          exact Option.noConfusion hkk
        cases hleaf : isLeaf with
        | true =>
          rw [if_pos rfl]
          have hchn : children = [] := by
            simpa [BT.isLeaf, BT.children] using validT_leaf hv (by simpa [BT.isLeaf] using hleaf)
          constructor
          · intro hin
            exfalso
            cases hin with
            | here hmem => exact hknotmem hmem
            | child hmem _ => rw [hchn] at hmem; cases hmem
          · intro _; rfl
        | false =>
          subst hleaf
          rw [if_neg (by simp)]
          have hchlen : children.length = keys.length + 1 := by
            simpa [BT.isLeaf, BT.keys, BT.children] using
              validT_internal hv (by simp [BT.isLeaf])
          have hchlt : scanIdx k keys < children.length := by omega
          obtain ⟨ch, hch⟩ : ∃ ch, children[scanIdx k keys]? = some ch :=
            ⟨_, List.getElem?_eq_getElem hchlt⟩
          simp only [hch]
          have hcv := validT_child hv (scanIdx k keys) ch (by simpa [BT.children] using hch)
          have hcne : NodesNE ch :=
            nodesNE_child hne ch (by
              simp [BT.children]
              exact List.mem_iff_getElem?.mpr ⟨_, hch⟩)
          have hcin : inB (boundL keys lo (scanIdx k keys))
              (boundR keys hi (scanIdx k keys)) k := scan_child_inB hv hb hknotmem
          have hfm : ch.msize < fuel := by
            have h3 : ch.msize < (BT.mk keys elemIds children false).msize :=
              msize_child_lt hch
            omega
          have ihc := ih ch _ _ k hfm (by simpa [BT.keys] using hcv) hcne hcin
          constructor
          · intro hin
            rcases keyInT_route hv hin hknotmem with ⟨ch2, hch2, hkin2⟩
            rw [hch] at hch2
            injection hch2 with he
            subst he
            exact ihc.1 hkin2
          · intro hni
            refine ihc.2 ?_
            intro hkin2
            exact hni (KeyInT.child (List.mem_iff_getElem?.mpr ⟨_, hch⟩) hkin2)

theorem srIdx_eq (keys : List ℚ) (k : ℚ) (i : ℕ) :
    srIdx keys k (i + 1) =
      match keys[i + 1]? with
      | some c => if k < c then srIdx keys k i else i + 1
      | none => i + 1 := rfl

/-- Indices at or beyond the left-scan stop hold keys not below the query. -/
theorem scanIdx_ge_not_lt {k : ℚ} {keys : List ℚ} (hs : keys.Pairwise (· < ·))
    {j : ℕ} {x : ℚ} (hj : scanIdx k keys ≤ j) (hx : keys[j]? = some x) :
    ¬ x < k := by
  have hjlt : j < keys.length := by
    by_contra hc
    rw [List.getElem?_eq_none (le_of_not_lt hc)] at hx
    exact Option.noConfusion hx
  have hslt : scanIdx k keys < keys.length := lt_of_le_of_lt hj hjlt
  obtain ⟨y, hy⟩ : ∃ y, keys[scanIdx k keys]? = some y :=
    ⟨_, List.getElem?_eq_getElem hslt⟩
  have h1 := scanIdx_stop k keys y hy
  have h2 : y ≤ x := sorted_get_le hs hj hy hx
  intro h3
  exact h1 (lt_of_le_of_lt h2 h3)

/-- The right-to-left scan of a present key stops at the key's own index. -/
theorem srIdx_mem {k : ℚ} {keys : List ℚ} (hs : keys.Pairwise (· < ·))
    {p : ℕ} (hp : keys[p]? = some k) :
    ∀ i, p ≤ i → i < keys.length → srIdx keys k i = p := by
  intro i
  induction i with
  | zero =>
    intro h1 _
    have hp0 : p = 0 := Nat.le_zero.mp h1
    simp [srIdx, hp0]
  | succ i ih =>
    intro h1 h2
    obtain ⟨c, hc⟩ : ∃ c, keys[i + 1]? = some c :=
      ⟨_, List.getElem?_eq_getElem h2⟩
    simp only [srIdx_eq, hc]
    by_cases hpi : p = i + 1
    · have hck : c = k := by
        rw [hpi] at hp
        rw [hp] at hc
        exact (Option.some.inj hc).symm
      subst hck
      rw [if_neg (lt_irrefl c)]
      omega
    · have hple : p ≤ i := by omega
      have hplt : p < i + 1 := by omega
      have hkc : k < c := by
        have hplen : p < keys.length := by omega
        have hpv : keys.get ⟨p, hplen⟩ = k := by
          rw [List.getElem?_eq_getElem hplen] at hp
          exact Option.some.inj hp
        have hcv : keys.get ⟨i + 1, h2⟩ = c := by
          rw [List.getElem?_eq_getElem h2] at hc
          exact Option.some.inj hc
        have h3 := sorted_getElem_lt hs hplt h2
        rw [hpv, hcv] at h3
        exact h3
      rw [if_pos hkc]
      exact ih hple (by omega)

/-- The right-to-left scan of an absent key stops one below the left-scan
stop (at zero when every key exceeds the query). -/
theorem srIdx_not_mem {k : ℚ} {keys : List ℚ} (hs : keys.Pairwise (· < ·))
    (hnm : k ∉ keys) :
    ∀ i, i < keys.length → scanIdx k keys ≤ i + 1 →
      srIdx keys k i = scanIdx k keys - 1 := by
  intro i
  induction i with
  | zero =>
    intro _ hs1
    simp only [srIdx]
    omega
  | succ i ih =>
    intro h2 hsle
    obtain ⟨c, hc⟩ : ∃ c, keys[i + 1]? = some c :=
      ⟨_, List.getElem?_eq_getElem h2⟩
    have hcne : c ≠ k := by
      intro he
      subst he
      exact hnm (List.mem_iff_getElem?.mpr ⟨_, hc⟩)
    simp only [srIdx_eq, hc]
    by_cases hsc : scanIdx k keys ≤ i + 1
    · have hnlt : ¬ c < k := scanIdx_ge_not_lt hs hsc hc
      have hklt : k < c := lt_of_le_of_ne (not_lt.mp hnlt) (Ne.symm hcne)
      rw [if_pos hklt]
      exact ih (by omega) hsc
    · have hgt : i + 1 < scanIdx k keys := lt_of_not_le hsc
      rcases scanIdx_lt_keys k keys (i + 1) hgt with ⟨x, hx1, hx2⟩
      rw [hc] at hx1
      obtain rfl : x = c := (Option.some.inj hx1).symm
      rw [if_neg (not_lt.mpr (le_of_lt hx2))]
      omega

theorem search_right_eq (fuel : ℕ) (keys : List ℚ) (elemIds : List ℕ)
    (children : List BT) (isLeaf : Bool) (k : ℚ) :
    search_right (fuel + 1) (.mk keys elemIds children isLeaf) k =
      if keys.isEmpty then some .panicked
      else
        match keys[srIdx keys k (keys.length - 1)]? with
        | none => some .panicked
        | some c =>
          if k = c then
            match elemIds[srIdx keys k (keys.length - 1)]? with
            | some e => some (.found e)
            | none => some .panicked
          else if isLeaf then some .notFound
          else
            match children[if k > c then srIdx keys k (keys.length - 1) + 1
                           else srIdx keys k (keys.length - 1)]? with
            | some ch => search_right fuel ch k
            | none => some .panicked := rfl

/-- Right-scan descent: on a valid, everywhere-non-empty tree with enough
fuel it finds an element carrying the key exactly when the key is in the
subtree and reports not-found otherwise. -/
theorem search_right_spec {κ : ℕ → Option ℚ} :
    ∀ (fuel : ℕ) (t : BT) (lo hi : Option ℚ) (k : ℚ),
    t.msize < fuel → ValidT κ lo hi t → NodesNE t → inB lo hi k →
    (KeyInT t k → ∃ e, search_right fuel t k = some (.found e) ∧ κ e = some k) ∧
    (¬ KeyInT t k → search_right fuel t k = some .notFound) := by
  intro fuel
  induction fuel with
  | zero => intro t lo hi k hf; omega
  | succ fuel ih =>
    intro t lo hi k hf hv hne hb
    cases t with
    | mk keys elemIds children isLeaf =>
      have hs : keys.Pairwise (· < ·) :=
        List.chain'_iff_pairwise.mp (by simpa [BT.keys] using validT_sorted hv)
      have hkne : keys ≠ [] := by simpa [BT.keys] using nodesNE_keys hne
      have hn : 0 < keys.length := List.length_pos.mpr hkne
      have hemp : keys.isEmpty = false := by
        simpa [List.isEmpty_iff] using hkne
      rw [search_right_eq, hemp]
      rw [if_neg (by simp)]
      by_cases hmem : k ∈ keys
      · have hks : keys[scanIdx k keys]? = some k := sorted_mem_scanIdx hs hmem
        have hslt : scanIdx k keys < keys.length := by
          by_contra hc2
          rw [List.getElem?_eq_none (le_of_not_lt hc2)] at hks
          exact Option.noConfusion hks
        have hi2 : srIdx keys k (keys.length - 1) = scanIdx k keys :=
          srIdx_mem hs hks (keys.length - 1) (by omega) (by omega)
        simp only [hi2, hks]
        simp only [if_true]
        rcases validT_elem hv (scanIdx k keys) (by simpa [BT.keys] using hslt)
          with ⟨eid, he1, he2⟩
        have he1v : elemIds[scanIdx k keys]? = some eid := by
          simpa [BT.elemIds] using he1
        simp only [he1v]
        constructor
        · intro _
          refine ⟨eid, rfl, ?_⟩
          rw [he2]
          simpa [BT.keys] using hks
        · intro hni
          exact absurd (KeyInT.here hmem) hni
      · have hsle : scanIdx k keys ≤ keys.length := scanIdx_le k keys
        have hi2 : srIdx keys k (keys.length - 1) = scanIdx k keys - 1 :=
          srIdx_not_mem hs hmem (keys.length - 1) (by omega) (by omega)
        obtain ⟨c, hc⟩ : ∃ c, keys[scanIdx k keys - 1]? = some c :=
          ⟨_, List.getElem?_eq_getElem (by omega : scanIdx k keys - 1 < keys.length)⟩
        have hcmem : c ∈ keys := List.mem_iff_getElem?.mpr ⟨_, hc⟩
        have hcne : ¬ k = c := fun he => hmem (he ▸ hcmem)
        have hjx : (if k > c then scanIdx k keys - 1 + 1 else scanIdx k keys - 1)
            = scanIdx k keys := by
          by_cases h0 : 1 ≤ scanIdx k keys
          · rcases scanIdx_lt_keys k keys (scanIdx k keys - 1) (by omega)
              with ⟨x, hx1, hx2⟩
            rw [hc] at hx1
            obtain rfl : x = c := (Option.some.inj hx1).symm
            rw [if_pos hx2]
            omega
          · have hz : scanIdx k keys = 0 := by omega
            have hnlt : ¬ c < k := scanIdx_ge_not_lt hs (by omega) hc
            rw [if_neg hnlt]
            omega
        simp only [hi2, hc]
        rw [if_neg hcne]
        simp only [hjx]
        cases hleaf : isLeaf with
        | true =>
          rw [if_pos rfl]
          have hchn : children = [] := by
            simpa [BT.isLeaf, BT.children] using validT_leaf hv (by simpa [BT.isLeaf] using hleaf)
          constructor
          · intro hin
            exfalso
            cases hin with
            | here hmem2 => exact hmem hmem2
            | child hmem2 _ => rw [hchn] at hmem2; cases hmem2
          · intro _; rfl
        | false =>
          subst hleaf
          rw [if_neg (by simp)]
          have hchlen : children.length = keys.length + 1 := by
            simpa [BT.isLeaf, BT.keys, BT.children] using
              validT_internal hv (by simp [BT.isLeaf])
          have hchlt : scanIdx k keys < children.length := by omega
          obtain ⟨ch, hch⟩ : ∃ ch, children[scanIdx k keys]? = some ch :=
            ⟨_, List.getElem?_eq_getElem hchlt⟩
          simp only [hch]
          have hcv := validT_child hv (scanIdx k keys) ch (by simpa [BT.children] using hch)
          have hcne2 : NodesNE ch :=
            nodesNE_child hne ch (by
              simp [BT.children]
              exact List.mem_iff_getElem?.mpr ⟨_, hch⟩)
          have hcin : inB (boundL keys lo (scanIdx k keys))
              (boundR keys hi (scanIdx k keys)) k := scan_child_inB hv hb hmem
          have hfm : ch.msize < fuel := by
            have h3 : ch.msize < (BT.mk keys elemIds children false).msize :=
              msize_child_lt hch
            omega
          have ihc := ih ch _ _ k hfm (by simpa [BT.keys] using hcv) hcne2 hcin
          constructor
          · intro hin
            rcases keyInT_route hv hin hmem with ⟨ch2, hch2, hkin2⟩
            rw [hch] at hch2
            injection hch2 with he
            subst he
            exact ihc.1 hkin2
          · intro hni
            refine ihc.2 ?_
            intro hkin2
            exact hni (KeyInT.child (List.mem_iff_getElem?.mpr ⟨_, hch⟩) hkin2)

/-- The arena key lookup used by the tree validity predicate. -/
def keyOf (A : List Element) (i : ℕ) : Option ℚ := (A[i]?).map Element.key

/-- Well-formedness of a graph with chain enumeration L: the tree is valid
over the arena key lookup, non-empty arenas have everywhere non-empty
nodes, every arena key appears in the tree, and the chain and weight
invariants hold along L. -/
structure WFc (g : Graph) (L : List ℕ) : Prop where
  valid : ValidT (keyOf g.elems) none none g.root
  ne : g.elems ≠ [] → NodesNE g.root
  cover : ∀ (i : ℕ) (e : Element), g.elems[i]? = some e → KeyInT g.root e.key
  chain : ChainOK g L
  weights : WeightsOK g L
  emptyRoot : g.elems = [] → g.root = BT.newLeaf

/-- Well-formedness of a graph. -/
def WF (g : Graph) : Prop := ∃ L, WFc g L

theorem chainOK_extreme_some {g : Graph} {L : List ℕ} (hc : ChainOK g L)
    (hne : g.elems ≠ []) : ∃ a b, g.extreme_keys = some (a, b) := by
  have h0 : 0 < g.elems.length := List.length_pos.mpr hne
  have hL : 0 ∈ L := (hc.complete 0).mpr h0
  have hLne : L ≠ [] := fun h => by rw [h] at hL; cases hL
  obtain ⟨a, ha⟩ : ∃ a, L.head? = some a := by
    cases L with
    | nil => exact absurd rfl hLne
    | cons x xs => exact ⟨x, rfl⟩
  obtain ⟨b, hb⟩ : ∃ b, L.getLast? = some b :=
    Option.isSome_iff_exists.mp (List.getLast?_isSome.mpr hLne)
  unfold Graph.extreme_keys
  rw [hc.kmin, hc.kmax, ha, hb]
  exact ⟨_, _, rfl⟩

theorem chainOK_elems_of_key_min {g : Graph} {L : List ℕ} (hc : ChainOK g L)
    {a : ℚ} (hm : g.key_min = some a) : g.elems ≠ [] := by
  intro hel
  have hLnil : L = [] := by
    rw [List.eq_nil_iff_forall_not_mem]
    intro i hi
    have h2 := (hc.complete i).mp hi
    rw [hel] at h2
    simp at h2
  have h3 := hc.kmin
  rw [hLnil, hm] at h3
  simp at h3

/-- ASAGraph::search on a well-formed graph: for a key held by some arena
element it returns found with an element of that key, and for a key held
by no arena element it returns not-found (under either scan direction). -/
theorem Graph.search_spec {g : Graph} {L : List ℕ} (h : WFc g L) (k : ℚ) :
    ((∃ (i : ℕ) (e : Element), g.elems[i]? = some e ∧ e.key = k) →
       ∃ eid e, g.search k = some (.found eid) ∧ g.elems[eid]? = some e ∧ e.key = k) ∧
    ((∀ (i : ℕ) (e : Element), g.elems[i]? = some e → e.key ≠ k) → g.search k = some .notFound) := by
  cases hex : g.extreme_keys with
  | none =>
    have hsr : g.search k = some .notFound := by
      unfold Graph.search
      rw [hex]
    have hel : g.elems = [] := by
      by_contra hne
      rcases chainOK_extreme_some h.chain hne with ⟨a, b, hab⟩
      rw [hex] at hab
      exact Option.noConfusion hab
    constructor
    · rintro ⟨i, e, hie, -⟩
      rw [hel] at hie
      simp at hie
    · intro _
      exact hsr
  | some p =>
    obtain ⟨kmin, kmax⟩ := p
    have hsr : g.search k =
        if dist k kmax > dist k kmin then search_left (g.root.msize + 1) g.root k
        else search_right (g.root.msize + 1) g.root k := by
      unfold Graph.search
      rw [hex]
    have hpair : g.key_min = some kmin := by
      unfold Graph.extreme_keys at hex
      cases hm1 : g.key_min with
      | none => rw [hm1] at hex; simp at hex
      | some a =>
        cases hm2 : g.key_max with
        | none => rw [hm1, hm2] at hex; simp at hex
        | some b =>
          rw [hm1, hm2] at hex
          simp at hex
          rw [hex.1]
    have hne : g.elems ≠ [] := chainOK_elems_of_key_min h.chain hpair
    have hNE : NodesNE g.root := h.ne hne
    have hb : inB none none k :=
      ⟨fun a ha => Option.noConfusion ha, fun b hb2 => Option.noConfusion hb2⟩
    have hmf : g.root.msize < g.root.msize + 1 := Nat.lt_succ_self _
    constructor
    · rintro ⟨i, e, hie, hek⟩
      have hkin : KeyInT g.root k := hek ▸ h.cover i e hie
      rw [hsr]
      by_cases hd : dist k kmax > dist k kmin
      · rw [if_pos hd]
        rcases (search_left_spec _ g.root none none k hmf h.valid hNE hb).1 hkin
          with ⟨eid, he1, he2⟩
        unfold keyOf at he2
        rcases Option.map_eq_some'.mp he2 with ⟨e2, he3, he4⟩
        exact ⟨eid, e2, he1, he3, he4⟩
      · rw [if_neg hd]
        rcases (search_right_spec _ g.root none none k hmf h.valid hNE hb).1 hkin
          with ⟨eid, he1, he2⟩
        unfold keyOf at he2
        rcases Option.map_eq_some'.mp he2 with ⟨e2, he3, he4⟩
        exact ⟨eid, e2, he1, he3, he4⟩
    · intro habs
      have hnin : ¬ KeyInT g.root k := by
        intro hkin
        rcases keyInT_arena h.valid hkin with ⟨eid, heid⟩
        unfold keyOf at heid
        rcases Option.map_eq_some'.mp heid with ⟨e2, he3, he4⟩
        exact habs eid e2 he3 he4
      rw [hsr]
      by_cases hd : dist k kmax > dist k kmin
      · rw [if_pos hd]
        exact (search_left_spec _ g.root none none k hmf h.valid hNE hb).2 hnin
      · rw [if_neg hd]
        exact (search_right_spec _ g.root none none k hmf h.valid hNE hb).2 hnin

theorem insertIdx_splitP {α : Type} (i : ℕ) (a : α) (l : List α) (h : i ≤ l.length) :
    l.insertIdx i a = l.take i ++ a :: l.drop i := by
  induction l generalizing i with
  | nil =>
    simp at h
    subst h
    simp
  | cons x xs ih =>
    cases i with
    | zero => simp
    | succ j =>
      simp at h
      simp [List.insertIdx_succ_cons, ih j h]

theorem length_insertIdxP {α : Type} (i : ℕ) (a : α) (l : List α)
    (h : i ≤ l.length) : (l.insertIdx i a).length = l.length + 1 := by
  rw [insertIdx_splitP i a l h]
  simp
  omega

theorem getElem?_insertIdx_lt {α : Type} {i j : ℕ} (a : α) (l : List α)
    (h : i ≤ l.length) (hj : j < i) : (l.insertIdx i a)[j]? = l[j]? := by
  rw [insertIdx_splitP i a l h]
  have hlen : (l.take i).length = i := by
    simp
    omega
  rw [List.getElem?_append]
  rw [hlen]
  rw [if_pos hj]
  exact List.getElem?_take_of_lt hj

theorem getElem?_insertIdx_self {α : Type} {i : ℕ} (a : α) (l : List α)
    (h : i ≤ l.length) : (l.insertIdx i a)[i]? = some a := by
  rw [insertIdx_splitP i a l h]
  have hlen : (l.take i).length = i := by
    simp
    omega
  rw [List.getElem?_append_right (by omega)]
  simp [hlen]

theorem getElem?_insertIdx_succ {α : Type} {i j : ℕ} (a : α) (l : List α)
    (h : i ≤ l.length) (hj : i ≤ j) : (l.insertIdx i a)[j + 1]? = l[j]? := by
  rw [insertIdx_splitP i a l h]
  have hlen : (l.take i).length = i := by
    simp
    omega
  rw [List.getElem?_append_right (by omega)]
  rw [hlen]
  have h2 : j + 1 - i = (j - i) + 1 := by omega
  rw [h2]
  simp [List.getElem?_drop]
  have h3 : i + (j - i) = j := by omega
  rw [h3]

/-- A key inside a child interval of a node lies inside the node's own
interval, given that the node's keys do. -/
theorem inB_of_childB {keys : List ℚ} {lo hi : Option ℚ} {i : ℕ} {x : ℚ}
    (hil : i ≤ keys.length) (hks : ∀ k ∈ keys, inB lo hi k)
    (hx : inB (boundL keys lo i) (boundR keys hi i) x) : inB lo hi x := by
  constructor
  · intro a ha
    cases i with
    | zero => exact hx.1 a ha
    | succ j =>
      cases hkj : keys[j]? with
      | none =>
        exfalso
        have hjl : keys.length ≤ j := by
          by_contra hc
          rw [List.getElem?_eq_getElem (lt_of_not_le hc)] at hkj
          exact Option.noConfusion hkj
        omega
      | some y =>
        have hy : y ∈ keys := List.mem_iff_getElem?.mpr ⟨_, hkj⟩
        have h1 : a < y := (hks y hy).1 a ha
        have h2 : y < x := hx.1 y (by simp [boundL, hkj])
        exact lt_trans h1 h2
  · intro b hb
    cases hki : keys[i]? with
    | none =>
      have hbr : boundR keys hi i = hi := by simp [boundR, hki]
      exact hx.2 b (by rw [hbr, hb])
    | some y =>
      have hy : y ∈ keys := List.mem_iff_getElem?.mpr ⟨_, hki⟩
      have h1 : x < y := hx.2 y (by simp [boundR, hki])
      have h2 : y < b := (hks y hy).2 b hb
      exact lt_trans h1 h2

/-- The left half kept by Node::split_child: keys and elements strictly
below the median, children up to and including the median position. -/
def leftNode (order : ℕ) (c : BT) : BT :=
  .mk (c.keys.take (order / 2)) (c.elemIds.take (order / 2))
    (c.children.take (order / 2 + 1)) c.isLeaf

/-- The right sibling created by Node::split_child: everything strictly
above the median. -/
def rightNode (order : ℕ) (c : BT) : BT :=
  .mk (c.keys.drop (order / 2 + 1)) (c.elemIds.drop (order / 2 + 1))
    (c.children.drop (order / 2 + 1)) c.isLeaf

theorem split_child_eq {keys : List ℚ} {elemIds : List ℕ} {children : List BT}
    {isLeaf : Bool} {order i : ℕ} {c : BT} {pk : ℚ} {pe : ℕ}
    (hc : children[i]? = some c)
    (hpk : c.keys[order / 2]? = some pk)
    (hpe : c.elemIds[order / 2]? = some pe) :
    split_child order (.mk keys elemIds children isLeaf) i =
      .mk (keys.insertIdx i pk) (elemIds.insertIdx i pe)
        ((children.set i (leftNode order c)).insertIdx (i + 1) (rightNode order c))
        isLeaf := by
  unfold leftNode rightNode
  simp only [split_child, hc, hpk, hpe]

/-- Pairwise-sorted keys compared strictly through optional indexing. -/
theorem sorted_get_lt {keys : List ℚ} (hs : keys.Pairwise (· < ·)) {i j : ℕ}
    (hij : i < j) {x y : ℚ} (hx : keys[i]? = some x) (hy : keys[j]? = some y) :
    x < y := by
  have hjl : j < keys.length := by
    by_contra hc
    rw [List.getElem?_eq_none (le_of_not_lt hc)] at hy
    exact Option.noConfusion hy
  have hil : i < keys.length := by omega
  rw [List.getElem?_eq_getElem hil] at hx
  rw [List.getElem?_eq_getElem hjl] at hy
  obtain rfl : keys.get ⟨i, hil⟩ = x := Option.some.inj hx
  obtain rfl : keys.get ⟨j, hjl⟩ = y := Option.some.inj hy
  exact sorted_getElem_lt hs hij hjl

theorem mem_insertIdxP {α : Type} {i : ℕ} {a x : α} {l : List α}
    (h : i ≤ l.length) : x ∈ l.insertIdx i a ↔ x = a ∨ x ∈ l := by
  rw [insertIdx_splitP i a l h]
  simp
  constructor
  · rintro (h1 | h1 | h1)
    · exact Or.inr (List.mem_of_mem_take h1)
    · exact Or.inl h1
    · exact Or.inr (List.mem_of_mem_drop h1)
  · rintro (h1 | h1)
    · exact Or.inr (Or.inl h1)
    · by_cases h2 : x ∈ l.take i
      · exact Or.inl h2
      · rcases (List.mem_append.mp ((List.take_append_drop i l).symm ▸ h1)) with h3 | h3
        · exact absurd h3 h2
        · exact Or.inr (Or.inr h3)

theorem msizeList_take_le (n : ℕ) (l : List BT) :
    msizeList (l.take n) ≤ msizeList l := by
  induction l generalizing n with
  | nil => simp [msizeList]
  | cons x xs ih =>
    cases n with
    | zero =>
      simp only [List.take_zero]
      have h1 : msizeList (x :: xs) = x.msize + msizeList xs := rfl
      have h2 : msizeList ([] : List BT) = 0 := rfl
      omega
    | succ m =>
      simp only [List.take_succ_cons]
      have h1 : msizeList (x :: xs.take m) = x.msize + msizeList (xs.take m) := rfl
      have h2 : msizeList (x :: xs) = x.msize + msizeList xs := rfl
      have := ih m
      omega

theorem msizeList_drop_le (n : ℕ) (l : List BT) :
    msizeList (l.drop n) ≤ msizeList l := by
  induction l generalizing n with
  | nil => simp [msizeList]
  | cons x xs ih =>
    cases n with
    | zero => simp
    | succ m =>
      simp only [List.drop_succ_cons]
      have h1 : msizeList (x :: xs) = x.msize + msizeList xs := rfl
      have := ih m
      omega

/-- Validity of the left part of a node cut at a key position: same lower
bound, the cut key as the new upper bound. -/
theorem validT_takeNode {κ : ℕ → Option ℚ} {lo hi : Option ℚ}
    {ck : List ℚ} {ce : List ℕ} {cc : List BT} {cl : Bool} {m : ℕ} {pk : ℚ}
    (hcv : ValidT κ lo hi (.mk ck ce cc cl))
    (hpk : ck[m]? = some pk) :
    ValidT κ lo (some pk) (.mk (ck.take m) (ce.take m) (cc.take (m + 1)) cl) := by
  have hm : m < ck.length := by
    by_contra hc
    rw [List.getElem?_eq_none (le_of_not_lt hc)] at hpk
    exact Option.noConfusion hpk
  have hsp : ck.Pairwise (· < ·) :=
    List.chain'_iff_pairwise.mp (by simpa [BT.keys] using validT_sorted hcv)
  have hbnd : ∀ k ∈ ck, inB lo hi k := by
    have := validT_bound hcv
    simpa [BT.keys] using this
  have helen : ce.length = ck.length := by
    have := validT_elen hcv
    simpa [BT.keys, BT.elemIds] using this
  have hptr : ∀ i : ℕ, i < ck.length → ∃ eid, ce[i]? = some eid ∧ κ eid = ck[i]? := by
    have := validT_elem hcv
    simpa [BT.keys, BT.elemIds] using this
  have hlf : cl = true → cc = [] := by
    have := validT_leaf hcv
    simpa [BT.isLeaf, BT.children] using this
  have hint : cl = false → cc.length = ck.length + 1 := by
    have := validT_internal hcv
    simpa [BT.isLeaf, BT.keys, BT.children] using this
  have hch : ∀ i c, cc[i]? = some c →
      ValidT κ (boundL ck lo i) (boundR ck hi i) c := by
    have := validT_child hcv
    simpa [BT.keys, BT.children] using this
  refine ValidT.mk ?_ ?_ ?_ ?_ ?_ ?_ ?_
  · exact List.chain'_iff_pairwise.mpr (hsp.sublist (List.take_sublist m ck))
  · intro k hk
    rcases List.mem_iff_getElem?.mp hk with ⟨j, hj⟩
    have hjm : j < m := by
      have hjl : j < (ck.take m).length := by
        by_contra hc
        rw [List.getElem?_eq_none (le_of_not_lt hc)] at hj
        exact Option.noConfusion hj
      simpa using lt_of_lt_of_le hjl (by simp)
    have hkj : ck[j]? = some k := by
      rw [← List.getElem?_take_of_lt hjm]
      exact hj
    refine ⟨fun a ha => (hbnd k (List.mem_iff_getElem?.mpr ⟨j, hkj⟩)).1 a ha, ?_⟩
    intro b hb
    obtain rfl : pk = b := Option.some.inj hb
    exact sorted_get_lt hsp hjm hkj hpk
  · simp
    omega
  · intro j hj
    have hjm : j < m := by simpa using lt_of_lt_of_le hj (by simp)
    rcases hptr j (by omega) with ⟨eid, h1, h2⟩
    refine ⟨eid, ?_, ?_⟩
    · rw [List.getElem?_take_of_lt hjm]
      exact h1
    · rw [List.getElem?_take_of_lt hjm]
      exact h2
  · intro h
    rw [hlf h]
    simp
  · intro h
    have := hint h
    simp
    omega
  · intro j ch hch2
    have hjm : j < m + 1 := by
      have hjl : j < (cc.take (m + 1)).length := by
        by_contra hc
        rw [List.getElem?_eq_none (le_of_not_lt hc)] at hch2
        exact Option.noConfusion hch2
      simpa using lt_of_lt_of_le hjl (by simp)
    have hcc : cc[j]? = some ch := by
      rw [← List.getElem?_take_of_lt hjm]
      exact hch2
    have hvc := hch j ch hcc
    have hbL : boundL (ck.take m) lo j = boundL ck lo j := by
      cases j with
      | zero => rfl
      | succ m2 =>
        show (ck.take m)[m2]? = ck[m2]?
        exact List.getElem?_take_of_lt (by omega)
    have hbR : boundR (ck.take m) (some pk) j = boundR ck hi j := by
      by_cases hjm2 : j < m
      · obtain ⟨y, hy⟩ : ∃ y, ck[j]? = some y :=
          ⟨_, List.getElem?_eq_getElem (by omega)⟩
        unfold boundR
        rw [List.getElem?_take_of_lt hjm2, hy]
      · have hje : j = m := by omega
        subst hje
        unfold boundR
        rw [List.getElem?_eq_none (by simp), hpk]
    rw [hbL, hbR]
    exact hvc

/-- Validity of the right part of a node cut after a key position: the cut
key as the new lower bound, same upper bound. -/
theorem validT_dropNode {κ : ℕ → Option ℚ} {lo hi : Option ℚ}
    {ck : List ℚ} {ce : List ℕ} {cc : List BT} {cl : Bool} {m : ℕ} {pk : ℚ}
    (hcv : ValidT κ lo hi (.mk ck ce cc cl))
    (hpk : ck[m]? = some pk) :
    ValidT κ (some pk) hi
      (.mk (ck.drop (m + 1)) (ce.drop (m + 1)) (cc.drop (m + 1)) cl) := by
  have hm : m < ck.length := by
    by_contra hc
    rw [List.getElem?_eq_none (le_of_not_lt hc)] at hpk
    exact Option.noConfusion hpk
  have hsp : ck.Pairwise (· < ·) :=
    List.chain'_iff_pairwise.mp (by simpa [BT.keys] using validT_sorted hcv)
  have hbnd : ∀ k ∈ ck, inB lo hi k := by
    have := validT_bound hcv
    simpa [BT.keys] using this
  have helen : ce.length = ck.length := by
    have := validT_elen hcv
    simpa [BT.keys, BT.elemIds] using this
  have hptr : ∀ i : ℕ, i < ck.length → ∃ eid, ce[i]? = some eid ∧ κ eid = ck[i]? := by
    have := validT_elem hcv
    simpa [BT.keys, BT.elemIds] using this
  have hlf : cl = true → cc = [] := by
    have := validT_leaf hcv
    simpa [BT.isLeaf, BT.children] using this
  have hint : cl = false → cc.length = ck.length + 1 := by
    have := validT_internal hcv
    simpa [BT.isLeaf, BT.keys, BT.children] using this
  have hch : ∀ i c, cc[i]? = some c →
      ValidT κ (boundL ck lo i) (boundR ck hi i) c := by
    have := validT_child hcv
    simpa [BT.keys, BT.children] using this
  refine ValidT.mk ?_ ?_ ?_ ?_ ?_ ?_ ?_
  · exact List.chain'_iff_pairwise.mpr (hsp.sublist (List.drop_sublist (m + 1) ck))
  · intro k hk
    rcases List.mem_iff_getElem?.mp hk with ⟨j, hj⟩
    have hkj : ck[m + 1 + j]? = some k := by
      rw [← List.getElem?_drop]
      exact hj
    refine ⟨?_, fun b hb => (hbnd k (List.mem_iff_getElem?.mpr ⟨_, hkj⟩)).2 b hb⟩
    intro a ha
    obtain rfl : pk = a := Option.some.inj ha
    exact sorted_get_lt hsp (by omega) hpk hkj
  · simp
    omega
  · intro j hj
    have hjm : j < ck.length - (m + 1) := by simpa using hj
    rcases hptr (m + 1 + j) (by omega) with ⟨eid, h1, h2⟩
    refine ⟨eid, ?_, ?_⟩
    · rw [List.getElem?_drop]
      exact h1
    · rw [List.getElem?_drop]
      exact h2
  · intro h
    rw [hlf h]
    simp
  · intro h
    have := hint h
    simp
    omega
  · intro j ch hch2
    have hcc : cc[m + 1 + j]? = some ch := by
      rw [← List.getElem?_drop]
      exact hch2
    have hvc := hch (m + 1 + j) ch hcc
    have hbL : boundL (ck.drop (m + 1)) (some pk) j = boundL ck lo (m + 1 + j) := by
      cases j with
      | zero =>
        show some pk = boundL ck lo (m + 1)
        show some pk = ck[m]?
        exact hpk.symm
      | succ m2 =>
        show (ck.drop (m + 1))[m2]? = boundL ck lo (m + 1 + (m2 + 1))
        have he : m + 1 + (m2 + 1) = (m + 1 + m2) + 1 := by omega
        rw [he]
        show (ck.drop (m + 1))[m2]? = ck[m + 1 + m2]?
        exact List.getElem?_drop ck (m + 1) m2
    have hbR : boundR (ck.drop (m + 1)) hi j = boundR ck hi (m + 1 + j) := by
      unfold boundR
      rw [List.getElem?_drop]
    rw [hbL, hbR]
    exact hvc

/-- Node::split_child preserves order validity of the parent's interval. -/
theorem validT_split_child {κ : ℕ → Option ℚ} {lo hi : Option ℚ}
    {keys : List ℚ} {elemIds : List ℕ} {children : List BT}
    {order i : ℕ} {c : BT} {pk : ℚ} {pe : ℕ}
    (hv : ValidT κ lo hi (.mk keys elemIds children false))
    (hc : children[i]? = some c)
    (hpk : c.keys[order / 2]? = some pk)
    (hpe : c.elemIds[order / 2]? = some pe) :
    ValidT κ lo hi (split_child order (.mk keys elemIds children false) i) := by
  rw [split_child_eq hc hpk hpe]
  have hil : i < children.length := by
    by_contra hc2
    rw [List.getElem?_eq_none (le_of_not_lt hc2)] at hc
    exact Option.noConfusion hc
  have hint : children.length = keys.length + 1 := by
    have := validT_internal hv
    simpa [BT.isLeaf, BT.keys, BT.children] using this
  have hin : i ≤ keys.length := by omega
  have helen : elemIds.length = keys.length := by
    have := validT_elen hv
    simpa [BT.keys, BT.elemIds] using this
  have hsp : keys.Pairwise (· < ·) :=
    List.chain'_iff_pairwise.mp (by simpa [BT.keys] using validT_sorted hv)
  have hbnd : ∀ k ∈ keys, inB lo hi k := by
    have := validT_bound hv
    simpa [BT.keys] using this
  have hptr : ∀ j : ℕ, j < keys.length →
      ∃ eid, elemIds[j]? = some eid ∧ κ eid = keys[j]? := by
    have := validT_elem hv
    simpa [BT.keys, BT.elemIds] using this
  have hchv : ∀ j ch, children[j]? = some ch →
      ValidT κ (boundL keys lo j) (boundR keys hi j) ch := by
    have := validT_child hv
    simpa [BT.children] using this
  have hcv := hchv i c hc
  have hpkmem : pk ∈ c.keys := List.mem_iff_getElem?.mpr ⟨_, hpk⟩
  have hpkB : inB (boundL keys lo i) (boundR keys hi i) pk :=
    validT_bound hcv pk hpkmem
  have hmid : order / 2 < c.keys.length := by
    by_contra hc2
    rw [List.getElem?_eq_none (le_of_not_lt hc2)] at hpk
    exact Option.noConfusion hpk
  have hκpe : κ pe = some pk := by
    rcases validT_elem hcv (order / 2) hmid with ⟨eid, he1, he2⟩
    have heid : eid = pe := by
      have h2 : c.elemIds[order / 2]? = some eid := he1
      rw [hpe] at h2
      exact (Option.some.inj h2).symm
    rw [heid] at he2
    rw [he2]
    exact hpk
  have htake : ∀ x ∈ keys.take i, x < pk := by
    intro x hx
    rcases List.mem_iff_getElem?.mp hx with ⟨j, hj⟩
    have hji : j < i := by
      have hjl : j < (keys.take i).length := by
        by_contra hc2
        rw [List.getElem?_eq_none (le_of_not_lt hc2)] at hj
        exact Option.noConfusion hj
      simpa using lt_of_lt_of_le hjl (by simp)
    have hkj : keys[j]? = some x := by
      rw [← List.getElem?_take_of_lt hji]
      exact hj
    obtain ⟨y, hy⟩ : ∃ y, keys[i - 1]? = some y :=
      ⟨_, List.getElem?_eq_getElem (by omega)⟩
    have h1 : y < pk := by
      refine hpkB.1 y ?_
      have hieq : i = (i - 1) + 1 := by omega
      rw [hieq]
      show keys[i - 1]? = some y
      exact hy
    have h2 : x ≤ y := sorted_get_le hsp (by omega) hkj hy
    exact lt_of_le_of_lt h2 h1
  have hdrop : ∀ x ∈ keys.drop i, pk < x := by
    intro x hx
    rcases List.mem_iff_getElem?.mp hx with ⟨j, hj⟩
    have hkj : keys[i + j]? = some x := by
      rw [← List.getElem?_drop]
      exact hj
    obtain ⟨y, hy⟩ : ∃ y, keys[i]? = some y := by
      have hilt : i < keys.length := by
        by_contra hc2
        rw [List.getElem?_eq_none (by omega)] at hkj
        exact Option.noConfusion hkj
      exact ⟨_, List.getElem?_eq_getElem hilt⟩
    have h1 : pk < y := by
      refine hpkB.2 y ?_
      show boundR keys hi i = some y
      unfold boundR
      rw [hy]
    have h2 : y ≤ x := sorted_get_le hsp (by omega) hy hkj
    exact lt_of_lt_of_le h1 h2
  refine ValidT.mk ?_ ?_ ?_ ?_ ?_ ?_ ?_
  · exact List.chain'_iff_pairwise.mpr (pairwise_insertIdx hsp hin htake hdrop)
  · intro k hk
    rcases (mem_insertIdx hin).mp hk with rfl | hk2
    · exact inB_of_childB hin hbnd hpkB
    · exact hbnd k hk2
  · rw [length_insertIdxP i pe elemIds (by omega), length_insertIdxP i pk keys hin]
    omega
  · intro j hj
    have hjlt : j < keys.length + 1 := by
      rw [length_insertIdxP i pk keys hin] at hj
      exact hj
    rcases lt_trichotomy j i with hji | rfl | hji
    · rcases hptr j (by omega) with ⟨eid, h1, h2⟩
      refine ⟨eid, ?_, ?_⟩
      · rw [getElem?_insertIdx_lt pe elemIds (by omega) hji]
        exact h1
      · rw [getElem?_insertIdx_lt pk keys hin hji]
        exact h2
    · refine ⟨pe, ?_, ?_⟩
      · exact getElem?_insertIdx_self pe elemIds (by omega)
      · rw [getElem?_insertIdx_self pk keys hin]
        exact hκpe
    · obtain ⟨m, rfl⟩ : ∃ m, j = m + 1 := ⟨j - 1, by omega⟩
      rcases hptr m (by omega) with ⟨eid, h1, h2⟩
      refine ⟨eid, ?_, ?_⟩
      · rw [getElem?_insertIdx_succ pe elemIds (by omega) (by omega)]
        exact h1
      · rw [getElem?_insertIdx_succ pk keys hin (by omega)]
        exact h2
  · intro h
    exact absurd h (by simp)
  · intro _
    have hsl : (children.set i (leftNode order c)).length = keys.length + 1 := by
      simp [hint]
    rw [length_insertIdxP (i + 1) (rightNode order c) (children.set i (leftNode order c)) (by omega),
      length_insertIdxP i pk keys hin, hsl]
  · intro j ch hch2
    have hslen : (children.set i (leftNode order c)).length = children.length := by simp
    rcases lt_trichotomy j (i + 1) with hji | rfl | hji
    · rw [getElem?_insertIdx_lt (rightNode order c) (children.set i (leftNode order c))
        (by omega) hji] at hch2
      by_cases hje : j = i
      · subst hje
        rw [List.getElem?_set_self' ] at hch2
        rw [List.getElem?_eq_getElem hil] at hch2
        simp at hch2
        obtain rfl : leftNode order c = ch := hch2
        have hbL : boundL (keys.insertIdx j pk) lo j = boundL keys lo j := by
          cases j with
          | zero => rfl
          | succ m2 =>
            show (keys.insertIdx (m2 + 1) pk)[m2]? = keys[m2]?
            exact getElem?_insertIdx_lt pk keys hin (by omega)
        have hbR : boundR (keys.insertIdx j pk) hi j = some pk := by
          unfold boundR
          rw [getElem?_insertIdx_self pk keys hin]
        rw [hbL, hbR]
        cases c with
        | mk ck ce cc cl =>
          have hpk2 : ck[order / 2]? = some pk := by simpa [BT.keys] using hpk
          exact validT_takeNode (hchv j _ hc) hpk2
      · have hji2 : j < i := by omega
        rw [List.getElem?_set_ne (by omega)] at hch2
        have hbL : boundL (keys.insertIdx i pk) lo j = boundL keys lo j := by
          cases j with
          | zero => rfl
          | succ m2 =>
            show (keys.insertIdx i pk)[m2]? = keys[m2]?
            exact getElem?_insertIdx_lt pk keys hin (by omega)
        have hbR : boundR (keys.insertIdx i pk) hi j = boundR keys hi j := by
          unfold boundR
          rw [getElem?_insertIdx_lt pk keys hin hji2]
        rw [hbL, hbR]
        exact hchv j ch hch2
    · rw [getElem?_insertIdx_self (rightNode order c) (children.set i (leftNode order c))
        (by omega)] at hch2
      obtain rfl : rightNode order c = ch := Option.some.inj hch2
      have hbL : boundL (keys.insertIdx i pk) lo (i + 1) = some pk := by
        show (keys.insertIdx i pk)[i]? = some pk
        exact getElem?_insertIdx_self pk keys hin
      have hbR : boundR (keys.insertIdx i pk) hi (i + 1) = boundR keys hi i := by
        unfold boundR
        rw [getElem?_insertIdx_succ pk keys hin (by omega)]
      rw [hbL, hbR]
      cases c with
      | mk ck ce cc cl =>
        have hpk2 : ck[order / 2]? = some pk := by simpa [BT.keys] using hpk
        exact validT_dropNode (hchv i _ hc) hpk2
    · obtain ⟨m, rfl⟩ : ∃ m, j = m + 1 := ⟨j - 1, by omega⟩
      have hmi : i + 1 ≤ m := by omega
      rw [getElem?_insertIdx_succ (rightNode order c) (children.set i (leftNode order c))
        (by omega) (by omega)] at hch2
      rw [List.getElem?_set_ne (by omega)] at hch2
      have hbL : boundL (keys.insertIdx i pk) lo (m + 1) = boundL keys lo m := by
        obtain ⟨m2, rfl⟩ : ∃ m2, m = m2 + 1 := ⟨m - 1, by omega⟩
        show (keys.insertIdx i pk)[m2 + 1]? = keys[m2]?
        exact getElem?_insertIdx_succ pk keys hin (by omega)
      have hbR : boundR (keys.insertIdx i pk) hi (m + 1) = boundR keys hi m := by
        unfold boundR
        rw [getElem?_insertIdx_succ pk keys hin (by omega)]
      rw [hbL, hbR]
      exact hchv m ch hch2

/-- Node::split_child keeps every node of the result non-empty when the
split child is full at MAX_KEYS = order with order at least 3. -/
theorem nodesNE_split_child {keys : List ℚ} {elemIds : List ℕ}
    {children : List BT} {order i : ℕ} {c : BT} {pk : ℚ} {pe : ℕ}
    (h3 : 3 ≤ order)
    (hne : ∀ cc ∈ children, NodesNE cc)
    (hc : children[i]? = some c)
    (hfull : c.keys.length = order)
    (hik : i ≤ keys.length)
    (hpk : c.keys[order / 2]? = some pk)
    (hpe : c.elemIds[order / 2]? = some pe) :
    NodesNE (split_child order (.mk keys elemIds children false) i) := by
  rw [split_child_eq hc hpk hpe]
  have hil : i < children.length := by
    by_contra hc2
    rw [List.getElem?_eq_none (le_of_not_lt hc2)] at hc
    exact Option.noConfusion hc
  have hcne : NodesNE c := hne c (List.mem_iff_getElem?.mpr ⟨_, hc⟩)
  have hcch : ∀ cc ∈ c.children, NodesNE cc := by
    cases hcne
    assumption
  refine NodesNE.mk ?_ ?_
  · have hlen : (keys.insertIdx i pk).length = keys.length + 1 :=
      length_insertIdxP i pk keys hik
    intro hnil
    rw [hnil] at hlen
    simp at hlen
  · intro cc hcc
    have hcc2 := (mem_insertIdxP (by simp; omega)).mp hcc
    rcases hcc2 with rfl | hcc3
    · cases c with
      | mk ck ce cc2 cl =>
        have hckl : ck.length = order := by simpa [BT.keys] using hfull
        refine NodesNE.mk ?_ ?_
        · show ck.drop (order / 2 + 1) ≠ []
          intro hnil
          have h0 : (ck.drop (order / 2 + 1)).length = 0 := by rw [hnil]; rfl
          rw [List.length_drop] at h0
          omega
        · intro dd hdd
          exact hcch dd (by
            simpa [BT.children] using List.mem_of_mem_drop hdd)
    · rcases List.mem_or_eq_of_mem_set hcc3 with hcc4 | rfl
      · exact hne cc hcc4
      · cases c with
        | mk ck ce cc2 cl =>
          have hckl : ck.length = order := by simpa [BT.keys] using hfull
          refine NodesNE.mk ?_ ?_
          · show ck.take (order / 2) ≠ []
            intro hnil
            have h0 : (ck.take (order / 2)).length = 0 := by rw [hnil]; rfl
            rw [List.length_take] at h0
            omega
          · intro dd hdd
            exact hcch dd (by
              simpa [BT.children] using List.mem_of_mem_take hdd)

/-- The key content of a node is unchanged by Node::split_child. -/
theorem keyInT_split_child {keys : List ℚ} {elemIds : List ℕ}
    {children : List BT} {order i : ℕ} {c : BT} {pk : ℚ} {pe : ℕ} {k : ℚ}
    (hc : children[i]? = some c)
    (hik : i ≤ keys.length)
    (hpk : c.keys[order / 2]? = some pk)
    (hpe : c.elemIds[order / 2]? = some pe) :
    (KeyInT (split_child order (.mk keys elemIds children false) i) k ↔
      KeyInT (.mk keys elemIds children false) k) := by
  cases c with
  | mk ck ce2 cc2 cl =>
    simp only [BT.keys] at hpk
    simp only [BT.elemIds] at hpe
    rw [split_child_eq hc (by simpa [BT.keys] using hpk) (by simpa [BT.elemIds] using hpe)]
    have hil : i < children.length := by
      by_contra hc2
      rw [List.getElem?_eq_none (le_of_not_lt hc2)] at hc
      exact Option.noConfusion hc
    have hsetlen : (children.set i (leftNode order (.mk ck ce2 cc2 cl))).length
        = children.length := by simp
    have hLmem : leftNode order (.mk ck ce2 cc2 cl) ∈
        (children.set i (leftNode order (.mk ck ce2 cc2 cl))).insertIdx (i + 1)
          (rightNode order (.mk ck ce2 cc2 cl)) := by
      refine (mem_insertIdxP (by omega)).mpr (Or.inr ?_)
      refine List.mem_iff_getElem?.mpr ⟨i, ?_⟩
      rw [List.getElem?_set_self']
      rw [List.getElem?_eq_getElem hil]
      rfl
    have hRmem : rightNode order (.mk ck ce2 cc2 cl) ∈
        (children.set i (leftNode order (.mk ck ce2 cc2 cl))).insertIdx (i + 1)
          (rightNode order (.mk ck ce2 cc2 cl)) :=
      (mem_insertIdxP (by omega)).mpr (Or.inl rfl)
    have hLeq : leftNode order (.mk ck ce2 cc2 cl)
        = .mk (ck.take (order / 2)) (ce2.take (order / 2))
            (cc2.take (order / 2 + 1)) cl := rfl
    have hReq : rightNode order (.mk ck ce2 cc2 cl)
        = .mk (ck.drop (order / 2 + 1)) (ce2.drop (order / 2 + 1))
            (cc2.drop (order / 2 + 1)) cl := rfl
    constructor
    · intro h
      cases h with
      | here hmem =>
        rcases (mem_insertIdx hik).mp hmem with rfl | h2
        · exact KeyInT.child (List.mem_iff_getElem?.mpr ⟨_, hc⟩)
            (KeyInT.here (List.mem_iff_getElem?.mpr ⟨_, hpk⟩))
        · exact KeyInT.here h2
      | child hmem hkin =>
        rcases (mem_insertIdxP (by omega)).mp hmem with rfl | h2
        · rw [hReq] at hkin
          cases hkin with
          | here hmem2 =>
            exact KeyInT.child (List.mem_iff_getElem?.mpr ⟨_, hc⟩)
              (KeyInT.here (List.mem_of_mem_drop hmem2))
          | child hmem2 hkin2 =>
            exact KeyInT.child (List.mem_iff_getElem?.mpr ⟨_, hc⟩)
              (KeyInT.child (List.mem_of_mem_drop hmem2) hkin2)
        · rcases List.mem_or_eq_of_mem_set h2 with h4 | rfl
          · exact KeyInT.child h4 hkin
          · rw [hLeq] at hkin
            cases hkin with
            | here hmem2 =>
              exact KeyInT.child (List.mem_iff_getElem?.mpr ⟨_, hc⟩)
                (KeyInT.here (List.mem_of_mem_take hmem2))
            | child hmem2 hkin2 =>
              exact KeyInT.child (List.mem_iff_getElem?.mpr ⟨_, hc⟩)
                (KeyInT.child (List.mem_of_mem_take hmem2) hkin2)
    · intro h
      cases h with
      | here hmem =>
        exact KeyInT.here ((mem_insertIdx hik).mpr (Or.inr hmem))
      | child hmem hkin =>
        rename_i ch
        rcases List.mem_iff_getElem?.mp hmem with ⟨j, hj⟩
        by_cases hji : j = i
        · subst hji
          rw [hc] at hj
          obtain rfl : BT.mk ck ce2 cc2 cl = ch := Option.some.inj hj
          cases hkin with
          | here hmem2 =>
            rcases List.mem_iff_getElem?.mp hmem2 with ⟨j2, hj2⟩
            rcases lt_trichotomy j2 (order / 2) with hj2m | rfl | hj2m
            · refine KeyInT.child hLmem ?_
              rw [hLeq]
              refine KeyInT.here ?_
              exact List.mem_iff_getElem?.mpr
                ⟨j2, by rw [List.getElem?_take_of_lt hj2m]; exact hj2⟩
            · have hkpk : k = pk := by
                rw [hj2] at hpk
                exact Option.some.inj hpk
              subst hkpk
              exact KeyInT.here ((mem_insertIdx hik).mpr (Or.inl rfl))
            · refine KeyInT.child hRmem ?_
              rw [hReq]
              refine KeyInT.here ?_
              refine List.mem_iff_getElem?.mpr ⟨j2 - (order / 2 + 1), ?_⟩
              rw [List.getElem?_drop]
              have he : order / 2 + 1 + (j2 - (order / 2 + 1)) = j2 := by omega
              rw [he]
              exact hj2
          | child hmem2 hkin2 =>
            rename_i ch2
            rcases List.mem_iff_getElem?.mp hmem2 with ⟨j2, hj2⟩
            rcases lt_or_le j2 (order / 2 + 1) with hj2m | hj2m
            · refine KeyInT.child hLmem ?_
              rw [hLeq]
              refine KeyInT.child ?_ hkin2
              exact List.mem_iff_getElem?.mpr
                ⟨j2, by rw [List.getElem?_take_of_lt hj2m]; exact hj2⟩
            · refine KeyInT.child hRmem ?_
              rw [hReq]
              refine KeyInT.child ?_ hkin2
              refine List.mem_iff_getElem?.mpr ⟨j2 - (order / 2 + 1), ?_⟩
              rw [List.getElem?_drop]
              have he : order / 2 + 1 + (j2 - (order / 2 + 1)) = j2 := by omega
              rw [he]
              exact hj2
        · refine KeyInT.child ?_ hkin
          refine (mem_insertIdxP (by omega)).mpr (Or.inr ?_)
          refine List.mem_iff_getElem?.mpr ⟨j, ?_⟩
          rw [List.getElem?_set_ne (by omega)]
          exact hj

/-- Every child of the node produced by Node::split_child is no larger
than the original children put together. -/
theorem msize_split_child_child {keys : List ℚ} {elemIds : List ℕ}
    {children : List BT} {order i : ℕ} {c : BT} {pk : ℚ} {pe : ℕ} {j : ℕ} {c1 : BT}
    (hc : children[i]? = some c)
    (hpk : c.keys[order / 2]? = some pk)
    (hpe : c.elemIds[order / 2]? = some pe)
    (hj : (split_child order (.mk keys elemIds children false) i).children[j]? = some c1) :
    c1.msize ≤ msizeList children := by
  rw [split_child_eq hc hpk hpe] at hj
  have hil : i < children.length := by
    by_contra hc2
    rw [List.getElem?_eq_none (le_of_not_lt hc2)] at hc
    exact Option.noConfusion hc
  have hcm : c.msize ≤ msizeList children :=
    msizeList_mem (List.mem_iff_getElem?.mpr ⟨_, hc⟩)
  have hLm : (leftNode order c).msize ≤ c.msize := by
    cases c with
    | mk ck ce cc2 cl =>
      have h1 : (leftNode order (BT.mk ck ce cc2 cl)).msize
          = 1 + msizeList (cc2.take (order / 2 + 1)) := rfl
      have h2 : (BT.mk ck ce cc2 cl).msize = 1 + msizeList cc2 := rfl
      have h3 := msizeList_take_le (order / 2 + 1) cc2
      omega
  have hRm : (rightNode order c).msize ≤ c.msize := by
    cases c with
    | mk ck ce cc2 cl =>
      have h1 : (rightNode order (BT.mk ck ce cc2 cl)).msize
          = 1 + msizeList (cc2.drop (order / 2 + 1)) := rfl
      have h2 : (BT.mk ck ce cc2 cl).msize = 1 + msizeList cc2 := rfl
      have h3 := msizeList_drop_le (order / 2 + 1) cc2
      omega
  have hj2 : c1 ∈ (children.set i (leftNode order c)).insertIdx (i + 1)
      (rightNode order c) := by
    simp only [BT.children] at hj
    exact List.mem_iff_getElem?.mpr ⟨j, hj⟩
  rcases (mem_insertIdxP (by simp; omega)).mp hj2 with rfl | h2
  · exact le_trans hRm hcm
  · rcases List.mem_or_eq_of_mem_set h2 with h4 | rfl
    · exact msizeList_mem h4
    · exact le_trans hLm hcm

/-- The weight function is symmetric in the two keys. -/
theorem wf_comm (a b r : ℚ) : wf a b r = wf b a r := by
  unfold wf
  rw [dist_eq_abs, dist_eq_abs, qabs_eq_abs, qabs_eq_abs, abs_abs, abs_abs,
    abs_sub_comm]

/-- Key and the two link targets of an element (weights stripped). -/
def linkShape (e : Element) : ℚ × Option ℕ × Option ℕ :=
  (e.key, e.next.map Prod.fst, e.prev.map Prod.fst)

/-- Two arenas of the same length agreeing pointwise on keys and link
targets (cached weights may differ). -/
structure sameLinks (A B : List Element) : Prop where
  len : A.length = B.length
  shape : ∀ i : ℕ, (A[i]?).map linkShape = (B[i]?).map linkShape

theorem sameLinks_refl (A : List Element) : sameLinks A A := ⟨rfl, fun _ => rfl⟩

theorem sameLinks_trans {A B C : List Element} (h1 : sameLinks A B)
    (h2 : sameLinks B C) : sameLinks A C :=
  ⟨h1.len.trans h2.len, fun i => (h1.shape i).trans (h2.shape i)⟩

theorem sameLinks_of_sameShape {A B : List Element} (h : sameShape A B) :
    sameLinks A B := by
  refine ⟨h.len, fun i => ?_⟩
  have h2 := h.shape i
  cases ha : A[i]? with
  | none =>
    rw [ha] at h2
    cases hb : B[i]? with
    | none => rfl
    | some eb => rw [hb] at h2; simp at h2
  | some ea =>
    rw [ha] at h2
    cases hb : B[i]? with
    | none => rw [hb] at h2; simp at h2
    | some eb =>
      rw [hb] at h2
      simp [shapeOf] at h2
      simp [linkShape, h2.1, h2.2.1, h2.2.2]

theorem sameLinks_keyD {A B : List Element} (h : sameLinks A B) (i : ℕ) :
    keyD A i = keyD B i := by
  have h2 := h.shape i
  unfold keyD
  cases ha : A[i]? with
  | none =>
    rw [ha] at h2
    cases hb : B[i]? with
    | none => rfl
    | some eb => rw [hb] at h2; simp at h2
  | some ea =>
    rw [ha] at h2
    cases hb : B[i]? with
    | none => rw [hb] at h2; simp at h2
    | some eb =>
      rw [hb] at h2
      simp [linkShape] at h2
      simp [h2.1]

theorem sameLinks_nextT {A B : List Element} (h : sameLinks A B) (i : ℕ) :
    (nextOf A i).map Prod.fst = (nextOf B i).map Prod.fst := by
  have h2 := h.shape i
  unfold nextOf
  cases ha : A[i]? with
  | none =>
    rw [ha] at h2
    cases hb : B[i]? with
    | none => rfl
    | some eb => rw [hb] at h2; simp at h2
  | some ea =>
    rw [ha] at h2
    cases hb : B[i]? with
    | none => rw [hb] at h2; simp at h2
    | some eb =>
      rw [hb] at h2
      simp [linkShape] at h2
      simp [h2.2.1]

theorem sameLinks_prevT {A B : List Element} (h : sameLinks A B) (i : ℕ) :
    (prevOf A i).map Prod.fst = (prevOf B i).map Prod.fst := by
  have h2 := h.shape i
  unfold prevOf
  cases ha : A[i]? with
  | none =>
    rw [ha] at h2
    cases hb : B[i]? with
    | none => rfl
    | some eb => rw [hb] at h2; simp at h2
  | some ea =>
    rw [ha] at h2
    cases hb : B[i]? with
    | none => rw [hb] at h2; simp at h2
    | some eb =>
      rw [hb] at h2
      simp [linkShape] at h2
      simp [h2.2.2]

theorem chainFrom_of_sameLinks {A B : List Element} (h : sameLinks A B)
    {o : Option ℕ} {L : List ℕ} (hc : ChainFrom A o L) : ChainFrom B o L := by
  induction hc with
  | nil => exact ChainFrom.nil
  | @cons i e L he hL ih =>
    have h2 := h.shape i
    rw [he] at h2
    cases hb : B[i]? with
    | none => rw [hb] at h2; simp at h2
    | some eb =>
      rw [hb] at h2
      simp [linkShape] at h2
      refine ChainFrom.cons hb ?_
      rw [← h2.2.1]
      exact ih

/-- Build a chain walk from pointwise adjacency facts. -/
theorem chainFrom_build (A : List Element) : ∀ (M : List ℕ),
    (∀ (j a : ℕ), M[j]? = some a → ∃ e, A[a]? = some e) →
    (∀ (j a b : ℕ), M[j]? = some a → M[j + 1]? = some b →
      (nextOf A a).map Prod.fst = some b) →
    (∀ a : ℕ, M.getLast? = some a → nextOf A a = none) →
    ChainFrom A M.head? M := by
  intro M
  induction M with
  | nil => intro _ _ _; exact ChainFrom.nil
  | cons i M2 ih =>
    intro hex hadj hlast
    obtain ⟨e, he⟩ := hex 0 i (by simp)
    refine ChainFrom.cons he ?_
    have hnext : e.next.map Prod.fst = M2.head? := by
      cases M2 with
      | nil =>
        have h1 := hlast i (by simp)
        unfold nextOf at h1
        rw [he] at h1
        simp at h1
        simp [h1]
      | cons b M3 =>
        have h1 := hadj 0 i b (by simp) (by simp)
        unfold nextOf at h1
        rw [he] at h1
        simpa using h1
    rw [hnext]
    refine ih ?_ ?_ ?_
    · intro j a hj
      exact hex (j + 1) a (by simpa using hj)
    · intro j a b hj hj2
      exact hadj (j + 1) a b (by simpa using hj) (by simpa using hj2)
    · intro a ha
      refine hlast a ?_
      cases M2 with
      | nil => cases ha
      | cons b M3 =>
        rw [List.getLast?_cons_cons]
        exact ha

/-- The chain enumeration of a well-formed graph has the arena's length. -/
theorem chainOK_length {g : Graph} {L : List ℕ} (hc : ChainOK g L) :
    L.length = g.elems.length := by
  have h1 : L.toFinset = Finset.range g.elems.length := by
    ext i
    simp [hc.complete i]
  have h2 : L.toFinset.card = L.length := List.toFinset_card_of_nodup hc.nodup
  rw [h1] at h2
  simpa using h2.symm

theorem chainNeighbours_eq (fuel : ℕ) (A : List Element) (cur : Option ℕ)
    (k : ℚ) (acc : Option ℕ) :
    chainNeighbours (fuel + 1) A cur k acc =
      match cur with
      | none => (acc, none)
      | some i =>
        match A[i]? with
        | none => (acc, none)
        | some e =>
          if e.key < k then chainNeighbours fuel A (e.next.map Prod.fst) k (some i)
          else (acc, some i) := rfl

/-- The neighbour walk of a chain suffix stops at the first key not below
the query: it returns the last element of the strictly-below prefix (the
accumulator when that prefix is empty) and the first element at or above
the query. -/
theorem chainNeighbours_spec {A : List Element} {k : ℚ} :
    ∀ (M : List ℕ) (fuel : ℕ) (cur acc : Option ℕ),
    ChainFrom A cur M → M.length < fuel →
    chainNeighbours fuel A cur k acc =
      (if M.takeWhile (fun i => decide (keyD A i < k)) = [] then acc
       else (M.takeWhile (fun i => decide (keyD A i < k))).getLast?,
       (M.dropWhile (fun i => decide (keyD A i < k))).head?) := by
  intro M
  induction M with
  | nil =>
    intro fuel cur acc hc hf
    obtain ⟨f, rfl⟩ : ∃ f, fuel = f + 1 := ⟨fuel - 1, by omega⟩
    obtain rfl : cur = none := chainFrom_nil_none hc
    rw [chainNeighbours_eq]
    simp
  | cons i M2 ih =>
    intro fuel cur acc hc hf
    obtain ⟨f, rfl⟩ : ∃ f, fuel = f + 1 := ⟨fuel - 1, by omega⟩
    cases hc with
    | @cons _ e _ he hL =>
      rw [chainNeighbours_eq]
      simp only [he]
      have hkey : keyD A i = e.key := by simp [keyD, he]
      by_cases hek : e.key < k
      · rw [if_pos hek]
        rw [ih f _ (some i) hL (by simp at hf; omega)]
        rw [List.takeWhile_cons_of_pos (p := fun j => decide (keyD A j < k))
          (by simp [hkey, hek]),
          List.dropWhile_cons_of_pos (p := fun j => decide (keyD A j < k))
          (by simp [hkey, hek])]
        cases htw : M2.takeWhile (fun j => decide (keyD A j < k)) with
        | nil => simp
        | cons x xs =>
          rw [if_neg (by simp), if_neg (by simp)]
          rw [List.getLast?_cons_cons]
      · rw [if_neg hek]
        rw [List.takeWhile_cons_of_neg (p := fun j => decide (keyD A j < k))
          (by simp [hkey, hek]),
          List.dropWhile_cons_of_neg (p := fun j => decide (keyD A j < k))
          (by simp [hkey, hek])]
        simp

/-- Every element of the stripped suffix of a sorted chain carries a key
strictly above the query, provided the query is not among the keys. -/
theorem dropWhile_keys_gt {A : List Element} {k : ℚ} :
    ∀ {L : List ℕ},
    L.Pairwise (fun a b => keyD A a < keyD A b) →
    (∀ i ∈ L, keyD A i ≠ k) →
    ∀ i ∈ L.dropWhile (fun j => decide (keyD A j < k)), k < keyD A i := by
  intro L
  induction L with
  | nil => intro _ _ i hi; simp at hi
  | cons a L2 ih =>
    intro hPW hne i hi
    by_cases hp : keyD A a < k
    · rw [List.dropWhile_cons_of_pos (p := fun j => decide (keyD A j < k))
        (by simp [hp])] at hi
      exact ih (List.pairwise_cons.mp hPW).2 (fun j hj => hne j (List.mem_cons_of_mem a hj)) i hi
    · rw [List.dropWhile_cons_of_neg (p := fun j => decide (keyD A j < k))
        (by simp [hp])] at hi
      rcases List.mem_cons.mp hi with rfl | hi2
      · have h1 : keyD A i ≠ k := hne i (List.mem_cons_self i L2)
        rcases lt_trichotomy (keyD A i) k with h2 | h2 | h2
        · exact absurd h2 hp
        · exact absurd h2 h1
        · exact h2
      · have h2 : keyD A a < keyD A i := (List.pairwise_cons.mp hPW).1 i hi2
        have h3 : k ≤ keyD A a := le_of_not_lt hp
        exact lt_of_le_of_lt h3 h2

/-- Every element of the kept prefix carries a key strictly below the
query. -/
theorem takeWhile_keys_lt {A : List Element} {k : ℚ} {L : List ℕ} :
    ∀ i ∈ L.takeWhile (fun j => decide (keyD A j < k)), keyD A i < k := by
  intro i hi
  have := List.mem_takeWhile_imp hi
  simpa using this

/-- Element::set_connections with neither neighbour: both links cleared. -/
theorem set_connections_nn {A0 : List Element} {eid : ℕ} {e0 : Element} {r : ℚ}
    (he : A0[eid]? = some e0) :
    (set_connections A0 eid none none r).length = A0.length ∧
    (set_connections A0 eid none none r)[eid]?
      = some { e0 with prev := none, next := none } ∧
    ∀ j : ℕ, j ≠ eid → (set_connections A0 eid none none r)[j]? = A0[j]? := by
  unfold set_connections
  have h1 : (modAt A0 eid (fun x => { x with prev := none }))[eid]?
      = some { e0 with prev := none } := modAt_get_self A0 eid _ e0 he
  refine ⟨?_, ?_, ?_⟩
  · rw [modAt_length, modAt_length]
  · exact modAt_get_self _ eid _ _ h1
  · intro j hj
    rw [modAt_get_ne _ eid j _ hj, modAt_get_ne _ eid j _ hj]

/-- Element::set_connections with only a predecessor. -/
theorem set_connections_sn {A0 : List Element} {eid p : ℕ} {e0 ep : Element} {r : ℚ}
    (he : A0[eid]? = some e0) (hp : A0[p]? = some ep) (hpe : p ≠ eid) :
    (set_connections A0 eid (some p) none r).length = A0.length ∧
    (set_connections A0 eid (some p) none r)[eid]?
      = some { e0 with prev := some (p, wf e0.key ep.key r), next := none } ∧
    (set_connections A0 eid (some p) none r)[p]?
      = some { ep with next := some (eid, wf e0.key ep.key r) } ∧
    ∀ j : ℕ, j ≠ eid → j ≠ p → (set_connections A0 eid (some p) none r)[j]? = A0[j]? := by
  unfold set_connections
  simp only [he, hp]
  have hB1 : (modAt A0 eid (fun x => { x with prev := some (p, wf e0.key ep.key r) }))[p]?
      = A0[p]? := modAt_get_ne A0 eid p _ hpe
  have hBe : (modAt (modAt A0 eid (fun x => { x with prev := some (p, wf e0.key ep.key r) }))
      p (fun x => { x with next := some (eid, wf e0.key ep.key r) }))[eid]?
      = some { e0 with prev := some (p, wf e0.key ep.key r) } := by
    rw [modAt_get_ne _ p eid _ (Ne.symm hpe)]
    exact modAt_get_self A0 eid _ e0 he
  have hBp : (modAt (modAt A0 eid (fun x => { x with prev := some (p, wf e0.key ep.key r) }))
      p (fun x => { x with next := some (eid, wf e0.key ep.key r) }))[p]?
      = some { ep with next := some (eid, wf e0.key ep.key r) } := by
    refine modAt_get_self _ p _ ep ?_
    rw [hB1]
    exact hp
  refine ⟨?_, ?_, ?_, ?_⟩
  · rw [modAt_length, modAt_length, modAt_length]
  · exact modAt_get_self _ eid _ _ hBe
  · rw [modAt_get_ne _ eid p _ hpe]
    exact hBp
  · intro j hj hjp
    rw [modAt_get_ne _ eid j _ hj, modAt_get_ne _ p j _ hjp,
      modAt_get_ne _ eid j _ hj]

/-- Element::set_connections with only a successor. -/
theorem set_connections_ns {A0 : List Element} {eid n : ℕ} {e0 en : Element} {r : ℚ}
    (he : A0[eid]? = some e0) (hn : A0[n]? = some en) (hne : n ≠ eid) :
    (set_connections A0 eid none (some n) r).length = A0.length ∧
    (set_connections A0 eid none (some n) r)[eid]?
      = some { e0 with prev := none, next := some (n, wf e0.key en.key r) } ∧
    (set_connections A0 eid none (some n) r)[n]?
      = some { en with prev := some (eid, wf e0.key en.key r) } ∧
    ∀ j : ℕ, j ≠ eid → j ≠ n → (set_connections A0 eid none (some n) r)[j]? = A0[j]? := by
  unfold set_connections
  have hA1e : (modAt A0 eid (fun x => { x with prev := none }))[eid]?
      = some { e0 with prev := none } := modAt_get_self A0 eid _ e0 he
  have hA1n : (modAt A0 eid (fun x => { x with prev := none }))[n]? = some en := by
    rw [modAt_get_ne _ eid n _ hne]
    exact hn
  simp only [hA1e, hA1n]
  have hkey : ({ e0 with prev := none } : Element).key = e0.key := rfl
  have hBe : (modAt (modAt (modAt A0 eid (fun x => { x with prev := none }))
      eid (fun x => { x with next := some (n, wf e0.key en.key r) }))
      n (fun x => { x with prev := some (eid, wf e0.key en.key r) }))[eid]?
      = some { e0 with prev := none, next := some (n, wf e0.key en.key r) } := by
    rw [modAt_get_ne _ n eid _ (Ne.symm hne)]
    exact modAt_get_self _ eid _ _ hA1e
  refine ⟨?_, ?_, ?_, ?_⟩
  · rw [modAt_length, modAt_length, modAt_length]
  · exact hBe
  · refine modAt_get_self _ n _ en ?_
    rw [modAt_get_ne _ eid n _ hne, modAt_get_ne _ eid n _ hne]
    exact hn
  · intro j hj hjn
    rw [modAt_get_ne _ n j _ hjn, modAt_get_ne _ eid j _ hj,
      modAt_get_ne _ eid j _ hj]

/-- Element::set_connections with both neighbours. -/
theorem set_connections_ss {A0 : List Element} {eid p n : ℕ}
    {e0 ep en : Element} {r : ℚ}
    (he : A0[eid]? = some e0) (hp : A0[p]? = some ep) (hn : A0[n]? = some en)
    (hpe : p ≠ eid) (hne : n ≠ eid) (hpn : n ≠ p) :
    (set_connections A0 eid (some p) (some n) r).length = A0.length ∧
    (set_connections A0 eid (some p) (some n) r)[eid]?
      = some { e0 with prev := some (p, wf e0.key ep.key r),
                       next := some (n, wf e0.key en.key r) } ∧
    (set_connections A0 eid (some p) (some n) r)[p]?
      = some { ep with next := some (eid, wf e0.key ep.key r) } ∧
    (set_connections A0 eid (some p) (some n) r)[n]?
      = some { en with prev := some (eid, wf e0.key en.key r) } ∧
    ∀ j : ℕ, j ≠ eid → j ≠ p → j ≠ n →
      (set_connections A0 eid (some p) (some n) r)[j]? = A0[j]? := by
  unfold set_connections
  simp only [he, hp]
  have hB1e : (modAt (modAt A0 eid (fun x => { x with prev := some (p, wf e0.key ep.key r) }))
      p (fun x => { x with next := some (eid, wf e0.key ep.key r) }))[eid]?
      = some { e0 with prev := some (p, wf e0.key ep.key r) } := by
    rw [modAt_get_ne _ p eid _ (Ne.symm hpe)]
    exact modAt_get_self A0 eid _ e0 he
  have hB1p : (modAt (modAt A0 eid (fun x => { x with prev := some (p, wf e0.key ep.key r) }))
      p (fun x => { x with next := some (eid, wf e0.key ep.key r) }))[p]?
      = some { ep with next := some (eid, wf e0.key ep.key r) } := by
    refine modAt_get_self _ p _ ep ?_
    rw [modAt_get_ne _ eid p _ hpe]
    exact hp
  have hB1n : (modAt (modAt A0 eid (fun x => { x with prev := some (p, wf e0.key ep.key r) }))
      p (fun x => { x with next := some (eid, wf e0.key ep.key r) }))[n]?
      = some en := by
    rw [modAt_get_ne _ p n _ hpn, modAt_get_ne _ eid n _ hne]
    exact hn
  simp only [hB1e, hB1n]
  have hBe : (modAt (modAt (modAt (modAt A0 eid
      (fun x => { x with prev := some (p, wf e0.key ep.key r) }))
      p (fun x => { x with next := some (eid, wf e0.key ep.key r) }))
      eid (fun x => { x with next := some (n, wf e0.key en.key r) }))
      n (fun x => { x with prev := some (eid, wf e0.key en.key r) }))[eid]?
      = some { e0 with prev := some (p, wf e0.key ep.key r),
                       next := some (n, wf e0.key en.key r) } := by
    rw [modAt_get_ne _ n eid _ (Ne.symm hne)]
    exact modAt_get_self _ eid _ _ hB1e
  refine ⟨?_, ?_, ?_, ?_, ?_⟩
  · rw [modAt_length, modAt_length, modAt_length, modAt_length]
  · exact hBe
  · rw [modAt_get_ne _ n p _ (Ne.symm hpn), modAt_get_ne _ eid p _ hpe]
    exact hB1p
  · refine modAt_get_self _ n _ en ?_
    rw [modAt_get_ne _ eid n _ hne]
    exact hB1n
  · intro j hj hjp hjn
    rw [modAt_get_ne _ n j _ hjn, modAt_get_ne _ eid j _ hj,
      modAt_get_ne _ p j _ hjp, modAt_get_ne _ eid j _ hj]

theorem sameLinks_modAt {A : List Element} {i : ℕ} {f : Element → Element}
    (h : ∀ e, A[i]? = some e → linkShape (f e) = linkShape e) :
    sameLinks A (modAt A i f) := by
  refine ⟨(modAt_length A i f).symm, fun j => ?_⟩
  by_cases hj : j = i
  · subst hj
    cases he : A[j]? with
    | none =>
      have hid : modAt A j f = A := by
        unfold modAt
        rw [he]
      rw [hid, he]
    | some e =>
      rw [modAt_get_self A j f e he]
      simp [h e he]
  · rw [modAt_get_ne A i j f hj]

theorem modAt_id {A : List Element} {i : ℕ} {f : Element → Element}
    (h : ∀ e, A[i]? = some e → f e = e) : modAt A i f = A := by
  unfold modAt
  cases he : A[i]? with
  | none => rfl
  | some e =>
    refine List.ext_getElem? ?_
    intro j
    by_cases hj : j = i
    · subst hj
      rw [List.getElem?_set_self']
      rw [he, h e he]
      rfl
    · rw [List.getElem?_set_ne (fun h2 => hj h2.symm)]

theorem update_weights_go_eq (fuel : ℕ) (A : List Element) (i : ℕ) (r : ℚ) :
    update_weights_go (fuel + 1) A i r =
      (let A1 :=
        match A[i]? with
        | some e =>
          match e.prev with
          | some (p, _) =>
            match A[p]? with
            | some pe =>
              let w := wf e.key pe.key r
              modAt (modAt A i (fun x => { x with prev := some (p, w) }))
                p (fun x => { x with next := some (i, w) })
            | none => A
          | none => A
        | none => A
      match A1[i]? with
      | some e1 =>
        match e1.next with
        | some (nx, _) =>
          match A1[nx]? with
          | some nxe =>
            let w := wf e1.key nxe.key r
            let A2 := modAt (modAt A1 i (fun x => { x with next := some (nx, w) }))
              nx (fun x => { x with prev := some (i, w) })
            update_weights_go fuel A2 nx r
          | none => A1
        | none => A1
      | none => A1) := rfl

/-- Specification of the weight-refresh walk of
ASAGraph::update_elements_weights along a chain suffix whose entry edge is
already refreshed: keys and link targets are untouched, entries off the
suffix are untouched, the entry point keeps its prev link, the final
element keeps its empty next link, and every edge inside the suffix ends
up carrying the weight 1 - distance / r on both of its cached sides. -/
theorem update_weights_go_spec {r : ℚ} :
    ∀ (M : List ℕ) (A : List Element) (fuel i : ℕ) (po : Option ℕ),
    ChainFrom A (some i) M →
    M.length < fuel →
    M.Nodup →
    (∀ (j a b : ℕ), M[j]? = some a → M[j + 1]? = some b →
      ∃ w, prevOf A b = some (a, w)) →
    (po = none → prevOf A i = none) →
    (∀ p : ℕ, po = some p → p ∉ M ∧
      prevOf A i = some (p, wf (keyD A i) (keyD A p) r) ∧
      (∃ ep, A[p]? = some ep ∧ ep.next = some (i, wf (keyD A i) (keyD A p) r))) →
    sameLinks A (update_weights_go fuel A i r) ∧
    (∀ a : ℕ, a ∉ M → (update_weights_go fuel A i r)[a]? = A[a]?) ∧
    (∀ (j a b : ℕ), M[j]? = some a → M[j + 1]? = some b →
      nextOf (update_weights_go fuel A i r) a = some (b, wf (keyD A a) (keyD A b) r) ∧
      prevOf (update_weights_go fuel A i r) b = some (a, wf (keyD A a) (keyD A b) r)) ∧
    prevOf (update_weights_go fuel A i r) i = prevOf A i ∧
    (∀ a : ℕ, M.getLast? = some a → nextOf (update_weights_go fuel A i r) a = none) := by
  intro M
  induction M with
  | nil =>
    intro A fuel i po hw hf hnd hback hpon hpos
    cases hw
  | cons i0 M2 ih =>
    intro A fuel i po hw hf hnd hback hpon hpos
    obtain ⟨f, rfl⟩ : ∃ f, fuel = f + 1 := ⟨fuel - 1, by omega⟩
    obtain rfl : i = i0 := by cases hw; rfl
    obtain ⟨e, he⟩ : ∃ e, A[i]? = some e := by
      cases hw with | cons he _ => exact ⟨_, he⟩
    have hw2 : ChainFrom A (e.next.map Prod.fst) M2 := by
      cases hw with | cons he2 h2 =>
        have h3 : e = _ := Option.some.inj (he.symm.trans he2)
        rw [← h3] at h2
        exact h2
    have hkeyi : keyD A i = e.key := by simp [keyD, he]
    -- Stage A rewrites the entry edge with the weight it already carries,
    -- so the arena is unchanged by it.
    have hA1 : update_weights_go (f + 1) A i r =
        (match A[i]? with
        | some e1 =>
          match e1.next with
          | some (nx, _) =>
            match A[nx]? with
            | some nxe =>
              update_weights_go f
                (modAt (modAt A i (fun x => { x with next := some (nx, wf e1.key nxe.key r) }))
                  nx (fun x => { x with prev := some (i, wf e1.key nxe.key r) })) nx r
            | none => A
          | none => A
        | none => A) := by
      rcases hcase : po with _ | p
      · have hprevI : prevOf A i = none := hpon hcase
        have heprev : e.prev = none := by
          unfold prevOf at hprevI
          rw [he] at hprevI
          simpa using hprevI
        rw [update_weights_go_eq]
        simp only [he, heprev]
      · rcases hpos p hcase with ⟨hpM, hprevI, ⟨ep, hep, hepn⟩⟩
        have heprev : e.prev = some (p, wf (keyD A i) (keyD A p) r) := by
          unfold prevOf at hprevI
          rw [he] at hprevI
          simpa using hprevI
        have hkeyp : keyD A p = ep.key := by simp [keyD, hep]
        have hstA : modAt (modAt A i (fun x =>
            { x with prev := some (p, wf e.key ep.key r) }))
            p (fun x => { x with next := some (i, wf e.key ep.key r) }) = A := by
          have hw1 : wf e.key ep.key r = wf (keyD A i) (keyD A p) r := by
            rw [hkeyi, hkeyp]
          have h1 : modAt A i (fun x =>
              { x with prev := some (p, wf e.key ep.key r) }) = A := by
            refine modAt_id ?_
            intro e2 he2
            rw [he] at he2
            obtain rfl : e = e2 := Option.some.inj he2
            rw [hw1, ← heprev]
          rw [h1]
          refine modAt_id ?_
          intro e2 he2
          rw [hep] at he2
          obtain rfl : ep = e2 := Option.some.inj he2
          rw [hw1, ← hepn]
        rw [update_weights_go_eq]
        simp only [he, heprev, hep, hstA]
    cases M2 with
    | nil =>
      have hnn : e.next = none := by
        have h2 := chainFrom_nil_none hw2
        simpa using h2
      have hAid : update_weights_go (f + 1) A i r = A := by
        rw [hA1]
        simp only [he, hnn]
      rw [hAid]
      refine ⟨sameLinks_refl A, fun a _ => rfl, ?_, rfl, ?_⟩
      · intro j a b hj hj2
        cases j <;> simp at hj2
      · intro a ha
        simp at ha
        subst ha
        unfold nextOf
        rw [he]
        simp [hnn]
    | cons nx rest =>
      have hnext : e.next.map Prod.fst = some nx := by
        have h4 := chainFrom_head hw2
        simpa using h4
      obtain ⟨nxw, hnxw⟩ : ∃ w, e.next = some (nx, w) := by
        cases hne : e.next with
        | none => rw [hne] at hnext; simp at hnext
        | some v =>
          rw [hne] at hnext
          simp at hnext
          refine ⟨v.2, ?_⟩
          rw [← hnext]
      obtain ⟨enx, henx⟩ : ∃ enx, A[nx]? = some enx :=
        chainFrom_valid hw2 nx (List.mem_cons_self nx rest)
      have hni : nx ≠ i := by
        intro hh
        have h5 : i ∈ nx :: rest := by
          rw [← hh]
          exact List.mem_cons_self nx rest
        exact (List.nodup_cons.mp hnd).1 h5
      have hkeynx : keyD A nx = enx.key := by simp [keyD, henx]
      have hB2eq : update_weights_go (f + 1) A i r =
          update_weights_go f
            (modAt (modAt A i (fun x => { x with next := some (nx, wf e.key enx.key r) }))
              nx (fun x => { x with prev := some (i, wf e.key enx.key r) })) nx r := by
        rw [hA1]
        simp only [he, hnxw, henx]
      -- Pointwise description of the arena after stage B.
      have hB2i : (modAt (modAt A i (fun x => { x with next := some (nx, wf e.key enx.key r) }))
          nx (fun x => { x with prev := some (i, wf e.key enx.key r) }))[i]?
          = some { e with next := some (nx, wf e.key enx.key r) } := by
        rw [modAt_get_ne _ nx i _ (Ne.symm hni)]
        exact modAt_get_self A i _ e he
      have hB2nx : (modAt (modAt A i (fun x => { x with next := some (nx, wf e.key enx.key r) }))
          nx (fun x => { x with prev := some (i, wf e.key enx.key r) }))[nx]?
          = some { enx with prev := some (i, wf e.key enx.key r) } := by
        refine modAt_get_self _ nx _ enx ?_
        rw [modAt_get_ne _ i nx _ hni]
        exact henx
      have hB2o : ∀ a : ℕ, a ≠ i → a ≠ nx →
          (modAt (modAt A i (fun x => { x with next := some (nx, wf e.key enx.key r) }))
          nx (fun x => { x with prev := some (i, wf e.key enx.key r) }))[a]? = A[a]? := by
        intro a ha hanx
        rw [modAt_get_ne _ nx a _ hanx, modAt_get_ne _ i a _ ha]
      have hB2links : sameLinks A
          (modAt (modAt A i (fun x => { x with next := some (nx, wf e.key enx.key r) }))
            nx (fun x => { x with prev := some (i, wf e.key enx.key r) })) := by
        refine sameLinks_trans (B := modAt A i
            (fun x => { x with next := some (nx, wf e.key enx.key r) })) ?_ ?_
        · refine sameLinks_modAt ?_
          intro e2 he2
          rw [he] at he2
          obtain rfl : e = e2 := Option.some.inj he2
          simp [linkShape, hnxw]
        · refine sameLinks_modAt ?_
          intro e2 he2
          rw [modAt_get_ne _ i nx _ hni, henx] at he2
          obtain rfl : enx = e2 := Option.some.inj he2
          obtain ⟨w0, hw0⟩ : ∃ w, prevOf A nx = some (i, w) :=
            hback 0 i nx (by simp) (by simp)
          have hpnx : enx.prev = some (i, w0) := by
            unfold prevOf at hw0
            rw [henx] at hw0
            simpa using hw0
          simp [linkShape, hpnx]
      -- The recursive call and its hypotheses.
      have hkeyB2 : ∀ a : ℕ, keyD (modAt (modAt A i
          (fun x => { x with next := some (nx, wf e.key enx.key r) }))
          nx (fun x => { x with prev := some (i, wf e.key enx.key r) })) a = keyD A a :=
        fun a => (sameLinks_keyD hB2links a).symm
      have hrec := ih (modAt (modAt A i
          (fun x => { x with next := some (nx, wf e.key enx.key r) }))
          nx (fun x => { x with prev := some (i, wf e.key enx.key r) }))
        f nx (some i)
        (by
          have hw3 : ChainFrom A (some nx) (nx :: rest) := by
            rw [← hnext]
            exact hw2
          exact chainFrom_of_sameLinks hB2links hw3)
        (by simp at hf ⊢; omega)
        ((List.nodup_cons.mp hnd).2)
        (by
          intro j a b hj hj2
          have hbnx : b ≠ nx := by
            intro hh
            have h5 : b ∈ rest := List.mem_iff_getElem?.mpr ⟨j, by simpa using hj2⟩
            rw [hh] at h5
            exact (List.nodup_cons.mp ((List.nodup_cons.mp hnd).2)).1 h5
          have hbi : b ≠ i := by
            intro hh
            have h5 : b ∈ nx :: rest := List.mem_iff_getElem?.mpr ⟨_, hj2⟩
            rw [hh] at h5
            exact (List.nodup_cons.mp hnd).1 h5
          rcases hback (j + 1) a b (by simpa using hj) (by simpa using hj2) with ⟨w, hwq⟩
          refine ⟨w, ?_⟩
          unfold prevOf at hwq ⊢
          rw [hB2o b hbi hbnx]
          exact hwq)
        (by intro h; cases h)
        (by
          intro p hp
          obtain rfl : i = p := Option.some.inj hp
          refine ⟨(List.nodup_cons.mp hnd).1, ?_, ?_⟩
          · unfold prevOf
            rw [hB2nx]
            simp
            rw [hkeyB2 nx, hkeyB2 i, hkeyi, hkeynx]
            rw [wf_comm]
          · refine ⟨_, hB2i, ?_⟩
            simp
            rw [hkeyB2 nx, hkeyB2 i, hkeyi, hkeynx]
            rw [wf_comm])
      obtain ⟨hr1, hr2, hr3, hr4, hr5⟩ := hrec
      rw [hB2eq]
      refine ⟨?_, ?_, ?_, ?_, ?_⟩
      · exact sameLinks_trans hB2links hr1
      · intro a ha
        have hai : a ≠ i := fun hh => ha (by
          rw [hh]
          exact List.mem_cons_self i (nx :: rest))
        have hanx : a ≠ nx := fun hh => ha (by
          rw [hh]
          exact List.mem_cons_of_mem i (List.mem_cons_self nx rest))
        have haM2 : a ∉ nx :: rest := fun hh => ha (List.mem_cons_of_mem i hh)
        rw [hr2 a haM2]
        exact hB2o a hai hanx
      · intro j a b hj hj2
        cases j with
        | zero =>
          obtain rfl : i = a := by
            have h4 : (i :: nx :: rest)[0]? = some a := hj
            simpa using h4
          obtain rfl : nx = b := by
            have h4 : (i :: nx :: rest)[1]? = some b := hj2
            simpa using h4
          have hiM2 : i ∉ nx :: rest := (List.nodup_cons.mp hnd).1
          constructor
          · unfold nextOf
            rw [hr2 i hiM2, hB2i]
            simp
            rw [hkeyi, hkeynx]
          · rw [hr4]
            unfold prevOf
            rw [hB2nx]
            simp
            rw [hkeyi, hkeynx]
        | succ j2 =>
          have hja : (nx :: rest)[j2]? = some a := by simpa using hj
          have hjb : (nx :: rest)[j2 + 1]? = some b := by simpa using hj2
          have := hr3 j2 a b hja hjb
          rw [hkeyB2 a, hkeyB2 b] at this
          exact this
      · unfold prevOf
        rw [hr2 i (List.nodup_cons.mp hnd).1, hB2i, he]
        rfl
      · intro a ha
        refine hr5 a ?_
        rw [List.getLast?_cons_cons] at ha
        exact ha

theorem getElem?_append_l {α : Type} {P S : List α} {j : ℕ} (h : j < P.length) :
    (P ++ S)[j]? = P[j]? := by
  rw [List.getElem?_append]
  rw [if_pos h]

theorem getElem?_append_r {α : Type} {P S : List α} {j : ℕ} (h : P.length ≤ j) :
    (P ++ S)[j]? = S[j - P.length]? := by
  rw [List.getElem?_append]
  rw [if_neg (by omega)]

/-- Adjacent positions of P ++ x :: S fall in one of four zones: inside P,
across the P-to-x boundary, across the x-to-S boundary, or inside S. -/
theorem adj_append_cons {α : Type} (P S : List α) (x : α) (j : ℕ) (a b : α)
    (ha : (P ++ x :: S)[j]? = some a) (hb : (P ++ x :: S)[j + 1]? = some b) :
    (j + 1 < P.length ∧ P[j]? = some a ∧ P[j + 1]? = some b) ∨
    (j + 1 = P.length ∧ P[j]? = some a ∧ b = x) ∨
    (j = P.length ∧ a = x ∧ S[0]? = some b) ∨
    (P.length < j ∧ S[j - P.length - 1]? = some a ∧ S[j - P.length]? = some b) := by
  rcases lt_trichotomy (j + 1) P.length with h1 | h1 | h1
  · left
    rw [getElem?_append_l (by omega)] at ha
    rw [getElem?_append_l h1] at hb
    exact ⟨h1, ha, hb⟩
  · right; left
    rw [getElem?_append_l (by omega)] at ha
    refine ⟨h1, ha, ?_⟩
    rw [getElem?_append_r (by omega)] at hb
    have h2 : j + 1 - P.length = 0 := by omega
    rw [h2] at hb
    have h4 : x = b := by simpa using hb
    exact h4.symm
  · rcases lt_trichotomy j P.length with h2 | h2 | h2
    · omega
    · right; right; left
      refine ⟨h2, ?_, ?_⟩
      · rw [getElem?_append_r (by omega)] at ha
        have h3 : j - P.length = 0 := by omega
        rw [h3] at ha
        have h4 : x = a := by simpa using ha
        exact h4.symm
      · rw [getElem?_append_r (by omega)] at hb
        have h3 : j + 1 - P.length = 1 := by omega
        rw [h3] at hb
        simpa using hb
    · right; right; right
      refine ⟨h2, ?_, ?_⟩
      · rw [getElem?_append_r (by omega)] at ha
        obtain ⟨m, hm⟩ : ∃ m, j - P.length = m + 1 := ⟨j - P.length - 1, by omega⟩
        rw [hm] at ha
        have h3 : j - P.length - 1 = m := by omega
        rw [h3]
        simpa using ha
      · rw [getElem?_append_r (by omega)] at hb
        obtain ⟨m, hm⟩ : ∃ m, j + 1 - P.length = m + 1 := ⟨j - P.length, by omega⟩
        rw [hm] at hb
        have h3 : j - P.length = m := by omega
        rw [h3]
        simpa using hb

theorem getLast?_append_cons {α : Type} (P S : List α) (x : α) :
    (P ++ x :: S).getLast? = (x :: S).getLast? := by
  induction P with
  | nil => rfl
  | cons y ys ih =>
    cases hys : ys ++ x :: S with
    | nil => exact absurd (List.append_eq_nil.mp hys).2 (by simp)
    | cons z zs =>
      show (y :: ys ++ x :: S).getLast? = _
      rw [List.cons_append, hys, List.getLast?_cons_cons, ← hys, ih]

theorem head?_append_cons {α : Type} (P S : List α) (x : α) (hP : P ≠ []) :
    (P ++ x :: S).head? = P.head? := by
  cases P with
  | nil => exact absurd rfl hP
  | cons y ys => rfl

/-- The ascending key order along a chain enumeration, as a pairwise
relation. -/
theorem chainOK_pairwise {g : Graph} {L : List ℕ} (hc : ChainOK g L) :
    L.Pairwise (fun a b => keyD g.elems a < keyD g.elems b) := by
  haveI : IsTrans ℕ (fun a b => keyD g.elems a < keyD g.elems b) :=
    ⟨fun a b c h1 h2 => lt_trans h1 h2⟩
  exact List.chain'_iff_pairwise.mp hc.sorted

/-- The cached minimum key never exceeds the cached maximum key. -/
theorem chainOK_kmin_le_kmax {g : Graph} {L : List ℕ} (hc : ChainOK g L)
    {a b : ℚ} (hmin : g.key_min = some a) (hmax : g.key_max = some b) :
    a ≤ b := by
  have hPW := chainOK_pairwise hc
  cases L with
  | nil =>
    rw [hc.kmin] at hmin
    simp at hmin
  | cons h0 L2 =>
    have ha : a = keyD g.elems h0 := by
      rw [hc.kmin] at hmin
      simp at hmin
      exact hmin.symm
    obtain ⟨l0, hl0⟩ : ∃ l0, (h0 :: L2).getLast? = some l0 :=
      Option.isSome_iff_exists.mp (List.getLast?_isSome.mpr (by simp))
    have hb : b = keyD g.elems l0 := by
      rw [hc.kmax, hl0] at hmax
      simp at hmax
      exact hmax.symm
    have hmem : l0 ∈ h0 :: L2 := by
      rcases List.mem_getLast?_eq_getLast (Option.mem_def.mpr hl0) with ⟨h9, h10⟩
      rw [h10]
      exact List.getLast_mem h9
    rcases List.mem_cons.mp hmem with rfl | hmem2
    · rw [ha, hb]
    · have h2 := (List.pairwise_cons.mp hPW).1 l0 hmem2
      rw [ha, hb]
      exact le_of_lt h2

/-- A chain walk only depends on the next targets of its members. -/
theorem chainFrom_ext {A B : List Element} :
    ∀ {o : Option ℕ} {M : List ℕ}, ChainFrom A o M →
    (∀ i ∈ M, ∃ e e2, A[i]? = some e ∧ B[i]? = some e2 ∧
      e2.next.map Prod.fst = e.next.map Prod.fst) →
    ChainFrom B o M := by
  intro o M h
  induction h with
  | nil => intro _; exact ChainFrom.nil
  | @cons i e M2 he hM ih =>
    intro hext
    rcases hext i (List.mem_cons_self i M2) with ⟨e1, e2, he1, he2, hne⟩
    rw [he] at he1
    obtain rfl : e = e1 := Option.some.inj he1
    refine ChainFrom.cons he2 ?_
    rw [hne]
    exact ih (fun j hj => hext j (List.mem_cons_of_mem i hj))

/-- Assemble the chain and weight invariants of a graph from pointwise
facts about its arena and an enumeration. -/
theorem chainOK_assemble {g2 : Graph} {L2 : List ℕ}
    (hcomp : ∀ i : ℕ, i ∈ L2 ↔ i < g2.elems.length)
    (hnd : L2.Nodup)
    (hsor : L2.Chain' (fun a b => keyD g2.elems a < keyD g2.elems b))
    (hemin : g2.element_min = L2.head?)
    (hemax : g2.element_max = L2.getLast?)
    (hkmin : g2.key_min = L2.head?.map (keyD g2.elems))
    (hkmax : g2.key_max = L2.getLast?.map (keyD g2.elems))
    (hadj : ∀ (j a b : ℕ), L2[j]? = some a → L2[j + 1]? = some b →
      nextOf g2.elems a = some (b, wf (keyD g2.elems a) (keyD g2.elems b) g2.rangeD) ∧
      prevOf g2.elems b = some (a, wf (keyD g2.elems a) (keyD g2.elems b) g2.rangeD))
    (hlast : ∀ a : ℕ, L2.getLast? = some a → nextOf g2.elems a = none)
    (hhead : ∀ a : ℕ, L2.head? = some a → prevOf g2.elems a = none) :
    ChainOK g2 L2 ∧ WeightsOK g2 L2 := by
  have hwalk : ChainFrom g2.elems g2.element_min L2 := by
    rw [hemin]
    refine chainFrom_build g2.elems L2 ?_ ?_ hlast
    · intro j a hj
      have hmem : a ∈ L2 := List.mem_iff_getElem?.mpr ⟨j, hj⟩
      have hlt : a < g2.elems.length := (hcomp a).mp hmem
      exact ⟨_, List.getElem?_eq_getElem hlt⟩
    · intro j a b hj hj2
      rw [(hadj j a b hj hj2).1]
      rfl
  refine ⟨⟨hwalk, hcomp, hnd, hsor, hemax, hkmin, hkmax, ?_, hhead⟩, ?_⟩
  · intro j a b hj hj2
    exact ⟨_, (hadj j a b hj hj2).1, (hadj j a b hj hj2).2⟩
  · intro j a b hj hj2
    exact hadj j a b hj hj2

theorem mem_of_getLast?P {α : Type} {l : List α} {x : α}
    (h : l.getLast? = some x) : x ∈ l := by
  rcases List.mem_getLast?_eq_getLast (Option.mem_def.mpr h) with ⟨h9, h10⟩
  rw [h10]
  exact List.getLast_mem h9

theorem mem_of_head?P {α : Type} {l : List α} {x : α}
    (h : l.head? = some x) : x ∈ l := by
  cases l with
  | nil => cases h
  | cons y ys =>
    obtain rfl : y = x := Option.some.inj h
    exact List.mem_cons_self y ys

theorem nodup_getElem?_injP {α : Type} {l : List α} (hnd : l.Nodup)
    {i j : ℕ} {x : α} (hi : l[i]? = some x) (hj : l[j]? = some x) : i = j := by
  have hil : i < l.length := by
    by_contra hc
    rw [List.getElem?_eq_none (le_of_not_lt hc)] at hi
    exact Option.noConfusion hi
  have hjl : j < l.length := by
    by_contra hc
    rw [List.getElem?_eq_none (le_of_not_lt hc)] at hj
    exact Option.noConfusion hj
  by_contra hne
  rcases lt_or_gt_of_ne hne with h2 | h2
  · exact (List.nodup_iff_getElem?_ne_getElem?.mp hnd i j h2 hjl) (hi.trans hj.symm)
  · exact (List.nodup_iff_getElem?_ne_getElem?.mp hnd j i h2 hil) (hj.trans hi.symm)

theorem getLast?_eq_getElem?P {α : Type} (l : List α) :
    l.getLast? = l[l.length - 1]? := by
  induction l with
  | nil => rfl
  | cons x xs ih =>
    cases xs with
    | nil => rfl
    | cons y ys =>
      rw [List.getLast?_cons_cons, ih]
      have h1 : (x :: y :: ys).length - 1 = ((y :: ys).length - 1) + 1 := by
        simp
      rw [h1]
      simp

/-- The arena produced by the spec-modelled Node::insert_key_leaf: append
the fresh element and wire it to its in-order neighbours. -/
def spliceArena (g : Graph) (k : ℚ) : List Element :=
  set_connections (g.elems ++ [Element.new k]) g.elems.length
    (chainNeighbours (g.elems.length + 1) g.elems g.element_min k none).1
    (chainNeighbours (g.elems.length + 1) g.elems g.element_min k none).2 g.rangeD

theorem insert_key_leaf_parts (t : BT) (idx : ℕ) (k : ℚ) (g : Graph) :
    insert_key_leaf t idx k g =
      (.mk (t.keys.insertIdx idx k) (t.elemIds.insertIdx idx g.elems.length)
        t.children t.isLeaf,
       { g with elems := spliceArena g k }, g.elems.length) := rfl

set_option maxHeartbeats 1000000 in
/-- Leaf insertion of an interior key: the spliced graph passes set_extrema
unchanged and satisfies the chain and weight invariants on the enumeration
with the new element spliced between its neighbours. -/
theorem splice_caseA {g : Graph} {L : List ℕ} {k : ℚ}
    (hC : ChainOK g L) (hW : WeightsOK g L)
    (hknot : ∀ i ∈ L, keyD g.elems i ≠ k)
    (hPne : L.takeWhile (fun j => decide (keyD g.elems j < k)) ≠ [])
    (hSne : L.dropWhile (fun j => decide (keyD g.elems j < k)) ≠ []) :
    ∃ g2 L2,
      Graph.set_extrema { g with elems := spliceArena g k } g.elems.length = some g2 ∧
      ChainOK g2 L2 ∧ WeightsOK g2 L2 ∧
      g2.elems.length = g.elems.length + 1 ∧
      (∀ i : ℕ, i < g.elems.length → keyOf g2.elems i = keyOf g.elems i) ∧
      keyOf g2.elems g.elems.length = some k ∧
      g2.root = g.root ∧ g2.dataCategory = g.dataCategory := by
  obtain ⟨P, hPdef⟩ : ∃ P, P = L.takeWhile (fun j => decide (keyD g.elems j < k)) :=
    ⟨_, rfl⟩
  obtain ⟨S, hSdef⟩ : ∃ S, S = L.dropWhile (fun j => decide (keyD g.elems j < k)) :=
    ⟨_, rfl⟩
  rw [← hPdef] at hPne
  rw [← hSdef] at hSne
  have hLen : L.length = g.elems.length := chainOK_length hC
  have hPW := chainOK_pairwise hC
  have hLPS : L = P ++ S := by
    rw [hPdef, hSdef, List.takeWhile_append_dropWhile]
  obtain ⟨p, hpL⟩ : ∃ p, P.getLast? = some p :=
    Option.isSome_iff_exists.mp (List.getLast?_isSome.mpr hPne)
  obtain ⟨n2, S', rfl⟩ : ∃ n2 S', S = n2 :: S' := by
    cases S with
    | nil => exact absurd rfl hSne
    | cons x xs => exact ⟨x, xs, rfl⟩
  have hn2 : (n2 :: S').head? = some n2 := rfl
  have hps : chainNeighbours (g.elems.length + 1) g.elems g.element_min k none
      = (some p, some n2) := by
    rw [chainNeighbours_spec L (g.elems.length + 1) g.element_min none hC.walk
      (by omega)]
    rw [← hPdef, ← hSdef]
    rw [if_neg hPne, hpL]
    rfl
  have hPL : ∀ x ∈ P, x ∈ L := by
    intro x hx
    rw [hLPS]
    exact List.mem_append_left _ hx
  have hSL : ∀ x ∈ n2 :: S', x ∈ L := by
    intro x hx
    rw [hLPS]
    exact List.mem_append_right _ hx
  have hndL : (P ++ n2 :: S').Nodup := by
    rw [← hLPS]
    exact hC.nodup
  have hndP : P.Nodup := (List.nodup_append.mp hndL).1
  have hndS : (n2 :: S').Nodup := (List.nodup_append.mp hndL).2.1
  have hdisj : ∀ x ∈ P, x ∈ n2 :: S' → False := by
    intro x hx1 hx2
    exact (List.nodup_append.mp hndL).2.2 hx1 hx2
  have hpP : p ∈ P := mem_of_getLast?P hpL
  have hn2S : n2 ∈ n2 :: S' := List.mem_cons_self n2 S'
  have hplt : p < g.elems.length := (hC.complete p).mp (hPL p hpP)
  have hn2lt : n2 < g.elems.length := (hC.complete n2).mp (hSL n2 hn2S)
  have hn2p : n2 ≠ p := by
    intro hh
    exact hdisj p hpP (hh ▸ hn2S)
  have hPlt : ∀ x ∈ P, keyD g.elems x < k := by
    intro x hx
    rw [hPdef] at hx
    exact takeWhile_keys_lt x hx
  have hSgt : ∀ x ∈ n2 :: S', k < keyD g.elems x := by
    intro x hx
    rw [hSdef] at hx
    exact dropWhile_keys_gt hPW hknot x hx
  obtain ⟨ep, hep⟩ : ∃ e, g.elems[p]? = some e :=
    ⟨_, List.getElem?_eq_getElem hplt⟩
  obtain ⟨en2, hen2⟩ : ∃ e, g.elems[n2]? = some e :=
    ⟨_, List.getElem?_eq_getElem hn2lt⟩
  have hkeyp : keyD g.elems p = ep.key := by simp [keyD, hep]
  have hkeyn2 : keyD g.elems n2 = en2.key := by simp [keyD, hen2]
  have hA0new : (g.elems ++ [Element.new k])[g.elems.length]? = some (Element.new k) := by
    rw [getElem?_append_r (le_refl _)]
    simp
  have hA0p : (g.elems ++ [Element.new k])[p]? = some ep := by
    rw [getElem?_append_l hplt]
    exact hep
  have hA0n2 : (g.elems ++ [Element.new k])[n2]? = some en2 := by
    rw [getElem?_append_l hn2lt]
    exact hen2
  have hsplice : spliceArena g k = set_connections (g.elems ++ [Element.new k])
      g.elems.length (some p) (some n2) g.rangeD := by
    unfold spliceArena
    rw [hps]
  obtain ⟨hL1, hE1, hE2, hE3, hE4⟩ :=
    set_connections_ss hA0new hA0p hA0n2 (by omega) (by omega) hn2p
  rw [← hsplice] at hL1 hE1 hE2 hE3 hE4
  have hek : (Element.new k).key = k := rfl
  rw [hek] at hE1 hE2 hE3
  have hA1len : (spliceArena g k).length = g.elems.length + 1 := by
    rw [hL1]
    simp
  have hA1old : ∀ j : ℕ, j < g.elems.length → j ≠ p → j ≠ n2 →
      (spliceArena g k)[j]? = g.elems[j]? := by
    intro j hj hjp hjn
    rw [hE4 j (by omega) hjp hjn]
    exact getElem?_append_l hj
  have hkeyOld : ∀ x : ℕ, x < g.elems.length →
      keyD (spliceArena g k) x = keyD g.elems x := by
    intro x hx
    by_cases hxp : x = p
    · subst hxp
      simp [keyD, hE2, hep]
    · by_cases hxn : x = n2
      · subst hxn
        simp [keyD, hE3, hen2]
      · rw [keyD, hA1old x hx hxp hxn, keyD]
  have hkeyNew : keyD (spliceArena g k) g.elems.length = k := by
    simp [keyD, hE1]
  have hnextPres : ∀ a : ℕ, a < g.elems.length → a ≠ p →
      nextOf (spliceArena g k) a = nextOf g.elems a := by
    intro a ha hap
    by_cases han : a = n2
    · subst han
      unfold nextOf
      rw [hE3, hen2]
      rfl
    · unfold nextOf
      rw [hA1old a ha hap han]
  have hprevPres : ∀ b : ℕ, b < g.elems.length → b ≠ n2 →
      prevOf (spliceArena g k) b = prevOf g.elems b := by
    intro b hb hbn
    by_cases hbp : b = p
    · subst hbp
      unfold prevOf
      rw [hE2, hep]
      rfl
    · unfold prevOf
      rw [hA1old b hb hbp hbn]
  -- The-set_extrema call leaves the graph unchanged: the new key is interior.
  obtain ⟨h0, hh0⟩ : ∃ h0, L.head? = some h0 := by
    cases L with
    | nil => simp at hLPS
    | cons x xs => exact ⟨x, rfl⟩
  have hh0P : P.head? = some h0 := by
    rw [hLPS, head?_append_cons P S' n2 hPne] at hh0
    exact hh0
  have hh0mem : h0 ∈ P := mem_of_head?P hh0P
  obtain ⟨ls, hls⟩ : ∃ ls, L.getLast? = some ls := by
    rw [hLPS, getLast?_append_cons]
    exact Option.isSome_iff_exists.mp (List.getLast?_isSome.mpr (by simp))
  have hlsS : (n2 :: S').getLast? = some ls := by
    rw [hLPS, getLast?_append_cons] at hls
    exact hls
  have hlsmem : ls ∈ n2 :: S' := mem_of_getLast?P hlsS
  have hgmin : g.key_min = some (keyD g.elems h0) := by
    rw [hC.kmin, hh0]
    rfl
  have hgmax : g.key_max = some (keyD g.elems ls) := by
    rw [hC.kmax, hls]
    rfl
  have hminlt : keyD g.elems h0 < k := hPlt h0 hh0mem
  have hmaxgt : k < keyD g.elems ls := hSgt ls hlsmem
  have hsetex : Graph.set_extrema { g with elems := spliceArena g k } g.elems.length
      = some { g with elems := spliceArena g k } := by
    have hc1 : (k < keyD g.elems h0) = False :=
      eq_false (not_lt.mpr (le_of_lt hminlt))
    have hc2 : (k > keyD g.elems ls) = False :=
      eq_false (not_lt.mpr (le_of_lt hmaxgt))
    unfold Graph.set_extrema
    simp only [hE1, Element.new, hgmin, hgmax, hc1, hc2, if_false, or_false,
      false_or, or_self]
  refine ⟨_, P ++ g.elems.length :: n2 :: S', hsetex, ?_⟩
  have hrange : ({ g with elems := spliceArena g k } : Graph).rangeD = g.rangeD := rfl
  have hPmemlt : ∀ x ∈ P, x < g.elems.length := fun x hx => (hC.complete x).mp (hPL x hx)
  have hSmemlt : ∀ x ∈ n2 :: S', x < g.elems.length :=
    fun x hx => (hC.complete x).mp (hSL x hx)
  have hadj : ∀ (j a b : ℕ),
      (P ++ g.elems.length :: n2 :: S')[j]? = some a →
      (P ++ g.elems.length :: n2 :: S')[j + 1]? = some b →
      nextOf (spliceArena g k) a
        = some (b, wf (keyD (spliceArena g k) a)
          (keyD (spliceArena g k) b) g.rangeD) ∧
      prevOf (spliceArena g k) b
        = some (a, wf (keyD (spliceArena g k) a)
          (keyD (spliceArena g k) b) g.rangeD) := by
    intro j a b hja hjb
    rcases adj_append_cons P (n2 :: S') g.elems.length j a b hja hjb with
      ⟨hz1, hz2, hz3⟩ | ⟨hz1, hz2, hz3⟩ | ⟨hz1, hz2, hz3⟩ | ⟨hz1, hz2, hz3⟩
    · -- inside P
      have hamem : a ∈ P := List.mem_iff_getElem?.mpr ⟨_, hz2⟩
      have hbmem : b ∈ P := List.mem_iff_getElem?.mpr ⟨_, hz3⟩
      have halt := hPmemlt a hamem
      have hblt := hPmemlt b hbmem
      have hap : a ≠ p := by
        intro hh
        have hplast : P[P.length - 1]? = some p := by
          rw [← getLast?_eq_getElem?P]
          exact hpL
        have hje : j = P.length - 1 :=
          nodup_getElem?_injP hndP (hh ▸ hz2) hplast
        omega
      have hbn2 : b ≠ n2 := by
        intro hh
        exact hdisj b hbmem (hh ▸ hn2S)
      have hLa : L[j]? = some a := by
        rw [hLPS, getElem?_append_l (by omega)]
        exact hz2
      have hLb : L[j + 1]? = some b := by
        rw [hLPS, getElem?_append_l hz1]
        exact hz3
      rcases hW j a b hLa hLb with ⟨hw1, hw2⟩
      rw [hnextPres a halt hap, hprevPres b hblt hbn2,
        hkeyOld a halt, hkeyOld b hblt]
      exact ⟨hw1, hw2⟩
    · -- the edge from the last low element to the new element
      obtain rfl : p = a := by
        have hplast : P[P.length - 1]? = some p := by
          rw [← getLast?_eq_getElem?P]
          exact hpL
        have hje : P[j]? = some p := by
          have h9 : j = P.length - 1 := by omega
          rw [h9]
          exact hplast
        rw [hz2] at hje
        exact (Option.some.inj hje).symm
      obtain rfl : b = g.elems.length := hz3
      constructor
      · unfold nextOf
        rw [hE2]
        simp
        rw [hkeyOld p hplt, hkeyNew, hkeyp]
        rw [wf_comm]
      · unfold prevOf
        rw [hE1]
        simp
        rw [hkeyOld p hplt, hkeyNew, hkeyp]
        rw [wf_comm]
    · -- the edge from the new element to the first high element
      obtain rfl : a = g.elems.length := hz2
      obtain rfl : n2 = b := by
        have h9 : (n2 :: S')[0]? = some n2 := by simp
        rw [hz3] at h9
        exact (Option.some.inj h9).symm
      constructor
      · unfold nextOf
        rw [hE1]
        simp
        rw [hkeyOld n2 hn2lt, hkeyNew, hkeyn2]
      · unfold prevOf
        rw [hE3]
        simp
        rw [hkeyOld n2 hn2lt, hkeyNew, hkeyn2]
    · -- inside the high suffix
      obtain ⟨m, hm⟩ : ∃ m, j - P.length - 1 = m := ⟨_, rfl⟩
      have hm2 : j - P.length = m + 1 := by omega
      rw [hm] at hz2
      rw [hm2] at hz3
      have hamem : a ∈ n2 :: S' := List.mem_iff_getElem?.mpr ⟨_, hz2⟩
      have hbmem : b ∈ n2 :: S' := List.mem_iff_getElem?.mpr ⟨_, hz3⟩
      have halt := hSmemlt a hamem
      have hblt := hSmemlt b hbmem
      have hap : a ≠ p := by
        intro hh
        exact hdisj p hpP (hh ▸ hamem)
      have hbn2 : b ≠ n2 := by
        intro hh
        have h9 : (n2 :: S')[0]? = some n2 := by simp
        have hz3b : (n2 :: S')[m + 1]? = some n2 := by rw [hz3, hh]
        have hje : m + 1 = 0 := nodup_getElem?_injP hndS hz3b h9
        omega
      have hLa : L[P.length + m]? = some a := by
        rw [hLPS, getElem?_append_r (by omega)]
        have h9 : P.length + m - P.length = m := by omega
        rw [h9]
        exact hz2
      have hLb : L[P.length + m + 1]? = some b := by
        rw [hLPS, getElem?_append_r (by omega)]
        have h9 : P.length + m + 1 - P.length = m + 1 := by omega
        rw [h9]
        exact hz3
      rcases hW (P.length + m) a b hLa hLb with ⟨hw1, hw2⟩
      rw [hnextPres a halt hap, hprevPres b hblt hbn2,
        hkeyOld a halt, hkeyOld b hblt]
      exact ⟨hw1, hw2⟩
  have hcomp : ∀ i : ℕ, i ∈ P ++ g.elems.length :: n2 :: S' ↔
      i < ({ g with elems := spliceArena g k } : Graph).elems.length := by
    intro i
    show _ ↔ i < (spliceArena g k).length
    rw [hA1len]
    constructor
    · intro hi
      rcases List.mem_append.mp hi with hi2 | hi2
      · have := hPmemlt i hi2
        omega
      · rcases List.mem_cons.mp hi2 with rfl | hi3
        · omega
        · have := hSmemlt i hi3
          omega
    · intro hi
      by_cases hie : i = g.elems.length
      · subst hie
        exact List.mem_append_right _ (List.mem_cons_self _ _)
      · have hi2 : i < g.elems.length := by omega
        have hi3 : i ∈ L := (hC.complete i).mpr hi2
        rw [hLPS] at hi3
        rcases List.mem_append.mp hi3 with hi4 | hi4
        · exact List.mem_append_left _ hi4
        · exact List.mem_append_right _ (List.mem_cons_of_mem _ hi4)
  have hnd2 : (P ++ g.elems.length :: n2 :: S').Nodup := by
    rw [List.nodup_append]
    refine ⟨hndP, ?_, ?_⟩
    · rw [List.nodup_cons]
      refine ⟨?_, hndS⟩
      intro hmem
      have := hSmemlt _ hmem
      omega
    · intro x hx1 hx2
      rcases List.mem_cons.mp hx2 with rfl | hx3
      · have := hPmemlt _ hx1
        omega
      · exact hdisj x hx1 hx3
  have h0lt : h0 < g.elems.length := hPmemlt h0 hh0mem
  have hlslt : ls < g.elems.length := hSmemlt ls hlsmem
  have hh0n2 : h0 ≠ n2 := by
    intro hh
    exact hdisj h0 hh0mem (hh ▸ hn2S)
  have hlsp : ls ≠ p := by
    intro hh
    exact hdisj p hpP (hh ▸ hlsmem)
  have hL2head : (P ++ g.elems.length :: n2 :: S').head? = some h0 := by
    rw [head?_append_cons P (n2 :: S') g.elems.length hPne]
    exact hh0P
  have hL2last : (P ++ g.elems.length :: n2 :: S').getLast? = some ls := by
    rw [getLast?_append_cons, List.getLast?_cons_cons]
    exact hlsS
  haveI : IsTrans ℕ (fun a b =>
      keyD (spliceArena g k) a <
      keyD (spliceArena g k) b) :=
    ⟨fun a b c h1 h2 => lt_trans h1 h2⟩
  have hsor : (P ++ g.elems.length :: n2 :: S').Chain' (fun a b =>
      keyD (spliceArena g k) a <
      keyD (spliceArena g k) b) := by
    refine List.chain'_iff_pairwise.mpr ?_
    rw [List.pairwise_append]
    refine ⟨?_, ?_, ?_⟩
    · have hPWP : P.Pairwise (fun a b => keyD g.elems a < keyD g.elems b) := by
        refine hPW.sublist ?_
        rw [hPdef]
        exact List.takeWhile_sublist _
      refine List.Pairwise.imp_of_mem ?_ hPWP
      intro a b ha hb h1
      rw [hkeyOld a (hPmemlt a ha), hkeyOld b (hPmemlt b hb)]
      exact h1
    · rw [List.pairwise_cons]
      constructor
      · intro b hb
        rw [hkeyNew, hkeyOld b (hSmemlt b hb)]
        exact hSgt b hb
      · have hPWS : (n2 :: S').Pairwise (fun a b => keyD g.elems a < keyD g.elems b) := by
          refine hPW.sublist ?_
          rw [hSdef]
          exact List.dropWhile_sublist _
        refine List.Pairwise.imp_of_mem ?_ hPWS
        intro a b ha hb h1
        rw [hkeyOld a (hSmemlt a ha), hkeyOld b (hSmemlt b hb)]
        exact h1
    · intro x hx y hy
      rcases List.mem_cons.mp hy with rfl | hy2
      · rw [hkeyNew, hkeyOld x (hPmemlt x hx)]
        exact hPlt x hx
      · rw [hkeyOld x (hPmemlt x hx), hkeyOld y (hSmemlt y hy2)]
        exact lt_trans (hPlt x hx) (hSgt y hy2)
  have hemin2 : ({ g with elems := spliceArena g k } : Graph).element_min
      = (P ++ g.elems.length :: n2 :: S').head? := by
    show g.element_min = _
    rw [hL2head, chainFrom_head hC.walk, hh0]
  have hemax2 : ({ g with elems := spliceArena g k } : Graph).element_max
      = (P ++ g.elems.length :: n2 :: S').getLast? := by
    show g.element_max = _
    rw [hL2last, hC.emax, hls]
  have hkmin2 : ({ g with elems := spliceArena g k } : Graph).key_min
      = (P ++ g.elems.length :: n2 :: S').head?.map
        (keyD (spliceArena g k)) := by
    show g.key_min = _
    rw [hL2head, hgmin]
    simp [hkeyOld h0 h0lt]
  have hkmax2 : ({ g with elems := spliceArena g k } : Graph).key_max
      = (P ++ g.elems.length :: n2 :: S').getLast?.map
        (keyD (spliceArena g k)) := by
    show g.key_max = _
    rw [hL2last, hgmax]
    simp [hkeyOld ls hlslt]
  have hlast2 : ∀ a : ℕ, (P ++ g.elems.length :: n2 :: S').getLast? = some a →
      nextOf (spliceArena g k) a = none := by
    intro a ha
    rw [hL2last] at ha
    obtain rfl : ls = a := Option.some.inj ha
    rw [hnextPres ls hlslt hlsp]
    exact chainFrom_last hC.walk ls hls
  have hhead2 : ∀ a : ℕ, (P ++ g.elems.length :: n2 :: S').head? = some a →
      prevOf (spliceArena g k) a = none := by
    intro a ha
    rw [hL2head] at ha
    obtain rfl : h0 = a := Option.some.inj ha
    rw [hprevPres h0 h0lt hh0n2]
    exact hC.headPrev h0 hh0
  obtain ⟨hCO, hWO⟩ := chainOK_assemble hcomp hnd2 hsor hemin2 hemax2 hkmin2 hkmax2
    hadj hlast2 hhead2
  refine ⟨hCO, hWO, hA1len, ?_, ?_, rfl, rfl⟩
  · intro i hi
    unfold keyOf
    by_cases hip : i = p
    · subst hip
      rw [hE2, hep]
      rfl
    · by_cases hin : i = n2
      · subst hin
        rw [hE3, hen2]
        rfl
      · rw [hA1old i hi hip hin]
  · unfold keyOf
    rw [hE1]
    rfl

theorem sameLinks_keyOf {A B : List Element} (h : sameLinks A B) (i : ℕ) :
    keyOf A i = keyOf B i := by
  have h2 := h.shape i
  unfold keyOf
  cases ha : A[i]? with
  | none =>
    rw [ha] at h2
    cases hb : B[i]? with
    | none => rfl
    | some eb => rw [hb] at h2; simp at h2
  | some ea =>
    rw [ha] at h2
    cases hb : B[i]? with
    | none => rw [hb] at h2; simp at h2
    | some eb =>
      rw [hb] at h2
      simp [linkShape] at h2
      simp [h2.1]

theorem dist_eq_zero_iffP (a b : ℚ) : dist a b = 0 ↔ a = b := by
  rw [dist_eq_abs, abs_eq_zero, sub_eq_zero]

set_option maxHeartbeats 1000000 in
/-- Leaf insertion of a new minimum key: set_extrema updates the cached
minimum to the new element and refreshes every chain weight at the new raw
extremum distance; the chain and weight invariants hold on the enumeration
with the new element prepended. -/
theorem splice_caseB {g : Graph} {L : List ℕ} {k : ℚ}
    (hC : ChainOK g L) (hW : WeightsOK g L)
    (hknot : ∀ i ∈ L, keyD g.elems i ≠ k)
    (hLne : L ≠ [])
    (hPnil : L.takeWhile (fun j => decide (keyD g.elems j < k)) = []) :
    ∃ g2 L2,
      Graph.set_extrema { g with elems := spliceArena g k } g.elems.length = some g2 ∧
      ChainOK g2 L2 ∧ WeightsOK g2 L2 ∧
      g2.elems.length = g.elems.length + 1 ∧
      (∀ i : ℕ, i < g.elems.length → keyOf g2.elems i = keyOf g.elems i) ∧
      keyOf g2.elems g.elems.length = some k ∧
      g2.root = g.root ∧ g2.dataCategory = g.dataCategory := by
  have hLen : L.length = g.elems.length := chainOK_length hC
  have hPW := chainOK_pairwise hC
  have hdw : L.dropWhile (fun j => decide (keyD g.elems j < k)) = L := by
    have h1 := List.takeWhile_append_dropWhile
      (p := fun j => decide (keyD g.elems j < k)) (l := L)
    rw [hPnil] at h1
    simpa using h1
  obtain ⟨h0, L', rfl⟩ : ∃ h0 L', L = h0 :: L' := by
    cases L with
    | nil => exact absurd rfl hLne
    | cons x xs => exact ⟨x, xs, rfl⟩
  have hgt : ∀ x ∈ h0 :: L', k < keyD g.elems x := by
    intro x hx
    refine dropWhile_keys_gt hPW hknot x ?_
    rw [hdw]
    exact hx
  have hps : chainNeighbours (g.elems.length + 1) g.elems g.element_min k none
      = (none, some h0) := by
    rw [chainNeighbours_spec (h0 :: L') (g.elems.length + 1) g.element_min none
      hC.walk (by omega)]
    rw [hPnil, hdw]
    rw [if_pos rfl]
    rfl
  have hh0lt : h0 < g.elems.length := (hC.complete h0).mp (List.mem_cons_self h0 L')
  obtain ⟨eh0, heh0⟩ : ∃ e, g.elems[h0]? = some e :=
    ⟨_, List.getElem?_eq_getElem hh0lt⟩
  have hkeyh0 : keyD g.elems h0 = eh0.key := by simp [keyD, heh0]
  have hA0new : (g.elems ++ [Element.new k])[g.elems.length]? = some (Element.new k) := by
    rw [getElem?_append_r (le_refl _)]
    simp
  have hA0h0 : (g.elems ++ [Element.new k])[h0]? = some eh0 := by
    rw [getElem?_append_l hh0lt]
    exact heh0
  have hsplice : spliceArena g k = set_connections (g.elems ++ [Element.new k])
      g.elems.length none (some h0) g.rangeD := by
    unfold spliceArena
    rw [hps]
  obtain ⟨hL1, hE1, hE3, hE4⟩ :=
    set_connections_ns hA0new hA0h0 (by omega)
  rw [← hsplice] at hL1 hE1 hE3 hE4
  have hek : (Element.new k).key = k := rfl
  rw [hek] at hE1 hE3
  have hA1len : (spliceArena g k).length = g.elems.length + 1 := by
    rw [hL1]
    simp
  have hA1old : ∀ j : ℕ, j < g.elems.length → j ≠ h0 →
      (spliceArena g k)[j]? = g.elems[j]? := by
    intro j hj hjh
    rw [hE4 j (by omega) hjh]
    exact getElem?_append_l hj
  have hkeyOld : ∀ x : ℕ, x < g.elems.length →
      keyD (spliceArena g k) x = keyD g.elems x := by
    intro x hx
    by_cases hxh : x = h0
    · subst hxh
      simp [keyD, hE3, heh0]
    · rw [keyD, hA1old x hx hxh, keyD]
  have hkeyNew : keyD (spliceArena g k) g.elems.length = k := by
    simp [keyD, hE1]
  have hnextPres : ∀ a : ℕ, a < g.elems.length →
      nextOf (spliceArena g k) a = nextOf g.elems a := by
    intro a ha
    by_cases hah : a = h0
    · subst hah
      unfold nextOf
      rw [hE3, heh0]
      rfl
    · unfold nextOf
      rw [hA1old a ha hah]
  have hprevPres : ∀ b : ℕ, b < g.elems.length → b ≠ h0 →
      prevOf (spliceArena g k) b = prevOf g.elems b := by
    intro b hb hbh
    unfold prevOf
    rw [hA1old b hb hbh]
  obtain ⟨ls, hls⟩ : ∃ ls, (h0 :: L').getLast? = some ls :=
    Option.isSome_iff_exists.mp (List.getLast?_isSome.mpr (by simp))
  have hlsmem : ls ∈ h0 :: L' := mem_of_getLast?P hls
  have hlslt : ls < g.elems.length := (hC.complete ls).mp hlsmem
  have hgmin : g.key_min = some (keyD g.elems h0) := by
    rw [hC.kmin]
    rfl
  have hgmax : g.key_max = some (keyD g.elems ls) := by
    rw [hC.kmax, hls]
    rfl
  have hminlt : k < keyD g.elems h0 := hgt h0 (List.mem_cons_self h0 L')
  have hmaxgt : k < keyD g.elems ls := hgt ls hlsmem
  have hdistne : dist k (keyD g.elems ls) ≠ 0 :=
    fun h => ne_of_lt hmaxgt ((dist_eq_zero_iffP k (keyD g.elems ls)).mp h)
  obtain ⟨A2, hA2def⟩ : ∃ A2, A2 = update_weights_go ((spliceArena g k).length + 1)
      (spliceArena g k) g.elems.length (dist k (keyD g.elems ls)) := ⟨_, rfl⟩
  -- set_extrema takes the new-minimum branch and triggers the weight sweep.
  have hsetex : Graph.set_extrema { g with elems := spliceArena g k } g.elems.length
      = some { g with elems := A2, element_min := some g.elems.length, key_min := some k } := by
    have hc1 : (k < keyD g.elems h0) = True := eq_true hminlt
    have hc2 : (k > keyD g.elems ls) = False :=
      eq_false (not_lt.mpr (le_of_lt hmaxgt))
    rw [hA2def]
    unfold Graph.set_extrema Graph.update_elements_weights
    simp only [hE1, Element.new, hgmin, hgmax, hc1, hc2, if_true, if_false, true_or]
  -- The pre-sweep walk from the new element covers the whole new arena.
  have hwalk0 : ChainFrom g.elems (some h0) (h0 :: L') := by
    have h1 : g.element_min = some h0 := chainFrom_head hC.walk
    rw [← h1]
    exact hC.walk
  have hwalkA1 : ChainFrom (spliceArena g k) (some h0) (h0 :: L') := by
    refine chainFrom_ext hwalk0 ?_
    intro i hi
    have hilt : i < g.elems.length := (hC.complete i).mp hi
    by_cases hih : i = h0
    · subst hih
      exact ⟨eh0, _, heh0, hE3, rfl⟩
    · obtain ⟨e, he⟩ : ∃ e, g.elems[i]? = some e :=
        ⟨_, List.getElem?_eq_getElem hilt⟩
      refine ⟨e, e, he, ?_, rfl⟩
      rw [hA1old i hilt hih]
      exact he
  have hwalk1 : ChainFrom (spliceArena g k) (some g.elems.length)
      (g.elems.length :: h0 :: L') := ChainFrom.cons hE1 hwalkA1
  have hmemlt : ∀ x ∈ h0 :: L', x < g.elems.length := fun x hx => (hC.complete x).mp hx
  have hnd1 : (g.elems.length :: h0 :: L').Nodup := by
    rw [List.nodup_cons]
    refine ⟨?_, hC.nodup⟩
    intro hmem
    have := hmemlt _ hmem
    omega
  have hback1 : ∀ (j a b : ℕ), (g.elems.length :: h0 :: L')[j]? = some a →
      (g.elems.length :: h0 :: L')[j + 1]? = some b →
      ∃ w, prevOf (spliceArena g k) b = some (a, w) := by
    intro j a b hja hjb
    cases j with
    | zero =>
      obtain rfl : g.elems.length = a := Option.some.inj hja
      obtain rfl : h0 = b := by simpa using hjb
      refine ⟨wf k eh0.key g.rangeD, ?_⟩
      unfold prevOf
      rw [hE3]
      rfl
    | succ m =>
      have hja2 : (h0 :: L')[m]? = some a := by simpa using hja
      have hjb2 : (h0 :: L')[m + 1]? = some b := by simpa using hjb
      obtain ⟨w, hn, hp⟩ := hC.links m a b hja2 hjb2
      have hblt : b < g.elems.length :=
        hmemlt b (List.mem_iff_getElem?.mpr ⟨_, hjb2⟩)
      have hbh : b ≠ h0 := by
        intro hh
        have h9 : (h0 :: L')[0]? = some h0 := by simp
        have hz : (h0 :: L')[m + 1]? = some h0 := by rw [hjb2, hh]
        have hje : m + 1 = 0 := nodup_getElem?_injP hC.nodup hz h9
        omega
      refine ⟨w, ?_⟩
      rw [hprevPres b hblt hbh]
      exact hp
  have hpon1 : prevOf (spliceArena g k) g.elems.length = none := by
    unfold prevOf
    rw [hE1]
    rfl
  obtain ⟨hD1, hD2, hD3, hD4, hD5⟩ :=
    update_weights_go_spec (r := dist k (keyD g.elems ls))
      (g.elems.length :: h0 :: L') (spliceArena g k)
      ((spliceArena g k).length + 1) g.elems.length none
      hwalk1 (by simp only [List.length_cons, hA1len]; simp only [List.length_cons] at hLen; omega) hnd1 hback1 (fun _ => hpon1)
      (fun p hp => Option.noConfusion hp)
  rw [← hA2def] at hD1 hD2 hD3 hD4 hD5
  have hkA2 : ∀ x : ℕ, keyD (spliceArena g k) x = keyD A2 x :=
    sameLinks_keyD hD1
  have hA2len : A2.length = g.elems.length + 1 := by
    rw [← hD1.len, hA1len]
  refine ⟨_, g.elems.length :: h0 :: L', hsetex, ?_⟩
  have hrange2 : Graph.rangeD { g with elems := A2, element_min := some g.elems.length, key_min := some k } = dist k (keyD g.elems ls) := by
    have h1 : Graph.range { g with elems := A2, element_min := some g.elems.length, key_min := some k } = some (if dist k (keyD g.elems ls) = 0 then 1 else dist k (keyD g.elems ls)) := by
      unfold Graph.range
      have e2 : ({ g with elems := A2, element_min := some g.elems.length, key_min := some k } : Graph).key_max = g.key_max := rfl
      rw [e2, hgmax]
    unfold Graph.rangeD
    rw [h1, if_neg hdistne]
  have hcomp : ∀ i : ℕ, i ∈ g.elems.length :: h0 :: L' ↔
      i < ({ g with elems := A2, element_min := some g.elems.length, key_min := some k } : Graph).elems.length := by
    intro i
    show _ ↔ i < A2.length
    rw [hA2len]
    constructor
    · intro hi
      rcases List.mem_cons.mp hi with rfl | hi2
      · omega
      · have := hmemlt i hi2
        omega
    · intro hi
      by_cases hie : i = g.elems.length
      · subst hie
        exact List.mem_cons_self _ _
      · have hi2 : i < g.elems.length := by omega
        exact List.mem_cons_of_mem _ ((hC.complete i).mpr hi2)
  haveI : IsTrans ℕ (fun a b => keyD A2 a < keyD A2 b) :=
    ⟨fun a b c h1 h2 => lt_trans h1 h2⟩
  have hsor : (g.elems.length :: h0 :: L').Chain' (fun a b =>
      keyD A2 a < keyD A2 b) := by
    refine List.chain'_iff_pairwise.mpr ?_
    rw [List.pairwise_cons]
    constructor
    · intro b hb
      rw [← hkA2 g.elems.length, ← hkA2 b, hkeyNew, hkeyOld b (hmemlt b hb)]
      exact hgt b hb
    · refine List.Pairwise.imp_of_mem ?_ hPW
      intro a b ha hb h1
      rw [← hkA2 a, ← hkA2 b, hkeyOld a (hmemlt a ha), hkeyOld b (hmemlt b hb)]
      exact h1
  have hemax2 : ({ g with elems := A2, element_min := some g.elems.length, key_min := some k } : Graph).element_max
      = (g.elems.length :: h0 :: L').getLast? := by
    show g.element_max = _
    rw [List.getLast?_cons_cons, hls, hC.emax, hls]
  have hkmin2 : ({ g with elems := A2, element_min := some g.elems.length, key_min := some k } : Graph).key_min
      = (g.elems.length :: h0 :: L').head?.map (keyD A2) := by
    have h2 : keyD A2 g.elems.length = k := by
      rw [← hkA2 g.elems.length]
      exact hkeyNew
    show some k = (g.elems.length :: h0 :: L').head?.map (keyD A2)
    simp [h2]
  have hkmax2 : ({ g with elems := A2, element_min := some g.elems.length, key_min := some k } : Graph).key_max
      = (g.elems.length :: h0 :: L').getLast?.map (keyD A2) := by
    have h2 : keyD A2 ls = keyD g.elems ls := by
      rw [← hkA2 ls]
      exact hkeyOld ls hlslt
    show g.key_max = _
    rw [List.getLast?_cons_cons, hls, hgmax]
    simp [h2]
  have hadj2 : ∀ (j a b : ℕ),
      (g.elems.length :: h0 :: L')[j]? = some a →
      (g.elems.length :: h0 :: L')[j + 1]? = some b →
      nextOf A2 a = some (b, wf (keyD A2 a) (keyD A2 b)
        (Graph.rangeD { g with elems := A2, element_min := some g.elems.length, key_min := some k })) ∧
      prevOf A2 b = some (a, wf (keyD A2 a) (keyD A2 b)
        (Graph.rangeD { g with elems := A2, element_min := some g.elems.length, key_min := some k })) := by
    intro j a b hja hjb
    have h1 := hD3 j a b hja hjb
    rw [hrange2, ← hkA2 a, ← hkA2 b]
    exact h1
  have hlast2 : ∀ a : ℕ, (g.elems.length :: h0 :: L').getLast? = some a →
      nextOf A2 a = none := hD5
  have hhead2 : ∀ a : ℕ, (g.elems.length :: h0 :: L').head? = some a →
      prevOf A2 a = none := by
    intro a ha
    obtain rfl : g.elems.length = a := Option.some.inj ha
    rw [hD4]
    exact hpon1
  have hemin2 : ({ g with elems := A2, element_min := some g.elems.length, key_min := some k } : Graph).element_min
      = (g.elems.length :: h0 :: L').head? := rfl
  obtain ⟨hCO, hWO⟩ := chainOK_assemble hcomp hnd1 hsor hemin2 hemax2 hkmin2 hkmax2
    hadj2 hlast2 hhead2
  refine ⟨hCO, hWO, hA2len, ?_, ?_, rfl, rfl⟩
  · intro i hi
    show keyOf A2 i = keyOf g.elems i
    rw [← sameLinks_keyOf hD1 i]
    unfold keyOf
    by_cases hih : i = h0
    · subst hih
      rw [hE3, heh0]
      rfl
    · rw [hA1old i hi hih]
  · show keyOf A2 g.elems.length = some k
    rw [← sameLinks_keyOf hD1 g.elems.length]
    unfold keyOf
    rw [hE1]
    rfl

set_option maxHeartbeats 1000000 in
/-- Leaf insertion of a new maximum key: set_extrema updates the cached
maximum to the new element and refreshes every chain weight at the new raw
extremum distance; the chain and weight invariants hold on the enumeration
with the new element appended. -/
theorem splice_caseC {g : Graph} {L : List ℕ} {k : ℚ}
    (hC : ChainOK g L) (hW : WeightsOK g L)
    (hknot : ∀ i ∈ L, keyD g.elems i ≠ k)
    (hLne : L ≠ [])
    (hSnil : L.dropWhile (fun j => decide (keyD g.elems j < k)) = []) :
    ∃ g2 L2,
      Graph.set_extrema { g with elems := spliceArena g k } g.elems.length = some g2 ∧
      ChainOK g2 L2 ∧ WeightsOK g2 L2 ∧
      g2.elems.length = g.elems.length + 1 ∧
      (∀ i : ℕ, i < g.elems.length → keyOf g2.elems i = keyOf g.elems i) ∧
      keyOf g2.elems g.elems.length = some k ∧
      g2.root = g.root ∧ g2.dataCategory = g.dataCategory := by
  have hLen : L.length = g.elems.length := chainOK_length hC
  have hPW := chainOK_pairwise hC
  have htw : L.takeWhile (fun j => decide (keyD g.elems j < k)) = L := by
    have h1 := List.takeWhile_append_dropWhile
      (p := fun j => decide (keyD g.elems j < k)) (l := L)
    rw [hSnil] at h1
    simpa using h1
  obtain ⟨h0, L', rfl⟩ : ∃ h0 L', L = h0 :: L' := by
    cases L with
    | nil => exact absurd rfl hLne
    | cons x xs => exact ⟨x, xs, rfl⟩
  have hlt : ∀ x ∈ h0 :: L', keyD g.elems x < k := by
    intro x hx
    rw [← htw] at hx
    exact takeWhile_keys_lt x hx
  obtain ⟨ls, hls⟩ : ∃ ls, (h0 :: L').getLast? = some ls :=
    Option.isSome_iff_exists.mp (List.getLast?_isSome.mpr (by simp))
  have hlsmem : ls ∈ h0 :: L' := mem_of_getLast?P hls
  have hlslt : ls < g.elems.length := (hC.complete ls).mp hlsmem
  have hps : chainNeighbours (g.elems.length + 1) g.elems g.element_min k none
      = (some ls, none) := by
    rw [chainNeighbours_spec (h0 :: L') (g.elems.length + 1) g.element_min none
      hC.walk (by omega)]
    rw [htw, hSnil]
    rw [if_neg hLne, hls]
    rfl
  have hh0lt : h0 < g.elems.length := (hC.complete h0).mp (List.mem_cons_self h0 L')
  obtain ⟨els, hels⟩ : ∃ e, g.elems[ls]? = some e :=
    ⟨_, List.getElem?_eq_getElem hlslt⟩
  have hkeyls : keyD g.elems ls = els.key := by simp [keyD, hels]
  have hA0new : (g.elems ++ [Element.new k])[g.elems.length]? = some (Element.new k) := by
    rw [getElem?_append_r (le_refl _)]
    simp
  have hA0ls : (g.elems ++ [Element.new k])[ls]? = some els := by
    rw [getElem?_append_l hlslt]
    exact hels
  have hsplice : spliceArena g k = set_connections (g.elems ++ [Element.new k])
      g.elems.length (some ls) none g.rangeD := by
    unfold spliceArena
    rw [hps]
  obtain ⟨hL1, hE1, hE3, hE4⟩ :=
    set_connections_sn hA0new hA0ls (by omega)
  rw [← hsplice] at hL1 hE1 hE3 hE4
  have hek : (Element.new k).key = k := rfl
  rw [hek] at hE1 hE3
  have hA1len : (spliceArena g k).length = g.elems.length + 1 := by
    rw [hL1]
    simp
  have hA1old : ∀ j : ℕ, j < g.elems.length → j ≠ ls →
      (spliceArena g k)[j]? = g.elems[j]? := by
    intro j hj hjl
    rw [hE4 j (by omega) hjl]
    exact getElem?_append_l hj
  have hkeyOld : ∀ x : ℕ, x < g.elems.length →
      keyD (spliceArena g k) x = keyD g.elems x := by
    intro x hx
    by_cases hxl : x = ls
    · subst hxl
      simp [keyD, hE3, hels]
    · rw [keyD, hA1old x hx hxl, keyD]
  have hkeyNew : keyD (spliceArena g k) g.elems.length = k := by
    simp [keyD, hE1]
  have hnextPres : ∀ a : ℕ, a < g.elems.length → a ≠ ls →
      nextOf (spliceArena g k) a = nextOf g.elems a := by
    intro a ha hal
    unfold nextOf
    rw [hA1old a ha hal]
  have hprevPres : ∀ b : ℕ, b < g.elems.length →
      prevOf (spliceArena g k) b = prevOf g.elems b := by
    intro b hb
    by_cases hbl : b = ls
    · subst hbl
      unfold prevOf
      rw [hE3, hels]
      rfl
    · unfold prevOf
      rw [hA1old b hb hbl]
  have hemin : g.element_min = some h0 := chainFrom_head hC.walk
  have hgmin : g.key_min = some (keyD g.elems h0) := by
    rw [hC.kmin]
    rfl
  have hgmax : g.key_max = some (keyD g.elems ls) := by
    rw [hC.kmax, hls]
    rfl
  have hminlt : keyD g.elems h0 < k := hlt h0 (List.mem_cons_self h0 L')
  have hmaxlt : keyD g.elems ls < k := hlt ls hlsmem
  have hdistne : dist (keyD g.elems h0) k ≠ 0 :=
    fun h => ne_of_lt hminlt ((dist_eq_zero_iffP (keyD g.elems h0) k).mp h)
  obtain ⟨A2, hA2def⟩ : ∃ A2, A2 = update_weights_go ((spliceArena g k).length + 1)
      (spliceArena g k) h0 (dist (keyD g.elems h0) k) := ⟨_, rfl⟩
  -- set_extrema takes the new-maximum branch and triggers the weight sweep.
  have hsetex : Graph.set_extrema { g with elems := spliceArena g k } g.elems.length
      = some { g with elems := A2, element_max := some g.elems.length, key_max := some k } := by
    have hc1 : (k < keyD g.elems h0) = False :=
      eq_false (not_lt.mpr (le_of_lt hminlt))
    have hc2 : (k > keyD g.elems ls) = True := eq_true hmaxlt
    rw [hA2def]
    unfold Graph.set_extrema Graph.update_elements_weights
    simp only [hE1, Element.new, hgmin, hgmax, hemin, hc1, hc2, if_true, if_false,
      false_or]
  -- The pre-sweep walk from the old head covers the whole new arena.
  have hmemlt : ∀ x ∈ h0 :: L', x < g.elems.length := fun x hx => (hC.complete x).mp hx
  have hlsIdx : (h0 :: L')[(h0 :: L').length - 1]? = some ls := by
    rw [← getLast?_eq_getElem?P]
    exact hls
  have hndL : (h0 :: L').Nodup := hC.nodup
  have hwalk1 : ChainFrom (spliceArena g k) (some h0)
      ((h0 :: L') ++ [g.elems.length]) := by
    have h1 := chainFrom_build (spliceArena g k) ((h0 :: L') ++ [g.elems.length])
      ?_ ?_ ?_
    · exact h1
    · intro j a hj
      have hmem : a ∈ (h0 :: L') ++ [g.elems.length] := List.mem_iff_getElem?.mpr ⟨_, hj⟩
      rcases List.mem_append.mp hmem with h2 | h2
      · have halt := hmemlt a h2
        by_cases hal : a = ls
        · subst hal
          exact ⟨_, hE3⟩
        · obtain ⟨e, he⟩ : ∃ e, g.elems[a]? = some e :=
            ⟨_, List.getElem?_eq_getElem halt⟩
          refine ⟨e, ?_⟩
          rw [hA1old a halt hal]
          exact he
      · obtain rfl : a = g.elems.length := by simpa using h2
        exact ⟨_, hE1⟩
    · intro j a b hja hjb
      rcases adj_append_cons (h0 :: L') [] g.elems.length j a b hja hjb with
        ⟨hz1, hz2, hz3⟩ | ⟨hz1, hz2, hz3⟩ | ⟨hz1, hz2, hz3⟩ | ⟨hz1, hz2, hz3⟩
      · have halt := hmemlt a (List.mem_iff_getElem?.mpr ⟨_, hz2⟩)
        have hal : a ≠ ls := by
          intro hh
          have hje : j = (h0 :: L').length - 1 :=
            nodup_getElem?_injP hndL (hh ▸ hz2) hlsIdx
          omega
        obtain ⟨w, hn, _⟩ := hC.links j a b hz2 hz3
        rw [hnextPres a halt hal, hn]
        rfl
      · obtain rfl : a = ls := by
          have hje : (h0 :: L')[j]? = some ls := by
            have h9 : j = (h0 :: L').length - 1 := by omega
            rw [h9]
            exact hlsIdx
          rw [hz2] at hje
          exact Option.some.inj hje
        obtain rfl : b = g.elems.length := hz3
        unfold nextOf
        rw [hE3]
        rfl
      · exact absurd hz3 (by simp)
      · exact absurd hz3 (by simp)
    · intro a ha
      rw [getLast?_append_cons] at ha
      obtain rfl : g.elems.length = a := by simpa using ha
      unfold nextOf
      rw [hE1]
      rfl
  have hnd1 : ((h0 :: L') ++ [g.elems.length]).Nodup := by
    rw [List.nodup_append]
    refine ⟨hndL, by simp, ?_⟩
    intro x hx1 hx2
    obtain rfl : x = g.elems.length := by simpa using hx2
    have := hmemlt _ hx1
    omega
  have hback1 : ∀ (j a b : ℕ), ((h0 :: L') ++ [g.elems.length])[j]? = some a →
      ((h0 :: L') ++ [g.elems.length])[j + 1]? = some b →
      ∃ w, prevOf (spliceArena g k) b = some (a, w) := by
    intro j a b hja hjb
    rcases adj_append_cons (h0 :: L') [] g.elems.length j a b hja hjb with
      ⟨hz1, hz2, hz3⟩ | ⟨hz1, hz2, hz3⟩ | ⟨hz1, hz2, hz3⟩ | ⟨hz1, hz2, hz3⟩
    · have hblt := hmemlt b (List.mem_iff_getElem?.mpr ⟨_, hz3⟩)
      obtain ⟨w, _, hp⟩ := hC.links j a b hz2 hz3
      refine ⟨w, ?_⟩
      rw [hprevPres b hblt]
      exact hp
    · obtain rfl : a = ls := by
        have hje : (h0 :: L')[j]? = some ls := by
          have h9 : j = (h0 :: L').length - 1 := by omega
          rw [h9]
          exact hlsIdx
        rw [hz2] at hje
        exact Option.some.inj hje
      obtain rfl : b = g.elems.length := hz3
      refine ⟨wf k els.key g.rangeD, ?_⟩
      unfold prevOf
      rw [hE1]
      rfl
    · exact absurd hz3 (by simp)
    · exact absurd hz3 (by simp)
  have hpon1 : prevOf (spliceArena g k) h0 = none := by
    rw [hprevPres h0 hh0lt]
    exact hC.headPrev h0 rfl
  obtain ⟨hD1, hD2, hD3, hD4, hD5⟩ :=
    update_weights_go_spec (r := dist (keyD g.elems h0) k)
      ((h0 :: L') ++ [g.elems.length]) (spliceArena g k)
      ((spliceArena g k).length + 1) h0 none
      hwalk1 (by simp only [List.length_append, List.length_cons, List.length_nil, hA1len]; simp only [List.length_cons] at hLen; omega)
      hnd1 hback1 (fun _ => hpon1) (fun p hp => Option.noConfusion hp)
  rw [← hA2def] at hD1 hD2 hD3 hD4 hD5
  have hkA2 : ∀ x : ℕ, keyD (spliceArena g k) x = keyD A2 x :=
    sameLinks_keyD hD1
  have hA2len : A2.length = g.elems.length + 1 := by
    rw [← hD1.len, hA1len]
  refine ⟨_, (h0 :: L') ++ [g.elems.length], hsetex, ?_⟩
  have hrange2 : Graph.rangeD { g with elems := A2, element_max := some g.elems.length, key_max := some k } = dist (keyD g.elems h0) k := by
    have h1 : Graph.range { g with elems := A2, element_max := some g.elems.length, key_max := some k } = some (if dist (keyD g.elems h0) k = 0 then 1 else dist (keyD g.elems h0) k) := by
      unfold Graph.range
      have e2 : ({ g with elems := A2, element_max := some g.elems.length, key_max := some k } : Graph).key_min = g.key_min := rfl
      rw [e2, hgmin]
    unfold Graph.rangeD
    rw [h1, if_neg hdistne]
  have hcomp : ∀ i : ℕ, i ∈ (h0 :: L') ++ [g.elems.length] ↔
      i < ({ g with elems := A2, element_max := some g.elems.length, key_max := some k } : Graph).elems.length := by
    intro i
    show _ ↔ i < A2.length
    rw [hA2len]
    constructor
    · intro hi
      rcases List.mem_append.mp hi with hi2 | hi2
      · have := hmemlt i hi2
        omega
      · obtain rfl : i = g.elems.length := by simpa using hi2
        omega
    · intro hi
      by_cases hie : i = g.elems.length
      · subst hie
        exact List.mem_append_right _ (by simp)
      · have hi2 : i < g.elems.length := by omega
        exact List.mem_append_left _ ((hC.complete i).mpr hi2)
  haveI : IsTrans ℕ (fun a b => keyD A2 a < keyD A2 b) :=
    ⟨fun a b c h1 h2 => lt_trans h1 h2⟩
  have hsor : ((h0 :: L') ++ [g.elems.length]).Chain' (fun a b =>
      keyD A2 a < keyD A2 b) := by
    refine List.chain'_iff_pairwise.mpr ?_
    rw [List.pairwise_append]
    refine ⟨?_, by simp, ?_⟩
    · refine List.Pairwise.imp_of_mem ?_ hPW
      intro a b ha hb h1
      rw [← hkA2 a, ← hkA2 b, hkeyOld a (hmemlt a ha), hkeyOld b (hmemlt b hb)]
      exact h1
    · intro x hx y hy
      obtain rfl : y = g.elems.length := by simpa using hy
      rw [← hkA2 x, ← hkA2 g.elems.length, hkeyOld x (hmemlt x hx), hkeyNew]
      exact hlt x hx
  have hL2head : ((h0 :: L') ++ [g.elems.length]).head? = some h0 := rfl
  have hL2last : ((h0 :: L') ++ [g.elems.length]).getLast? = some g.elems.length := by
    rw [getLast?_append_cons]
    rfl
  have hemin2 : ({ g with elems := A2, element_max := some g.elems.length, key_max := some k } : Graph).element_min
      = ((h0 :: L') ++ [g.elems.length]).head? := by
    show g.element_min = _
    rw [hL2head, hemin]
  have hemax2 : ({ g with elems := A2, element_max := some g.elems.length, key_max := some k } : Graph).element_max
      = ((h0 :: L') ++ [g.elems.length]).getLast? := by
    show some g.elems.length = _
    rw [hL2last]
  have hkmin2 : ({ g with elems := A2, element_max := some g.elems.length, key_max := some k } : Graph).key_min
      = ((h0 :: L') ++ [g.elems.length]).head?.map (keyD A2) := by
    have h2 : keyD A2 h0 = keyD g.elems h0 := by
      rw [← hkA2 h0]
      exact hkeyOld h0 hh0lt
    show g.key_min = _
    rw [hL2head, hgmin]
    simp [h2]
  have hkmax2 : ({ g with elems := A2, element_max := some g.elems.length, key_max := some k } : Graph).key_max
      = ((h0 :: L') ++ [g.elems.length]).getLast?.map (keyD A2) := by
    have h2 : keyD A2 g.elems.length = k := by
      rw [← hkA2 g.elems.length]
      exact hkeyNew
    show some k = _
    rw [hL2last]
    simp [h2]
  have hadj2 : ∀ (j a b : ℕ),
      ((h0 :: L') ++ [g.elems.length])[j]? = some a →
      ((h0 :: L') ++ [g.elems.length])[j + 1]? = some b →
      nextOf A2 a = some (b, wf (keyD A2 a) (keyD A2 b)
        (Graph.rangeD { g with elems := A2, element_max := some g.elems.length, key_max := some k })) ∧
      prevOf A2 b = some (a, wf (keyD A2 a) (keyD A2 b)
        (Graph.rangeD { g with elems := A2, element_max := some g.elems.length, key_max := some k })) := by
    intro j a b hja hjb
    have h1 := hD3 j a b hja hjb
    rw [hrange2, ← hkA2 a, ← hkA2 b]
    exact h1
  have hlast2 : ∀ a : ℕ, ((h0 :: L') ++ [g.elems.length]).getLast? = some a →
      nextOf A2 a = none := hD5
  have hhead2 : ∀ a : ℕ, ((h0 :: L') ++ [g.elems.length]).head? = some a →
      prevOf A2 a = none := by
    intro a ha
    rw [hL2head] at ha
    obtain rfl : h0 = a := Option.some.inj ha
    rw [hD4]
    exact hpon1
  obtain ⟨hCO, hWO⟩ := chainOK_assemble hcomp hnd1 hsor hemin2 hemax2 hkmin2 hkmax2
    hadj2 hlast2 hhead2
  refine ⟨hCO, hWO, hA2len, ?_, ?_, rfl, rfl⟩
  · intro i hi
    show keyOf A2 i = keyOf g.elems i
    rw [← sameLinks_keyOf hD1 i]
    unfold keyOf
    by_cases hil : i = ls
    · subst hil
      rw [hE3, hels]
      rfl
    · rw [hA1old i hi hil]
  · show keyOf A2 g.elems.length = some k
    rw [← sameLinks_keyOf hD1 g.elems.length]
    unfold keyOf
    rw [hE1]
    rfl

/-- Leaf insertion of a key absent from the arena: combined splice theorem
over the three positions of the new key (interior, new minimum, new
maximum). -/
theorem splice_master {g : Graph} {L : List ℕ} {k : ℚ}
    (hC : ChainOK g L) (hW : WeightsOK g L)
    (hknot : ∀ i ∈ L, keyD g.elems i ≠ k)
    (hLne : L ≠ []) :
    ∃ g2 L2,
      Graph.set_extrema { g with elems := spliceArena g k } g.elems.length = some g2 ∧
      ChainOK g2 L2 ∧ WeightsOK g2 L2 ∧
      g2.elems.length = g.elems.length + 1 ∧
      (∀ i : ℕ, i < g.elems.length → keyOf g2.elems i = keyOf g.elems i) ∧
      keyOf g2.elems g.elems.length = some k ∧
      g2.root = g.root ∧ g2.dataCategory = g.dataCategory := by
  by_cases hP : L.takeWhile (fun j => decide (keyD g.elems j < k)) = []
  · exact splice_caseB hC hW hknot hLne hP
  · by_cases hS : L.dropWhile (fun j => decide (keyD g.elems j < k)) = []
    · exact splice_caseC hC hW hknot hLne hS
    · exact splice_caseA hC hW hknot hP hS

theorem sameShape_keyOf {A B : List Element} (h : sameShape A B) (i : ℕ) :
    keyOf A i = keyOf B i := by
  have h2 := h.shape i
  unfold keyOf
  cases ha : A[i]? with
  | none =>
    rw [ha] at h2
    cases hb : B[i]? with
    | none => rfl
    | some eb => rw [hb] at h2; simp at h2
  | some ea =>
    rw [ha] at h2
    cases hb : B[i]? with
    | none => rw [hb] at h2; simp at h2
    | some eb =>
      rw [hb] at h2
      simp [shapeOf] at h2
      simp [h2.1]

theorem keyOf_lt_length {A : List Element} {i : ℕ} {v : ℚ}
    (h : keyOf A i = some v) : i < A.length := by
  by_contra hc
  unfold keyOf at h
  rw [List.getElem?_eq_none (le_of_not_lt hc)] at h
  simp at h

/-- Pointwise key agreement below the old length transfers tree validity to
the extended arena. -/
theorem validT_keyOf_pres {A B : List Element} {lo hi : Option ℚ} {t : BT}
    (hp : ∀ i : ℕ, i < A.length → keyOf B i = keyOf A i)
    (hv : ValidT (keyOf A) lo hi t) : ValidT (keyOf B) lo hi t := by
  refine validT_mono ?_ hv
  intro i v hiv
  rw [hp i (keyOf_lt_length hiv)]
  exact hiv

/-- Replacing one child with a tree valid in that child's interval keeps
the node valid. -/
theorem validT_setChild {κ : ℕ → Option ℚ} {lo hi : Option ℚ}
    {keys : List ℚ} {elemIds : List ℕ} {children : List BT} {j : ℕ} {c2 : BT}
    (hv : ValidT κ lo hi (.mk keys elemIds children false))
    (hc2 : ValidT κ (boundL keys lo j) (boundR keys hi j) c2) :
    ValidT κ lo hi (.mk keys elemIds (children.set j c2) false) := by
  cases hv with
  | mk hs hbnd hel hptr hleaf hint hch =>
    refine ValidT.mk hs hbnd hel hptr (fun h => by cases h)
      (fun _ => by rw [List.length_set]; exact hint rfl) ?_
    intro i c hc
    by_cases hij : i = j
    · subst hij
      by_cases hjl : i < children.length
      · have h9 : (children.set i c2)[i]? = some c2 := by
          simp [List.getElem?_set, hjl]
        rw [h9] at hc
        obtain rfl : c2 = c := Option.some.inj hc
        exact hc2
      · have h9 : (children.set i c2)[i]? = none := by
          rw [List.getElem?_eq_none]
          rw [List.length_set]
          omega
        rw [h9] at hc
        cases hc
    · have h9 : (children.set j c2)[i]? = children[i]? := by
        simp [List.getElem?_set, Ne.symm hij]
      rw [h9] at hc
      exact hch i c hc

theorem nodesNE_setChild {keys : List ℚ} {elemIds : List ℕ}
    {children : List BT} {lf : Bool} {j : ℕ} {c2 : BT}
    (hne : NodesNE (.mk keys elemIds children lf)) (hc2 : NodesNE c2) :
    NodesNE (.mk keys elemIds (children.set j c2) lf) := by
  cases hne with
  | mk hk hch =>
    refine NodesNE.mk hk ?_
    intro c hc
    rcases List.mem_or_eq_of_mem_set hc with h2 | rfl
    · exact hch c h2
    · exact hc2

/-- Key membership of a node after replacing child j, when the replacement
holds the old child's keys plus k. -/
theorem keyInT_setChild {keys : List ℚ} {elemIds : List ℕ}
    {children : List BT} {lf : Bool} {j : ℕ} {c c2 : BT} {k : ℚ}
    (hj : children[j]? = some c)
    (hiff : ∀ x : ℚ, KeyInT c2 x ↔ (KeyInT c x ∨ x = k)) :
    ∀ x : ℚ, KeyInT (.mk keys elemIds (children.set j c2) lf) x ↔
      (KeyInT (.mk keys elemIds children lf) x ∨ x = k) := by
  have hjl : j < children.length := by
    by_contra hc3
    rw [List.getElem?_eq_none (le_of_not_lt hc3)] at hj
    exact Option.noConfusion hj
  have hmem2 : c2 ∈ children.set j c2 := by
    refine List.mem_iff_getElem?.mpr ⟨j, ?_⟩
    simp [List.getElem?_set, hjl]
  intro x
  constructor
  · intro h
    cases h with
    | here hm => exact Or.inl (KeyInT.here hm)
    | @child _ _ _ _ _ cw hm hk2 =>
      rcases List.mem_or_eq_of_mem_set hm with h2 | rfl
      · exact Or.inl (KeyInT.child h2 hk2)
      · rcases (hiff x).mp hk2 with h3 | h3
        · exact Or.inl (KeyInT.child (List.mem_iff_getElem?.mpr ⟨j, hj⟩) h3)
        · exact Or.inr h3
  · intro h
    rcases h with h | he
    · cases h with
      | here hm => exact KeyInT.here hm
      | @child _ _ _ _ _ cw hm hk2 =>
        rcases List.mem_iff_getElem?.mp hm with ⟨i, hi⟩
        by_cases hij : i = j
        · subst hij
          rw [hj] at hi
          obtain rfl : c = cw := Option.some.inj hi
          exact KeyInT.child hmem2 ((hiff x).mpr (Or.inl hk2))
        · refine KeyInT.child (List.mem_iff_getElem?.mpr ⟨i, ?_⟩) hk2
          simp [List.getElem?_set, Ne.symm hij]
          exact hi
    · exact KeyInT.child hmem2 ((hiff x).mpr (Or.inr he))

theorem scanIdx_append_lt {k : ℚ} :
    ∀ (P l : List ℚ), (∀ x ∈ P, x < k) →
    scanIdx k (P ++ l) = P.length + scanIdx k l := by
  intro P
  induction P with
  | nil => intro l _; simp
  | cons p ps ih =>
    intro l hP
    have hp : p < k := hP p (List.mem_cons_self _ _)
    have h1 : scanIdx k ((p :: ps) ++ l)
        = if p < k then scanIdx k (ps ++ l) + 1 else 0 := rfl
    rw [h1, if_pos hp, ih l (fun x hx => hP x (List.mem_cons_of_mem p hx))]
    simp only [List.length_cons]
    omega

theorem scanIdx_take_lt {k : ℚ} {keys : List ℚ} :
    ∀ x ∈ keys.take (scanIdx k keys), x < k := by
  intro x hx
  rcases List.mem_iff_getElem?.mp hx with ⟨j, hj⟩
  have hjlt : j < scanIdx k keys := by
    by_contra hc
    rw [List.getElem?_take_eq_none (by omega)] at hj
    exact Option.noConfusion hj
  rcases scanIdx_lt_keys k keys j hjlt with ⟨y, hy1, hy2⟩
  rw [List.getElem?_take, if_pos hjlt] at hj
  rw [hj] at hy1
  obtain rfl : y = x := (Option.some.inj hy1).symm
  exact hy2

theorem scanIdx_drop_zero {k : ℚ} (keys : List ℚ) :
    scanIdx k (keys.drop (scanIdx k keys)) = 0 := by
  cases hd : keys.drop (scanIdx k keys) with
  | nil => rfl
  | cons y ys =>
    have h3 : keys[scanIdx k keys]? = some y := by
      have h4 : (keys.drop (scanIdx k keys))[0]? = some y := by rw [hd]; simp
      rw [List.getElem?_drop] at h4
      simpa using h4
    have h4 := scanIdx_stop k keys y h3
    have h5 : scanIdx k (y :: ys) = if y < k then scanIdx k ys + 1 else 0 := rfl
    rw [h5, if_neg h4]

/-- Inserting a key below the query at the scan index advances the scan by
one. -/
theorem scanIdx_insert_lt {k pk : ℚ} (keys : List ℚ) (hpk : pk < k) :
    scanIdx k (keys.insertIdx (scanIdx k keys) pk) = scanIdx k keys + 1 := by
  have hle := scanIdx_le k keys
  rw [insertIdx_split (scanIdx k keys) pk keys hle]
  rw [scanIdx_append_lt (keys.take (scanIdx k keys)) _ scanIdx_take_lt]
  have h1 : scanIdx k (pk :: keys.drop (scanIdx k keys))
      = if pk < k then scanIdx k (keys.drop (scanIdx k keys)) + 1 else 0 := rfl
  rw [h1, if_pos hpk, scanIdx_drop_zero]
  rw [List.length_take, Nat.min_eq_left hle]

/-- Inserting a key above the query at the scan index leaves the scan
index unchanged. -/
theorem scanIdx_insert_gt {k pk : ℚ} (keys : List ℚ) (hpk : k < pk) :
    scanIdx k (keys.insertIdx (scanIdx k keys) pk) = scanIdx k keys := by
  have hle := scanIdx_le k keys
  rw [insertIdx_split (scanIdx k keys) pk keys hle]
  rw [scanIdx_append_lt (keys.take (scanIdx k keys)) _ scanIdx_take_lt]
  have h1 : scanIdx k (pk :: keys.drop (scanIdx k keys)) = 0 := by
    have h2 : scanIdx k (pk :: keys.drop (scanIdx k keys))
        = if pk < k then scanIdx k (keys.drop (scanIdx k keys)) + 1 else 0 := rfl
    rw [h2, if_neg (not_lt.mpr (le_of_lt hpk))]
  rw [h1, List.length_take, Nat.min_eq_left hle]
  omega

theorem insert_existing_key_eq (keys : List ℚ) (k : ℚ) :
    insert_existing_key keys k =
      match keys[scanIdx k keys]? with
      | some x => if x = k then (some (scanIdx k keys), scanIdx k keys)
                  else (none, scanIdx k keys)
      | none => (none, scanIdx k keys) := rfl

theorem insert_existing_key_absent {keys : List ℚ} {k : ℚ} (h : k ∉ keys) :
    insert_existing_key keys k = (none, scanIdx k keys) := by
  rw [insert_existing_key_eq]
  cases hk : keys[scanIdx k keys]? with
  | none => rfl
  | some x =>
    have hxk : (x = k) = False := eq_false (fun he => h (he ▸ scanIdx_get_mem hk))
    simp only [hxk, if_false]

theorem insert_existing_key_present {keys : List ℚ} {k : ℚ}
    (hs : keys.Pairwise (· < ·)) (h : k ∈ keys) :
    insert_existing_key keys k = (some (scanIdx k keys), scanIdx k keys) := by
  rw [insert_existing_key_eq]
  simp [sorted_mem_scanIdx hs h]

/-- The chain invariant does not mention the root: replacing it is
invisible. -/
theorem chainOK_root_irrel {g : Graph} {L : List ℕ} {t : BT}
    (h : ChainOK g L) : ChainOK { g with root := t } L :=
  ⟨h.walk, h.complete, h.nodup, h.sorted, h.emax, h.kmin, h.kmax, h.links, h.headPrev⟩

theorem weightsOK_root_irrel {g : Graph} {L : List ℕ} {t : BT}
    (h : WeightsOK g L) : WeightsOK { g with root := t } L := h

theorem insertGo_eq (order fuel : ℕ) (t : BT) (g : Graph) (k : ℚ) :
    insertGo order (fuel + 1) t g k =
      (match insert_existing_key t.keys k with
      | (some mi, _) =>
        match t.elemIds[mi]? with
        | none => none
        | some eid =>
          some (t, { g with elems := modAt g.elems eid (fun e => { e with counter := e.counter + 1 }) }, eid)
      | (none, idx) =>
        if t.isLeaf then
          let r := insert_key_leaf t idx k g
          match r.2.1.set_extrema r.2.2 with
          | none => none
          | some g2 => some (r.1, g2, r.2.2)
        else
          match t.children[idx]? with
          | none => none
          | some c =>
            if c.size = maxKeys order then
              let t1 := split_child order t idx
              match t1.elemIds[idx]? with
              | none => none
              | some pe =>
                match g.elems[pe]? with
                | none => none
                | some pelem =>
                  if k > pelem.key then
                    match t1.children[idx + 1]? with
                    | none => none
                    | some c1 =>
                      match insertGo order fuel c1 g k with
                      | none => none
                      | some (c2, g2, eid) => some (t1.setChild (idx + 1) c2, g2, eid)
                  else
                    match t1.keys[idx]? with
                    | none => none
                    | some pk =>
                      if pk = k then some (t1, g, pe)
                      else
                        match t1.children[idx]? with
                        | none => none
                        | some c1 =>
                          match insertGo order fuel c1 g k with
                          | none => none
                          | some (c2, g2, eid) => some (t1.setChild idx c2, g2, eid)
            else
              match insertGo order fuel c g k with
              | none => none
              | some (c2, g2, eid) => some (t.setChild idx c2, g2, eid)) := rfl

/-- Packaging of a recursive insert step: replacing the descended child
with the returned subtree keeps validity, non-emptiness and the key-set
relation of the node. -/
theorem insert_step_package {g g2 : Graph} {lo hi : Option ℚ}
    {keys : List ℚ} {eids : List ℕ} {children : List BT} {idx : ℕ}
    {c1 c2 : BT} {k : ℚ}
    (hv : ValidT (keyOf g.elems) lo hi (.mk keys eids children false))
    (hne : NodesNE (.mk keys eids children false))
    (hc1 : children[idx]? = some c1)
    (hvc2 : ValidT (keyOf g2.elems) (boundL keys lo idx) (boundR keys hi idx) c2)
    (hnec2 : NodesNE c2)
    (hiffc2 : ∀ x : ℚ, KeyInT c2 x ↔ (KeyInT c1 x ∨ x = k))
    (hpres : ∀ i : ℕ, i < g.elems.length → keyOf g2.elems i = keyOf g.elems i) :
    ValidT (keyOf g2.elems) lo hi (.mk keys eids (children.set idx c2) false) ∧
    NodesNE (.mk keys eids (children.set idx c2) false) ∧
    (∀ x : ℚ, KeyInT (.mk keys eids (children.set idx c2) false) x ↔
      (KeyInT (.mk keys eids children false) x ∨ x = k)) :=
  ⟨validT_setChild (validT_keyOf_pres hpres hv) hvc2,
   nodesNE_setChild hne hnec2, keyInT_setChild hc1 hiffc2⟩

/-- Keys strictly after the scan index of an absent key are strictly above
it. -/
theorem scanIdx_drop_gt {k : ℚ} {keys : List ℚ}
    (hsp : keys.Pairwise (· < ·)) (hk : k ∉ keys) :
    ∀ x ∈ keys.drop (scanIdx k keys), k < x := by
  intro x hx
  rcases List.mem_iff_getElem?.mp hx with ⟨j, hj⟩
  rw [List.getElem?_drop] at hj
  cases hy : keys[scanIdx k keys]? with
  | none =>
    rw [List.getElem?_eq_none_iff] at hy
    rw [List.getElem?_eq_none (by omega)] at hj
    exact Option.noConfusion hj
  | some y =>
    have h1 : ¬ y < k := scanIdx_stop k keys y hy
    have h2 : y ≠ k := fun he => hk (he ▸ scanIdx_get_mem hy)
    have h3 : y ≤ x := sorted_get_le hsp (Nat.le_add_right _ _) hy hj
    have h4 : k < y := lt_of_le_of_ne (le_of_not_lt h1) (Ne.symm h2)
    exact lt_of_lt_of_le h4 h3

/-- Validity of a leaf after the in-place key insertion of
Node::insert_key_leaf. -/
theorem validT_insert_leaf {A B : List Element} {lo hi : Option ℚ}
    {keys : List ℚ} {eids : List ℕ} {k : ℚ} {N : ℕ}
    (hv : ValidT (keyOf A) lo hi (.mk keys eids [] true))
    (hpres : ∀ i : ℕ, i < A.length → keyOf B i = keyOf A i)
    (hN : keyOf B N = some k)
    (hb : inB lo hi k)
    (hk : k ∉ keys) :
    ValidT (keyOf B) lo hi
      (.mk (keys.insertIdx (scanIdx k keys) k)
        (eids.insertIdx (scanIdx k keys) N) [] true) := by
  have hsp : keys.Pairwise (· < ·) :=
    List.chain'_iff_pairwise.mp (by simpa [BT.keys] using validT_sorted hv)
  have hidxle : scanIdx k keys ≤ keys.length := scanIdx_le k keys
  have hel : eids.length = keys.length := by
    simpa [BT.keys, BT.elemIds] using validT_elen hv
  have hidxle2 : scanIdx k keys ≤ eids.length := by omega
  refine ValidT.mk ?_ ?_ ?_ ?_ (fun _ => rfl) (fun h => Bool.noConfusion h) ?_
  · exact List.chain'_iff_pairwise.mpr
      (pairwise_insertIdx hsp hidxle scanIdx_take_lt (scanIdx_drop_gt hsp hk))
  · intro x hx
    rcases (mem_insertIdx hidxle).mp hx with rfl | hm
    · exact hb
    · exact validT_bound hv x (by simpa [BT.keys] using hm)
  · rw [length_insertIdxP _ _ _ hidxle2, length_insertIdxP _ _ _ hidxle, hel]
  · intro i hi
    rw [length_insertIdxP _ _ _ hidxle] at hi
    rcases lt_trichotomy i (scanIdx k keys) with h1 | h1 | h1
    · have hilt : i < keys.length := by omega
      obtain ⟨eid0, he0, hk0⟩ := validT_elem hv i (by simpa [BT.keys] using hilt)
      refine ⟨eid0, ?_, ?_⟩
      · rw [getElem?_insertIdx_lt N eids hidxle2 h1]
        exact he0
      · rw [getElem?_insertIdx_lt k keys hidxle h1]
        have hkv : keys[i]? = some keys[i] := List.getElem?_eq_getElem hilt
        have hk0b : keyOf A eid0 = some keys[i] := by
          have h9 := hk0
          rw [show (BT.mk keys eids ([] : List BT) true).keys = keys from rfl] at h9
          rw [h9, hkv]
        rw [hpres eid0 (keyOf_lt_length hk0b)]
        exact hk0
    · subst h1
      refine ⟨N, getElem?_insertIdx_self N eids hidxle2, ?_⟩
      rw [getElem?_insertIdx_self k keys hidxle]
      exact hN
    · obtain ⟨j, rfl⟩ : ∃ j, i = j + 1 := ⟨i - 1, by omega⟩
      have hj1 : scanIdx k keys ≤ j := by omega
      have hjlt : j < keys.length := by omega
      obtain ⟨eid0, he0, hk0⟩ := validT_elem hv j (by simpa [BT.keys] using hjlt)
      refine ⟨eid0, ?_, ?_⟩
      · rw [getElem?_insertIdx_succ N eids hidxle2 hj1]
        exact he0
      · rw [getElem?_insertIdx_succ k keys hidxle hj1]
        have hkv : keys[j]? = some keys[j] := List.getElem?_eq_getElem hjlt
        have hk0b : keyOf A eid0 = some keys[j] := by
          have h9 := hk0
          rw [show (BT.mk keys eids ([] : List BT) true).keys = keys from rfl] at h9
          rw [h9, hkv]
        rw [hpres eid0 (keyOf_lt_length hk0b)]
        exact hk0
  · intro i c hc
    simp at hc

set_option maxHeartbeats 4000000 in
/-- Specification of the insert descent of ASAGraph::insert: on a valid,
everywhere non-empty subtree whose interval contains the key, with the
chain and weight invariants on the arena, the descent completes; the
returned subtree holds exactly the old keys plus the key, is valid over
the possibly extended arena, the chain and weight invariants are restored,
old arena entries keep their keys, the arena grows by at most the one new
element carrying the key, and the returned element id carries the key. -/
theorem insertGo_spec {order : ℕ} (h3 : 3 ≤ order) :
    ∀ (fuel : ℕ) (t : BT) (g : Graph) (k : ℚ) (L : List ℕ) (lo hi : Option ℚ),
    ValidT (keyOf g.elems) lo hi t →
    NodesNE t →
    ChainOK g L →
    WeightsOK g L →
    g.elems ≠ [] →
    inB lo hi k →
    ((∃ (i : ℕ) (e : Element), g.elems[i]? = some e ∧ e.key = k) → KeyInT t k) →
    t.msize < fuel →
    ∃ t2 g2 eid, insertGo order fuel t g k = some (t2, g2, eid) ∧
    ∃ L2, ChainOK g2 L2 ∧ WeightsOK g2 L2 ∧
      ValidT (keyOf g2.elems) lo hi t2 ∧
      NodesNE t2 ∧
      (∀ x : ℚ, KeyInT t2 x ↔ (KeyInT t x ∨ x = k)) ∧
      (∀ i : ℕ, i < g.elems.length → keyOf g2.elems i = keyOf g.elems i) ∧
      (g2.elems.length = g.elems.length ∨
        (g2.elems.length = g.elems.length + 1 ∧
          keyOf g2.elems g.elems.length = some k)) ∧
      keyOf g2.elems eid = some k ∧
      g2.root = g.root ∧ g2.dataCategory = g.dataCategory := by
  intro fuel
  induction fuel with
  | zero =>
    intro t g k L lo hi _ _ _ _ _ _ _ hf
    omega
  | succ f ih =>
    intro t g k L lo hi hv hne hcs hws hnel hb hcov hf
    cases t with
    | mk keys eids children lf =>
      have hsp : keys.Pairwise (· < ·) :=
        List.chain'_iff_pairwise.mp (by simpa [BT.keys] using validT_sorted hv)
      have hidxle : scanIdx k keys ≤ keys.length := scanIdx_le k keys
      have helen : eids.length = keys.length := by
        simpa [BT.keys, BT.elemIds] using validT_elen hv
      rw [insertGo_eq]
      simp only [BT.keys, BT.elemIds, BT.children, BT.isLeaf]
      by_cases hk : k ∈ keys
      · -- the key sits in this node: bump the element counter
        simp only [insert_existing_key_present hsp hk]
        have hscan : keys[scanIdx k keys]? = some k := sorted_mem_scanIdx hsp hk
        have hlen1 : scanIdx k keys < keys.length := by
          by_contra hc2
          rw [List.getElem?_eq_none (le_of_not_lt hc2)] at hscan
          exact Option.noConfusion hscan
        obtain ⟨eid, heid, hkeye⟩ :=
          validT_elem hv (scanIdx k keys) (by simpa [BT.keys] using hlen1)
        have heid2 : eids[scanIdx k keys]? = some eid := heid
        simp only [heid2]
        have hkeye2 : keyOf g.elems eid = some k := by
          have h9 : keyOf g.elems eid = keys[scanIdx k keys]? := hkeye
          rw [h9, hscan]
        have hshape : sameShape g.elems
            (modAt g.elems eid (fun e => { e with counter := e.counter + 1 })) :=
          sameShape_modAt _ _ _ (fun e => ⟨rfl, rfl, rfl⟩)
        refine ⟨_, _, _, rfl, L, ?_, ?_, ?_, hne, ?_, ?_, ?_, ?_, rfl, rfl⟩
        · exact chainOK_of_sameShape hshape rfl rfl rfl rfl hcs
        · exact weightsOK_of_sameShape hshape rfl rfl hws
        · show ValidT (keyOf (modAt g.elems eid
            (fun e => { e with counter := e.counter + 1 }))) lo hi _
          have hfe : keyOf (modAt g.elems eid
              (fun e => { e with counter := e.counter + 1 })) = keyOf g.elems :=
            funext fun i => (sameShape_keyOf hshape i).symm
          rw [hfe]
          exact hv
        · intro x
          constructor
          · exact Or.inl
          · intro h
            rcases h with h | he
            · exact h
            · exact KeyInT.here (he ▸ hk)
        · exact fun i _ => (sameShape_keyOf hshape i).symm
        · exact Or.inl (modAt_length _ _ _)
        · show keyOf (modAt g.elems eid
            (fun e => { e with counter := e.counter + 1 })) eid = some k
          rw [← sameShape_keyOf hshape eid]
          exact hkeye2
      · -- the key is absent from this node
        simp only [insert_existing_key_absent hk]
        cases lf with
        | true =>
          -- leaf: splice the new element into the chain
          rw [if_pos rfl]
          have hchildren : children = [] := validT_leaf hv rfl
          have hknone : ∀ (i : ℕ) (e : Element), g.elems[i]? = some e → e.key ≠ k := by
            intro i e he hek
            have h1 := hcov ⟨i, e, he, hek⟩
            cases h1 with
            | here hm => exact hk hm
            | child hm _ =>
              rw [hchildren] at hm
              cases hm
          have hknot : ∀ i ∈ L, keyD g.elems i ≠ k := by
            intro i hiL
            have hilt := (hcs.complete i).mp hiL
            obtain ⟨e, he⟩ : ∃ e, g.elems[i]? = some e :=
              ⟨_, List.getElem?_eq_getElem hilt⟩
            have h9 : keyD g.elems i = e.key := by simp [keyD, he]
            rw [h9]
            exact hknone i e he
          have hLne : L ≠ [] := by
            intro h0
            have h1 : 0 < g.elems.length := List.length_pos.mpr hnel
            have h2 := (hcs.complete 0).mpr h1
            rw [h0] at h2
            cases h2
          obtain ⟨g2, L2, hsx, hCO, hWO, hlen, hpres, hnew, hroot, hcat⟩ :=
            splice_master hcs hws hknot hLne
          simp only [insert_key_leaf_parts, BT.keys, BT.elemIds, BT.children,
            BT.isLeaf, hsx]
          refine ⟨_, _, _, rfl, L2, hCO, hWO, ?_, ?_, ?_, hpres,
            Or.inr ⟨hlen, hnew⟩, hnew, hroot, hcat⟩
          · rw [hchildren]
            refine validT_insert_leaf ?_ hpres hnew hb hk
            rw [← hchildren]
            exact hv
          · refine NodesNE.mk ?_ ?_
            · intro h0
              have h9 := length_insertIdxP (scanIdx k keys) k keys hidxle
              rw [h0] at h9
              simp at h9
            · intro cc hcc
              rw [hchildren] at hcc
              cases hcc
          · intro x
            constructor
            · intro h
              cases h with
              | here hm =>
                rcases (mem_insertIdx hidxle).mp hm with rfl | hm2
                · exact Or.inr rfl
                · exact Or.inl (KeyInT.here hm2)
              | child hm _ =>
                rw [hchildren] at hm
                cases hm
            · intro h
              rcases h with h | he
              · cases h with
                | here hm =>
                  exact KeyInT.here ((mem_insertIdx hidxle).mpr (Or.inr hm))
                | child hm _ =>
                  rw [hchildren] at hm
                  cases hm
              · exact KeyInT.here ((mem_insertIdx hidxle).mpr (Or.inl he))
        | false =>
          rw [if_neg (by simp)]
          have hint : children.length = keys.length + 1 := by
            simpa [BT.keys, BT.children] using validT_internal hv rfl
          have hidxc : scanIdx k keys < children.length := by omega
          obtain ⟨c, hcget⟩ : ∃ c, children[scanIdx k keys]? = some c :=
            ⟨_, List.getElem?_eq_getElem hidxc⟩
          simp only [hcget]
          have hvc : ValidT (keyOf g.elems) (boundL keys lo (scanIdx k keys))
              (boundR keys hi (scanIdx k keys)) c := validT_child hv _ c hcget
          have hnec : NodesNE c :=
            nodesNE_child hne c (List.mem_iff_getElem?.mpr ⟨_, hcget⟩)
          by_cases hfull : c.size = maxKeys order
          · -- full child: split it first
            rw [if_pos hfull]
            have hclen : c.keys.length = order := by
              have h9 : c.keys.length = maxKeys order := hfull
              rw [h9]
              rfl
            have hmidlt : order / 2 < c.keys.length := by
              rw [hclen]
              exact Nat.div_lt_self (by omega) (by omega)
            obtain ⟨pk0, hpk0⟩ : ∃ v, c.keys[order / 2]? = some v :=
              ⟨_, List.getElem?_eq_getElem hmidlt⟩
            have hcel : c.elemIds.length = c.keys.length := validT_elen hvc
            obtain ⟨pe0, hpe0⟩ : ∃ v, c.elemIds[order / 2]? = some v :=
              ⟨_, List.getElem?_eq_getElem (by omega)⟩
            have hsceq : split_child order (BT.mk keys eids children false)
                (scanIdx k keys)
                = BT.mk (keys.insertIdx (scanIdx k keys) pk0)
                    (eids.insertIdx (scanIdx k keys) pe0)
                    ((children.set (scanIdx k keys) (leftNode order c)).insertIdx
                      (scanIdx k keys + 1) (rightNode order c)) false :=
              split_child_eq hcget hpk0 hpe0
            simp only [hsceq, BT.keys, BT.elemIds, BT.children, BT.isLeaf]
            have hpe1 : (eids.insertIdx (scanIdx k keys) pe0)[scanIdx k keys]?
                = some pe0 := getElem?_insertIdx_self pe0 eids (by omega)
            simp only [hpe1]
            have hkpe0 : keyOf g.elems pe0 = some pk0 := by
              obtain ⟨eid', he', hk'⟩ := validT_elem hvc (order / 2) hmidlt
              have h9 : c.elemIds[order / 2]? = some eid' := he'
              rw [hpe0] at h9
              obtain rfl : pe0 = eid' := Option.some.inj h9
              have h8 : keyOf g.elems pe0 = c.keys[order / 2]? := hk'
              rw [h8, hpk0]
            obtain ⟨pelem, hpelem, hpelemk⟩ :
                ∃ e, g.elems[pe0]? = some e ∧ e.key = pk0 := by
              unfold keyOf at hkpe0
              cases hg : g.elems[pe0]? with
              | none =>
                rw [hg] at hkpe0
                simp at hkpe0
              | some e =>
                rw [hg] at hkpe0
                simp at hkpe0
                exact ⟨e, rfl, hkpe0⟩
            simp only [hpelem, hpelemk]
            -- facts about the split node
            have hvt1 : ValidT (keyOf g.elems) lo hi
                (BT.mk (keys.insertIdx (scanIdx k keys) pk0)
                  (eids.insertIdx (scanIdx k keys) pe0)
                  ((children.set (scanIdx k keys) (leftNode order c)).insertIdx
                    (scanIdx k keys + 1) (rightNode order c)) false) := by
              have h1 := validT_split_child hv hcget hpk0 hpe0
              rw [hsceq] at h1
              exact h1
            have hnet1 : NodesNE
                (BT.mk (keys.insertIdx (scanIdx k keys) pk0)
                  (eids.insertIdx (scanIdx k keys) pe0)
                  ((children.set (scanIdx k keys) (leftNode order c)).insertIdx
                    (scanIdx k keys + 1) (rightNode order c)) false) := by
              have hneall : ∀ cc ∈ children, NodesNE cc := nodesNE_child hne
              rw [← hsceq]
              exact nodesNE_split_child h3 hneall hcget hclen hidxle hpk0 hpe0
            have hifft1 : ∀ x : ℚ,
                KeyInT (BT.mk (keys.insertIdx (scanIdx k keys) pk0)
                  (eids.insertIdx (scanIdx k keys) pe0)
                  ((children.set (scanIdx k keys) (leftNode order c)).insertIdx
                    (scanIdx k keys + 1) (rightNode order c)) false) x ↔
                KeyInT (BT.mk keys eids children false) x := by
              intro x
              rw [← hsceq]
              exact keyInT_split_child (k := x) hcget hidxle hpk0 hpe0
            have hmsize1 : (BT.mk keys eids children false).msize
                = 1 + msizeList children := rfl
            by_cases hkgt : k > pk0
            · -- split, then descend into the right sibling
              rw [if_pos hkgt]
              have hch1 : ((children.set (scanIdx k keys)
                  (leftNode order c)).insertIdx (scanIdx k keys + 1)
                  (rightNode order c))[scanIdx k keys + 1]?
                  = some (rightNode order c) := by
                refine getElem?_insertIdx_self _ _ ?_
                rw [List.length_set]
                omega
              simp only [hch1]
              have hknot1 : k ∉ keys.insertIdx (scanIdx k keys) pk0 := by
                intro hm
                rcases (mem_insertIdx hidxle).mp hm with he | hm2
                · exact (ne_of_gt hkgt) he
                · exact hk hm2
              have hsi1 : scanIdx k (keys.insertIdx (scanIdx k keys) pk0)
                  = scanIdx k keys + 1 := scanIdx_insert_lt keys hkgt
              have hb1 : inB (boundL (keys.insertIdx (scanIdx k keys) pk0) lo
                  (scanIdx k keys + 1))
                  (boundR (keys.insertIdx (scanIdx k keys) pk0) hi
                  (scanIdx k keys + 1)) k := by
                have h1 := scan_child_inB hvt1 hb hknot1
                rw [hsi1] at h1
                exact h1
              have hvc1 := validT_child hvt1 (scanIdx k keys + 1) _ hch1
              have hnec1 : NodesNE (rightNode order c) :=
                nodesNE_child hnet1 _ (List.mem_iff_getElem?.mpr ⟨_, hch1⟩)
              have hcov1 : (∃ (i : ℕ) (e : Element),
                  g.elems[i]? = some e ∧ e.key = k) →
                  KeyInT (rightNode order c) k := by
                intro hex
                obtain ⟨ch, hchg, hkin⟩ :=
                  keyInT_route hvt1 ((hifft1 k).mpr (hcov hex)) hknot1
                rw [hsi1, hch1] at hchg
                obtain rfl : rightNode order c = ch := Option.some.inj hchg
                exact hkin
              have hj9 : (split_child order (BT.mk keys eids children false)
                  (scanIdx k keys)).children[scanIdx k keys + 1]?
                  = some (rightNode order c) := by
                rw [hsceq]
                exact hch1
              have hfc1 : (rightNode order c).msize < f := by
                have h1 := msize_split_child_child hcget hpk0 hpe0 hj9
                omega
              obtain ⟨c2, g2, eid, hrec, L2, hCO, hWO, hvc2, hnec2, hiffc2,
                hpres2, hdich, heidk, hroot, hcat⟩ :=
                ih (rightNode order c) g k L _ _ hvc1 hnec1 hcs hws hnel hb1
                  hcov1 hfc1
              simp only [hrec]
              obtain ⟨hV, hN2, hIff⟩ := insert_step_package hvt1 hnet1 hch1
                hvc2 hnec2 hiffc2 hpres2
              refine ⟨_, _, _, rfl, L2, hCO, hWO, hV, hN2, ?_, hpres2, hdich,
                heidk, hroot, hcat⟩
              exact fun x => (hIff x).trans (or_congr (hifft1 x) Iff.rfl)
            · -- split, then compare with the promoted key
              rw [if_neg hkgt]
              have hpk1 : (keys.insertIdx (scanIdx k keys) pk0)[scanIdx k keys]?
                  = some pk0 := getElem?_insertIdx_self pk0 keys hidxle
              simp only [hpk1]
              by_cases hpkk : pk0 = k
              · -- the key equals the promoted median: returned untouched
                rw [if_pos hpkk]
                refine ⟨_, _, _, rfl, L, hcs, hws, hvt1, hnet1, ?_,
                  fun i _ => rfl, Or.inl rfl, ?_, rfl, rfl⟩
                · intro x
                  constructor
                  · intro h
                    exact Or.inl ((hifft1 x).mp h)
                  · intro h
                    rcases h with h | he
                    · exact (hifft1 x).mpr h
                    · exact KeyInT.here ((mem_insertIdx hidxle).mpr
                        (Or.inl (he.trans hpkk.symm)))
                · rw [hkpe0, hpkk]
              · -- descend into the left half
                rw [if_neg hpkk]
                have hklt : k < pk0 :=
                  lt_of_le_of_ne (not_lt.mp hkgt) (fun he => hpkk he.symm)
                have hch1 : ((children.set (scanIdx k keys)
                    (leftNode order c)).insertIdx (scanIdx k keys + 1)
                    (rightNode order c))[scanIdx k keys]?
                    = some (leftNode order c) := by
                  rw [getElem?_insertIdx_lt _ _ (by rw [List.length_set]; omega)
                    (by omega)]
                  simp [List.getElem?_set, hidxc]
                simp only [hch1]
                have hknot1 : k ∉ keys.insertIdx (scanIdx k keys) pk0 := by
                  intro hm
                  rcases (mem_insertIdx hidxle).mp hm with he | hm2
                  · exact (ne_of_lt hklt) he
                  · exact hk hm2
                have hsi1 : scanIdx k (keys.insertIdx (scanIdx k keys) pk0)
                    = scanIdx k keys := scanIdx_insert_gt keys hklt
                have hb1 : inB (boundL (keys.insertIdx (scanIdx k keys) pk0) lo
                    (scanIdx k keys))
                    (boundR (keys.insertIdx (scanIdx k keys) pk0) hi
                    (scanIdx k keys)) k := by
                  have h1 := scan_child_inB hvt1 hb hknot1
                  rw [hsi1] at h1
                  exact h1
                have hvc1 := validT_child hvt1 (scanIdx k keys) _ hch1
                have hnec1 : NodesNE (leftNode order c) :=
                  nodesNE_child hnet1 _ (List.mem_iff_getElem?.mpr ⟨_, hch1⟩)
                have hcov1 : (∃ (i : ℕ) (e : Element),
                    g.elems[i]? = some e ∧ e.key = k) →
                    KeyInT (leftNode order c) k := by
                  intro hex
                  obtain ⟨ch, hchg, hkin⟩ :=
                    keyInT_route hvt1 ((hifft1 k).mpr (hcov hex)) hknot1
                  rw [hsi1, hch1] at hchg
                  obtain rfl : leftNode order c = ch := Option.some.inj hchg
                  exact hkin
                have hj9 : (split_child order (BT.mk keys eids children false)
                    (scanIdx k keys)).children[scanIdx k keys]?
                    = some (leftNode order c) := by
                  rw [hsceq]
                  exact hch1
                have hfc1 : (leftNode order c).msize < f := by
                  have h1 := msize_split_child_child hcget hpk0 hpe0 hj9
                  omega
                obtain ⟨c2, g2, eid, hrec, L2, hCO, hWO, hvc2, hnec2, hiffc2,
                  hpres2, hdich, heidk, hroot, hcat⟩ :=
                  ih (leftNode order c) g k L _ _ hvc1 hnec1 hcs hws hnel hb1
                    hcov1 hfc1
                simp only [hrec]
                obtain ⟨hV, hN2, hIff⟩ := insert_step_package hvt1 hnet1 hch1
                  hvc2 hnec2 hiffc2 hpres2
                refine ⟨_, _, _, rfl, L2, hCO, hWO, hV, hN2, ?_, hpres2, hdich,
                  heidk, hroot, hcat⟩
                exact fun x => (hIff x).trans (or_congr (hifft1 x) Iff.rfl)
          · -- child not full: plain descent
            rw [if_neg hfull]
            have hb1 := scan_child_inB hv hb hk
            have hcov1 : (∃ (i : ℕ) (e : Element),
                g.elems[i]? = some e ∧ e.key = k) → KeyInT c k := by
              intro hex
              obtain ⟨ch, hchg, hkin⟩ := keyInT_route hv (hcov hex) hk
              have h9 : children[scanIdx k keys]? = some ch := hchg
              rw [hcget] at h9
              obtain rfl : c = ch := Option.some.inj h9
              exact hkin
            have hfc1 : c.msize < f := by
              have h1 : c.msize < (BT.mk keys eids children false).msize :=
                msize_child_lt hcget
              omega
            obtain ⟨c2, g2, eid, hrec, L2, hCO, hWO, hvc2, hnec2, hiffc2,
              hpres2, hdich, heidk, hroot, hcat⟩ :=
              ih c g k L _ _ hvc hnec hcs hws hnel hb1 hcov1 hfc1
            simp only [hrec]
            obtain ⟨hV, hN2, hIff⟩ := insert_step_package hv hne hcget
              hvc2 hnec2 hiffc2 hpres2
            refine ⟨_, _, _, rfl, L2, hCO, hWO, hV, hN2, ?_, hpres2, hdich,
              heidk, hroot, hcat⟩
            exact fun x => hIff x

/-- The freshly created graph is well-formed with the empty enumeration. -/
theorem wfc_new (cat : DataCategory) : WFc (Graph.new cat) [] := by
  refine ⟨?_, ?_, ?_, ?_, ?_, fun _ => rfl⟩
  · refine ValidT.mk ?_ ?_ rfl ?_ (fun _ => rfl) (fun h => Bool.noConfusion h) ?_
    · simp
    · intro x hx
      simp at hx
    · intro i hi
      simp at hi
    · intro i c hc
      simp at hc
  · intro hne
    exact absurd rfl hne
  · intro i e he
    simp [Graph.new] at he
  · refine ⟨ChainFrom.nil, ?_, ?_, ?_, rfl, rfl, rfl, ?_, ?_⟩
    · intro i
      simp [Graph.new]
    · simp
    · simp
    · intro j a b hja hjb
      simp at hja
    · intro a ha
      simp at ha
  · intro j a b hja hjb
    simp at hja

set_option maxHeartbeats 1000000 in
/-- Specification of ASAGraph::insert on a well-formed graph: it completes,
preserves well-formedness, keeps every old arena key in place, adds at most
one element (which then carries the inserted key at the old length), and
returns an element id carrying the inserted key. -/
theorem insert_spec {order : ℕ} (h3 : 3 ≤ order) {g : Graph} {L : List ℕ} {k : ℚ}
    (hw : WFc g L) :
    ∃ g2 eid, g.insert order k = some (g2, eid) ∧
    ∃ L2, WFc g2 L2 ∧
      (∀ i : ℕ, i < g.elems.length → keyOf g2.elems i = keyOf g.elems i) ∧
      (g2.elems.length = g.elems.length ∨
        (g2.elems.length = g.elems.length + 1 ∧
          keyOf g2.elems g.elems.length = some k)) ∧
      keyOf g2.elems eid = some k ∧
      g2.dataCategory = g.dataCategory := by
  unfold Graph.insert
  by_cases hz : g.root.size = 0
  · -- empty graph: the first element goes straight into the root
    rw [if_pos hz]
    have hel : g.elems = [] := by
      by_contra hne2
      have h1 := hw.ne hne2
      have h2 := nodesNE_keys h1
      have h9 : g.root.keys.length = 0 := hz
      exact h2 (List.length_eq_zero.mp h9)
    have hroot := hw.emptyRoot hel
    have hG2 : g.insert_first_element k
        = ({ g with root := .mk [k] [0] [] true, elems := [Element.new k], key_min := some k, key_max := some k, element_min := some 0, element_max := some 0 }, 0) := by
      unfold Graph.insert_first_element
      rw [hel, hroot]
      rfl
    rw [hG2]
    refine ⟨_, _, rfl, [0], ?_, ?_, ?_, ?_, rfl⟩
    · refine ⟨?_, ?_, ?_, ?_, ?_, ?_⟩
      · refine ValidT.mk ?_ ?_ rfl ?_ (fun _ => rfl)
          (fun h => Bool.noConfusion h) ?_
        · simp
        · intro x hx
          simp at hx
          subst hx
          exact ⟨fun a ha => Option.noConfusion ha, fun b hb => Option.noConfusion hb⟩
        · intro i hi
          simp at hi
          subst hi
          exact ⟨0, rfl, rfl⟩
        · intro i c hc
          simp at hc
      · intro _
        refine NodesNE.mk (by simp) ?_
        intro c hc
        simp at hc
      · intro i e he
        cases i with
        | zero =>
          obtain rfl : Element.new k = e := by simpa using he
          exact KeyInT.here (by simp [Element.new])
        | succ n => simp at he
      · refine ⟨ChainFrom.cons rfl ChainFrom.nil, ?_, ?_, ?_, rfl, ?_, ?_, ?_, ?_⟩
        · intro i
          constructor
          · intro hi
            simp at hi
            simp [hi]
          · intro hi
            simp at hi
            simp [hi]
        · simp
        · simp
        · show some k = [0].head?.map (keyD [Element.new k])
          simp [keyD, Element.new]
        · show some k = [0].getLast?.map (keyD [Element.new k])
          simp [keyD, Element.new]
        · intro j a b hja hjb
          rw [List.getElem?_eq_none (by simp)] at hjb
          exact Option.noConfusion hjb
        · intro a ha
          obtain rfl : 0 = a := by simpa using ha
          rfl
      · intro j a b hja hjb
        rw [List.getElem?_eq_none (by simp)] at hjb
        exact Option.noConfusion hjb
      · intro h0
        simp at h0
    · intro i hi
      rw [hel] at hi
      simp at hi
    · refine Or.inr ⟨?_, ?_⟩
      · rw [hel]
        rfl
      · rw [hel]
        rfl
    · rfl
  · -- non-empty root: split it when full, then run the descent
    rw [if_neg hz]
    have hne2 : g.elems ≠ [] := by
      intro hel2
      apply hz
      rw [hw.emptyRoot hel2]
      rfl
    have hNE : NodesNE g.root := hw.ne hne2
    obtain ⟨g1, hg1def, hcs1, hws1, hv1, hNE1, hiff1, helems1, hcat1⟩ :
        ∃ g1, (if g.root.size = maxKeys order then g.split_root order else g) = g1 ∧
          ChainOK g1 L ∧ WeightsOK g1 L ∧
          ValidT (keyOf g.elems) none none g1.root ∧ NodesNE g1.root ∧
          (∀ x : ℚ, KeyInT g1.root x ↔ KeyInT g.root x) ∧
          g1.elems = g.elems ∧ g1.dataCategory = g.dataCategory := by
      by_cases hfull : g.root.size = maxKeys order
      · rw [if_pos hfull]
        have hvouter : ValidT (keyOf g.elems) none none (.mk [] [] [g.root] false) := by
          refine ValidT.mk ?_ ?_ rfl ?_ (fun h => Bool.noConfusion h)
            (fun _ => rfl) ?_
          · simp
          · intro x hx
            simp at hx
          · intro i hi
            simp at hi
          · intro i c hc
            cases i with
            | zero =>
              obtain rfl : g.root = c := by simpa using hc
              exact hw.valid
            | succ n => simp at hc
        have hrlen : g.root.keys.length = order := hfull
        have hmidlt : order / 2 < g.root.keys.length := by
          rw [hrlen]
          exact Nat.div_lt_self (by omega) (by omega)
        obtain ⟨pk0, hpk0⟩ : ∃ v, g.root.keys[order / 2]? = some v :=
          ⟨_, List.getElem?_eq_getElem hmidlt⟩
        have hrel : g.root.elemIds.length = g.root.keys.length :=
          validT_elen hw.valid
        obtain ⟨pe0, hpe0⟩ : ∃ v, g.root.elemIds[order / 2]? = some v :=
          ⟨_, List.getElem?_eq_getElem (by omega)⟩
        have hc0 : [g.root][0]? = some g.root := by simp
        have hneall : ∀ cc ∈ [g.root], NodesNE cc := by
          intro cc hcc
          obtain rfl : cc = g.root := by simpa using hcc
          exact hNE
        refine ⟨_, rfl, chainOK_root_irrel hw.chain, hw.weights, ?_, ?_, ?_, rfl, rfl⟩
        · exact validT_split_child hvouter hc0 hpk0 hpe0
        · exact nodesNE_split_child h3 hneall hc0 hrlen (Nat.le_refl 0) hpk0 hpe0
        · intro x
          have h1 : KeyInT (split_child order (BT.mk [] [] [g.root] false) 0) x
              ↔ KeyInT (BT.mk ([] : List ℚ) ([] : List ℕ) [g.root] false) x :=
            keyInT_split_child hc0 (Nat.le_refl 0) hpk0 hpe0
          refine h1.trans ?_
          constructor
          · intro h
            cases h with
            | here hm => simp at hm
            | child hm hk2 =>
              obtain rfl : _ = g.root := by simpa using hm
              exact hk2
          · intro h
            exact KeyInT.child (by simp) h
      · rw [if_neg hfull]
        exact ⟨g, rfl, hw.chain, hw.weights, hw.valid, hNE, fun x => Iff.rfl, rfl, rfl⟩
    simp only [hg1def]
    have hne3 : g1.elems ≠ [] := by
      rw [helems1]
      exact hne2
    obtain ⟨a, b, hex⟩ := chainOK_extreme_some hcs1 hne3
    rw [hex]
    have hv1b : ValidT (keyOf g1.elems) none none g1.root := by
      rw [helems1]
      exact hv1
    have hcov1 : (∃ (i : ℕ) (e : Element), g1.elems[i]? = some e ∧ e.key = k) →
        KeyInT g1.root k := by
      intro hex2
      obtain ⟨i, e, he, hek⟩ := hex2
      rw [helems1] at he
      have h9 := hw.cover i e he
      rw [hek] at h9
      exact (hiff1 k).mpr h9
    obtain ⟨t2, g2, eid, hrec, L2, hCO, hWO, hV, hNE2, hIff, hpres, hdich,
      heidk, hroot2, hcat2⟩ :=
      insertGo_spec h3 (g1.root.msize + 1) g1.root g1 k L none none hv1b hNE1
        hcs1 hws1 hne3
        ⟨fun a2 ha2 => Option.noConfusion ha2, fun b2 hb2 => Option.noConfusion hb2⟩
        hcov1 (Nat.lt_succ_self _)
    rw [hrec]
    refine ⟨_, _, rfl, L2, ?_, ?_, ?_, ?_, ?_⟩
    · refine ⟨hV, fun _ => hNE2, ?_, chainOK_root_irrel hCO, hWO, ?_⟩
      · intro i e he
        have hkey2 : keyOf g2.elems i = some e.key := by
          unfold keyOf
          rw [he]
          rfl
        by_cases hilt : i < g.elems.length
        · have h9 : keyOf g2.elems i = keyOf g1.elems i := by
            refine hpres i ?_
            rw [helems1]
            exact hilt
          rw [helems1] at h9
          rw [hkey2] at h9
          obtain ⟨e0, he0, hek0⟩ : ∃ e0, g.elems[i]? = some e0 ∧ e0.key = e.key := by
            unfold keyOf at h9
            cases hg : g.elems[i]? with
            | none =>
              rw [hg] at h9
              simp at h9
            | some e0 =>
              rw [hg] at h9
              simp at h9
              exact ⟨e0, rfl, h9.symm⟩
          have h8 := hw.cover i e0 he0
          rw [hek0] at h8
          exact (hIff e.key).mpr (Or.inl ((hiff1 e.key).mpr h8))
        · have hlt2 : i < g2.elems.length := by
            have := hkey2
            exact keyOf_lt_length this
          rcases hdich with hsame | ⟨hplus, hkey⟩
          · rw [hsame, helems1] at hlt2
            omega
          · rw [hplus, helems1] at hlt2
            have h9 : i = g.elems.length := by omega
            subst h9
            have h7 : keyOf g2.elems g.elems.length = some k := by
              rw [← helems1]
              exact hkey
            rw [h7] at hkey2
            have h8 : e.key = k := (Option.some.inj hkey2).symm
            rw [h8]
            exact (hIff k).mpr (Or.inr rfl)
      · intro h0
        have h9 : g2.elems.length = 0 := by
          rw [show ({ g2 with root := t2 } : Graph).elems = g2.elems from rfl] at h0
          rw [h0]
          rfl
        have h7 : 0 < g.elems.length := List.length_pos.mpr hne2
        rcases hdich with hsame | ⟨hplus, _⟩
        · rw [hsame, helems1] at h9
          omega
        · rw [hplus, helems1] at h9
          omega
    · intro i hi
      have h9 : keyOf g2.elems i = keyOf g1.elems i := by
        refine hpres i ?_
        rw [helems1]
        exact hi
      rw [helems1] at h9
      exact h9
    · rcases hdich with hsame | ⟨hplus, hkey⟩
      · left
        rw [hsame, helems1]
      · right
        rw [hplus, helems1]
        rw [helems1] at hkey
        exact ⟨rfl, hkey⟩
    · exact heidk
    · show g2.dataCategory = g.dataCategory
      rw [hcat2, hcat1]

/-- Specification of a fold of inserts: it completes on a well-formed
graph, the result is well-formed, and its arena keys are exactly the old
arena keys together with the inserted keys. -/
theorem insertList_spec {order : ℕ} (h3 : 3 ≤ order) :
    ∀ (ks : List ℚ) (g : Graph) (L : List ℕ), WFc g L →
    ∃ g2 L2, insertList order g ks = some g2 ∧ WFc g2 L2 ∧
      (∀ x : ℚ, (∃ i : ℕ, keyOf g2.elems i = some x) ↔
        ((∃ i : ℕ, keyOf g.elems i = some x) ∨ x ∈ ks)) ∧
      g2.dataCategory = g.dataCategory := by
  intro ks
  induction ks with
  | nil =>
    intro g L hw
    exact ⟨g, L, rfl, hw, fun x => by simp, rfl⟩
  | cons k ks ih =>
    intro g L hw
    obtain ⟨g1, eid, hins, L1, hw1, hpres, hdich, heidk, hcat⟩ := insert_spec h3 hw
    obtain ⟨g2, L2, hrun, hw2, hiff2, hcat2⟩ := ih g1 L1 hw1
    refine ⟨g2, L2, ?_, hw2, ?_, hcat2.trans hcat⟩
    · show (match g.insert order k with
        | none => none
        | some (g1, _) => insertList order g1 ks) = some g2
      rw [hins]
      exact hrun
    · intro x
      rw [hiff2 x]
      constructor
      · rintro (⟨i, hi⟩ | h)
        · by_cases hilt : i < g.elems.length
          · exact Or.inl ⟨i, (hpres i hilt).symm.trans hi⟩
          · rcases hdich with hsame | ⟨hplus, hkey⟩
            · have h9 := keyOf_lt_length hi
              rw [hsame] at h9
              omega
            · have h9 := keyOf_lt_length hi
              rw [hplus] at h9
              have h8 : i = g.elems.length := by omega
              subst h8
              rw [hkey] at hi
              obtain rfl : k = x := Option.some.inj hi
              exact Or.inr (List.mem_cons_self k ks)
        · exact Or.inr (List.mem_cons_of_mem k h)
      · rintro (⟨i, hi⟩ | hmem)
        · have h9 := keyOf_lt_length hi
          exact Or.inl ⟨i, (hpres i h9).trans hi⟩
        · rcases List.mem_cons.mp hmem with rfl | hmem2
          · exact Or.inl ⟨eid, heidk⟩
          · exact Or.inr hmem2

/-- The activation-increment update of Element::activate: one arena slot
gains signal on its activation, nothing else changes. -/
def actBump (A : List Element) (eid : ℕ) (signal : ℚ) : List Element :=
  modAt A eid (fun e => { e with activation := e.activation + signal })

theorem sameShape_actBump (A : List Element) (eid : ℕ) (signal : ℚ) :
    sameShape A (actBump A eid signal) :=
  sameShape_modAt _ _ _ (fun e => ⟨rfl, rfl, rfl⟩)

theorem fuzzyGoNext_eq (fuel : ℕ) (A : List Element) (cur : ℕ) (w ea : ℚ)
    (ns : List ℕ) :
    fuzzyGoNext (fuel + 1) A cur w ea ns =
      if ea > threshold then
        match (actBump A cur (ea * w))[cur]? with
        | none => (actBump A cur (ea * w), ns ++ defsAt (actBump A cur (ea * w)) cur)
        | some e =>
          match e.next with
          | none => (actBump A cur (ea * w), ns ++ defsAt (actBump A cur (ea * w)) cur)
          | some (nx, w2) =>
            fuzzyGoNext fuel (actBump A cur (ea * w)) nx w2
              (match (actBump A cur (ea * w))[nx]? with
               | some e2 => e2.activation
               | none => 0)
              (ns ++ defsAt (actBump A cur (ea * w)) cur)
      else (A, ns) := rfl

theorem fuzzyGoPrev_eq (fuel : ℕ) (A : List Element) (cur : ℕ) (w ea : ℚ)
    (ns : List ℕ) :
    fuzzyGoPrev (fuel + 1) A cur w ea ns =
      if ea > threshold then
        match (actBump A cur (ea * w))[cur]? with
        | none => (actBump A cur (ea * w), ns ++ defsAt (actBump A cur (ea * w)) cur)
        | some e =>
          match e.prev with
          | none => (actBump A cur (ea * w), ns ++ defsAt (actBump A cur (ea * w)) cur)
          | some (px, w2) =>
            fuzzyGoPrev fuel (actBump A cur (ea * w)) px w2
              (match (actBump A cur (ea * w))[px]? with
               | some e2 => e2.activation
               | none => 0)
              (ns ++ defsAt (actBump A cur (ea * w)) cur)
      else (A, ns) := rfl

theorem sameShape_fuzzyGoNext :
    ∀ (fuel : ℕ) (A : List Element) (cur : ℕ) (w ea : ℚ) (ns : List ℕ),
    sameShape A (fuzzyGoNext fuel A cur w ea ns).1 := by
  intro fuel
  induction fuel with
  | zero =>
    intro A cur w ea ns
    exact sameShape_refl A
  | succ f ih =>
    intro A cur w ea ns
    rw [fuzzyGoNext_eq]
    by_cases hth : ea > threshold
    · rw [if_pos hth]
      have hs1 := sameShape_actBump A cur (ea * w)
      cases h1 : (actBump A cur (ea * w))[cur]? with
      | none =>
        simp only [h1]
        exact hs1
      | some e =>
        simp only [h1]
        cases h2 : e.next with
        | none =>
          simp only [h2]
          exact hs1
        | some p =>
          obtain ⟨nx, w2⟩ := p
          simp only [h2]
          exact sameShape_trans hs1 (ih _ _ _ _ _)
    · rw [if_neg hth]
      exact sameShape_refl A

theorem sameShape_fuzzyGoPrev :
    ∀ (fuel : ℕ) (A : List Element) (cur : ℕ) (w ea : ℚ) (ns : List ℕ),
    sameShape A (fuzzyGoPrev fuel A cur w ea ns).1 := by
  intro fuel
  induction fuel with
  | zero =>
    intro A cur w ea ns
    exact sameShape_refl A
  | succ f ih =>
    intro A cur w ea ns
    rw [fuzzyGoPrev_eq]
    by_cases hth : ea > threshold
    · rw [if_pos hth]
      have hs1 := sameShape_actBump A cur (ea * w)
      cases h1 : (actBump A cur (ea * w))[cur]? with
      | none =>
        simp only [h1]
        exact hs1
      | some e =>
        simp only [h1]
        cases h2 : e.prev with
        | none =>
          simp only [h2]
          exact hs1
        | some p =>
          obtain ⟨px, w2⟩ := p
          simp only [h2]
          exact sameShape_trans hs1 (ih _ _ _ _ _)
    · rw [if_neg hth]
      exact sameShape_refl A

theorem fuzzy_activate_eq (A : List Element) (eid : ℕ) (signal : ℚ) :
    fuzzy_activate A eid signal =
      match (actBump A eid signal)[eid]? with
      | none => (actBump A eid signal, defsAt (actBump A eid signal) eid)
      | some e =>
        match hr :
          (match e.next with
           | some (nx, w) => fuzzyGoNext ((actBump A eid signal).length + 1)
               (actBump A eid signal) nx w e.activation
               (defsAt (actBump A eid signal) eid)
           | none => (actBump A eid signal, defsAt (actBump A eid signal) eid)) with
        | r1 =>
          match (r1.1[eid]?).bind Element.prev with
          | some (px, w) =>
            fuzzyGoPrev (r1.1.length + 1) r1.1 px w
              (match r1.1[eid]? with
               | some e2 => e2.activation
               | none => 0) r1.2
          | none => r1 := rfl

theorem sameShape_fuzzy_activate (A : List Element) (eid : ℕ) (signal : ℚ) :
    sameShape A (fuzzy_activate A eid signal).1 := by
  rw [fuzzy_activate_eq]
  have hs1 := sameShape_actBump A eid signal
  cases h1 : (actBump A eid signal)[eid]? with
  | none =>
    simp only [h1]
    exact hs1
  | some e =>
    simp only [h1]
    have hsr1 : sameShape A
        (match e.next with
         | some (nx, w) => fuzzyGoNext ((actBump A eid signal).length + 1)
             (actBump A eid signal) nx w e.activation
             (defsAt (actBump A eid signal) eid)
         | none => (actBump A eid signal, defsAt (actBump A eid signal) eid)).1 := by
      cases h2 : e.next with
      | none =>
        simp only [h2]
        exact hs1
      | some p =>
        obtain ⟨nx, w⟩ := p
        simp only [h2]
        exact sameShape_trans hs1 (sameShape_fuzzyGoNext _ _ _ _ _ _)
    cases h3 :
        ((match e.next with
          | some (nx, w) => fuzzyGoNext ((actBump A eid signal).length + 1)
              (actBump A eid signal) nx w e.activation
              (defsAt (actBump A eid signal) eid)
          | none => (actBump A eid signal,
              defsAt (actBump A eid signal) eid)).1[eid]?).bind Element.prev with
    | none =>
      simp only [h3]
      exact hsr1
    | some p =>
      obtain ⟨px, w⟩ := p
      simp only [h3]
      exact sameShape_trans hsr1 (sameShape_fuzzyGoPrev _ _ _ _ _ _)

theorem sameShape_simple_activate (A : List Element) (eid : ℕ) (signal : ℚ) :
    sameShape A (simple_activate A eid signal).1 :=
  sameShape_actBump A eid signal

theorem sameShape_elemActivate (A : List Element) (eid : ℕ) (signal : ℚ)
    (ph pv : Bool) : sameShape A (elemActivate A eid signal ph pv).1 := by
  unfold elemActivate
  cases ph with
  | true =>
    rw [if_pos rfl]
    exact sameShape_fuzzy_activate A eid signal
  | false =>
    rw [if_neg (by simp)]
    exact sameShape_simple_activate A eid signal

theorem elemDeactivate_ff (A : List Element) (i : ℕ) :
    elemDeactivate A i false false
      = modAt A i (fun e => { e with activation := 0 }) := rfl

theorem deactSensorGo_eq (fuel : ℕ) (A : List Element) (i : ℕ) :
    deactSensorGo (fuel + 1) A i =
      match (modAt A i (fun e => { e with activation := 0 }))[i]? with
      | none => modAt A i (fun e => { e with activation := 0 })
      | some e =>
        match e.next with
        | none => modAt A i (fun e => { e with activation := 0 })
        | some (nx, _) =>
          deactSensorGo fuel (modAt A i (fun e => { e with activation := 0 })) nx := rfl

/-- The deactivation walk of Sensor::deactivate_sensor along a chain:
every visited element gets activation 0, entries off the walk are
untouched. -/
theorem deactSensorGo_spec :
    ∀ (M : List ℕ) (A : List Element) (fuel i : ℕ),
    ChainFrom A (some i) M → M.length < fuel → M.Nodup →
    (∀ a : ℕ, a ∉ M → (deactSensorGo fuel A i)[a]? = A[a]?) ∧
    (∀ a ∈ M, ∃ e, A[a]? = some e ∧
      (deactSensorGo fuel A i)[a]? = some { e with activation := 0 }) := by
  intro M
  induction M with
  | nil =>
    intro A fuel i hw hf hnd
    cases hw
  | cons i0 M2 ih =>
    intro A fuel i hw hf hnd
    obtain ⟨f, rfl⟩ : ∃ f, fuel = f + 1 := ⟨fuel - 1, by omega⟩
    obtain rfl : i = i0 := by cases hw; rfl
    obtain ⟨e, he⟩ : ∃ e, A[i]? = some e := by
      cases hw with | cons he2 _ => exact ⟨_, he2⟩
    have hw2 : ChainFrom A (e.next.map Prod.fst) M2 := by
      cases hw with | cons he2 h2 =>
        have h3 : e = _ := Option.some.inj (he.symm.trans he2)
        rw [← h3] at h2
        exact h2
    have hiM2 : i ∉ M2 := (List.nodup_cons.mp hnd).1
    have hndM2 : M2.Nodup := (List.nodup_cons.mp hnd).2
    have hs1 : sameShape A (modAt A i (fun e => { e with activation := 0 })) :=
      sameShape_modAt _ _ _ (fun e => ⟨rfl, rfl, rfl⟩)
    have hA1i : (modAt A i (fun e => { e with activation := 0 }))[i]?
        = some { e with activation := 0 } := modAt_get_self A i _ e he
    rw [deactSensorGo_eq]
    simp only [hA1i]
    cases h2 : e.next with
    | none =>
      obtain rfl : M2 = [] := by
        rw [h2] at hw2
        cases hw2
        rfl
      constructor
      · intro a ha
        have hai : a ≠ i := by
          intro hh
          exact ha (hh ▸ List.mem_cons_self i [])
        exact modAt_get_ne A i a _ hai
      · intro a ha
        obtain rfl : a = i := by simpa using ha
        exact ⟨e, he, hA1i⟩
    | some p =>
      obtain ⟨nx, w2⟩ := p
      have hwA1 : ChainFrom (modAt A i (fun e => { e with activation := 0 }))
          (some nx) M2 := by
        refine sameShape_chainFrom hs1 ?_
        rw [h2] at hw2
        exact hw2
      have hlen2 : M2.length < f := by
        simp only [List.length_cons] at hf
        omega
      obtain ⟨hoff, hon⟩ := ih (modAt A i (fun e => { e with activation := 0 }))
        f nx hwA1 hlen2 hndM2
      constructor
      · intro a ha
        have hai : a ≠ i := fun hh => ha (hh ▸ List.mem_cons_self i M2)
        have haM2 : a ∉ M2 := fun hh => ha (List.mem_cons_of_mem i hh)
        rw [hoff a haM2]
        exact modAt_get_ne A i a _ hai
      · intro a ha
        rcases List.mem_cons.mp ha with rfl | haM2
        · refine ⟨e, he, ?_⟩
          rw [hoff a hiM2]
          exact hA1i
        · obtain ⟨e2, he2, hres⟩ := hon a haM2
          have hane : a ≠ i := by
            intro hh
            exact hiM2 (hh ▸ haM2)
          refine ⟨e2, ?_, hres⟩
          rw [← modAt_get_ne A i a (fun e => { e with activation := 0 }) hane]
          exact he2

/-- Round-trip core: activating any element and then deactivating the
sensor leaves every arena entry with activation 0, provided the chain
invariant holds. -/
theorem activate_deactivate_zero {g : Graph} {L : List ℕ} (hc : ChainOK g L)
    (eid : ℕ) (sig : ℚ) (ph pv : Bool) :
    ∀ (i : ℕ) (e : Element),
      (Graph.deactivate_sensor
        { g with elems := (elemActivate g.elems eid sig ph pv).1 }).elems[i]?
        = some e →
      e.activation = 0 := by
  intro i e he
  have hs : sameShape g.elems (elemActivate g.elems eid sig ph pv).1 :=
    sameShape_elemActivate g.elems eid sig ph pv
  have hc2 : ChainOK { g with elems := (elemActivate g.elems eid sig ph pv).1 } L :=
    chainOK_of_sameShape hs rfl rfl rfl rfl hc
  unfold Graph.deactivate_sensor at he
  cases hmin : ({ g with elems := (elemActivate g.elems eid sig ph pv).1 }
      : Graph).element_min with
  | none =>
    rw [hmin] at he
    obtain rfl : L = [] := by
      have hwalk := hc2.walk
      rw [hmin] at hwalk
      cases hwalk
      rfl
    have h9 : i < (elemActivate g.elems eid sig ph pv).1.length := by
      by_contra hc3
      rw [List.getElem?_eq_none (le_of_not_lt hc3)] at he
      exact Option.noConfusion he
    have h8 := (hc2.complete i).mpr h9
    cases h8
  | some h0 =>
    rw [hmin] at he
    have hwalk : ChainFrom (elemActivate g.elems eid sig ph pv).1 (some h0) L := by
      have h1 := hc2.walk
      rw [hmin] at h1
      exact h1
    have hLlen : L.length = (elemActivate g.elems eid sig ph pv).1.length :=
      chainOK_length hc2
    obtain ⟨hoff, hon⟩ := deactSensorGo_spec L
      (elemActivate g.elems eid sig ph pv).1
      ((elemActivate g.elems eid sig ph pv).1.length + 1) h0 hwalk
      (by omega) hc2.nodup
    by_cases hiL : i ∈ L
    · obtain ⟨e2, he2, hres⟩ := hon i hiL
      rw [hres] at he
      obtain rfl : { e2 with activation := 0 } = e := Option.some.inj he
      rfl
    · rw [hoff i hiL] at he
      have h9 := keyOf_lt_length (by rw [keyOf, he]; rfl :
        keyOf (elemActivate g.elems eid sig ph pv).1 i = some e.key)
      exact absurd ((hc2.complete i).mpr h9) hiL

/-- C3: for every graph built by a sequence of inserts (any order of at
least 3 and any data category), search finds, for every inserted key, an
element carrying exactly that key, and returns not-found for every key
never inserted — under whichever scan direction the distance bias picks. -/
theorem C3_search_soundness_after_inserts (order : ℕ) (h3 : 3 ≤ order)
    (cat : DataCategory) (ks : List ℚ) :
    ∃ g : Graph, insertList order (Graph.new cat) ks = some g ∧
      (∀ k ∈ ks, ∃ (eid : ℕ) (e : Element), g.search k = some (.found eid) ∧
        g.elems[eid]? = some e ∧ e.key = k) ∧
      (∀ k : ℚ, k ∉ ks → g.search k = some .notFound) := by
  obtain ⟨g, L2, hrun, hw, hiff, _⟩ :=
    insertList_spec h3 ks (Graph.new cat) [] (wfc_new cat)
  refine ⟨g, hrun, ?_, ?_⟩
  · intro k hk
    obtain ⟨i, hi⟩ : ∃ i : ℕ, keyOf g.elems i = some k := (hiff k).mpr (Or.inr hk)
    obtain ⟨e, he, hek⟩ : ∃ e, g.elems[i]? = some e ∧ e.key = k := by
      unfold keyOf at hi
      cases hg : g.elems[i]? with
      | none =>
        rw [hg] at hi
        simp at hi
      | some e =>
        rw [hg] at hi
        simp at hi
        exact ⟨e, rfl, hi⟩
    exact (Graph.search_spec hw k).1 ⟨i, e, he, hek⟩
  · intro k hk
    refine (Graph.search_spec hw k).2 ?_
    intro i e he hek
    have h1 : ∃ i : ℕ, keyOf g.elems i = some k := ⟨i, by simp [keyOf, he, hek]⟩
    rcases (hiff k).mp h1 with ⟨j, hj⟩ | hmem
    · have h2 := keyOf_lt_length hj
      simp [Graph.new] at h2
    · exact hk hmem

theorem C3_search_soundness_after_inserts_witness :
    3 ≤ 3 ∧
    (∃ g : Graph, insertList 3 (Graph.new .numerical) [1, 2] = some g ∧
      (∀ k ∈ [(1 : ℚ), 2], ∃ (eid : ℕ) (e : Element),
        g.search k = some (.found eid) ∧ g.elems[eid]? = some e ∧ e.key = k) ∧
      (∀ k : ℚ, k ∉ [(1 : ℚ), 2] → g.search k = some .notFound)) :=
  ⟨by decide, C3_search_soundness_after_inserts 3 (by decide) .numerical [1, 2]⟩

/-- C6 (amended): after every sequence of inserts, every chain-adjacent
pair (a, b) carries, on a's next link and on b's prev link, the weight
1 - |distance(a.key, b.key)| / R, where R = Graph.rangeD is the raw
extremum distance when that distance is non-zero and 1 when it is zero —
not max(distance, 1). -/
theorem C6_weight_invariant_amended (order : ℕ) (h3 : 3 ≤ order)
    (cat : DataCategory) (ks : List ℚ) :
    ∃ (g : Graph) (L : List ℕ), insertList order (Graph.new cat) ks = some g ∧
      ChainOK g L ∧
      ∀ (j a b : ℕ), L[j]? = some a → L[j + 1]? = some b →
        nextOf g.elems a
          = some (b, 1 - qabs (dist (keyD g.elems b) (keyD g.elems a)) / g.rangeD) ∧
        prevOf g.elems b
          = some (a, 1 - qabs (dist (keyD g.elems b) (keyD g.elems a)) / g.rangeD) := by
  obtain ⟨g, L2, hrun, hw, _, _⟩ :=
    insertList_spec h3 ks (Graph.new cat) [] (wfc_new cat)
  exact ⟨g, L2, hrun, hw.chain, fun j a b hja hjb => hw.weights j a b hja hjb⟩

theorem C6_weight_invariant_amended_witness :
    3 ≤ 3 ∧
    (∃ (g : Graph) (L : List ℕ),
      insertList 3 (Graph.new .numerical) [0, 1/2] = some g ∧
      ChainOK g L ∧
      ∀ (j a b : ℕ), L[j]? = some a → L[j + 1]? = some b →
        nextOf g.elems a
          = some (b, 1 - qabs (dist (keyD g.elems b) (keyD g.elems a)) / g.rangeD) ∧
        prevOf g.elems b
          = some (a, 1 - qabs (dist (keyD g.elems b) (keyD g.elems a)) / g.rangeD)) :=
  ⟨by decide, C6_weight_invariant_amended 3 (by decide) .numerical [0, 1/2]⟩

/-- C8: activating a key absent from a well-formed graph fails without
touching the graph for a categorical data category, and also for the
other categories when horizontal propagation is off; for a numerical or
ordinal category with horizontal propagation the key is first inserted
and the activation proceeds on the new element, which carries the key. -/
theorem C8_activate_missing_policy (order : ℕ) (h3 : 3 ≤ order) (g : Graph)
    (L : List ℕ) (hw : WFc g L) (k : ℚ)
    (habs : ∀ (i : ℕ) (e : Element), g.elems[i]? = some e → e.key ≠ k)
    (signal : ℚ) (pv : Bool) :
    (g.dataCategory = .categorical →
      ∀ ph : Bool, Graph.activate order g k signal ph pv = .err) ∧
    (g.dataCategory ≠ .categorical →
      Graph.activate order g k signal false pv = .err) ∧
    (g.dataCategory ≠ .categorical →
      ∃ (g1 : Graph) (eid : ℕ), g.insert order k = some (g1, eid) ∧
        keyOf g1.elems eid = some k ∧
        Graph.activate order g k signal true pv =
          .ok { g1 with elems := (elemActivate g1.elems eid signal true pv).1 }
            (elemActivate g1.elems eid signal true pv).2) := by
  have hnf : g.search k = some .notFound := (Graph.search_spec hw k).2 habs
  refine ⟨?_, ?_, ?_⟩
  · intro hcat ph
    unfold Graph.activate
    rw [hnf, hcat]
  · intro hcat
    unfold Graph.activate
    rw [hnf]
    cases hdc : g.dataCategory with
    | categorical => exact absurd hdc hcat
    | numerical => rfl
    | ordinal => rfl
  · intro hcat
    obtain ⟨g1, eid, hins, L2, hw1, _, _, heidk, _⟩ :=
      insert_spec (k := k) h3 hw
    refine ⟨g1, eid, hins, heidk, ?_⟩
    unfold Graph.activate
    rw [hnf]
    cases hdc : g.dataCategory with
    | categorical => exact absurd hdc hcat
    | numerical =>
      rw [hins]
      rfl
    | ordinal =>
      rw [hins]
      rfl

theorem C8_activate_missing_policy_witness :
    (3 ≤ 3 ∧ WFc (Graph.new .categorical) [] ∧
      (∀ (i : ℕ) (e : Element),
        (Graph.new .categorical).elems[i]? = some e → e.key ≠ 0)) ∧
    (((Graph.new .categorical).dataCategory = .categorical →
      ∀ ph : Bool, Graph.activate 3 (Graph.new .categorical) 0 1 ph false = .err) ∧
    ((Graph.new .categorical).dataCategory ≠ .categorical →
      Graph.activate 3 (Graph.new .categorical) 0 1 false false = .err) ∧
    ((Graph.new .categorical).dataCategory ≠ .categorical →
      ∃ (g1 : Graph) (eid : ℕ),
        (Graph.new .categorical).insert 3 0 = some (g1, eid) ∧
        keyOf g1.elems eid = some 0 ∧
        Graph.activate 3 (Graph.new .categorical) 0 1 true false =
          .ok { g1 with elems := (elemActivate g1.elems eid 1 true false).1 }
            (elemActivate g1.elems eid 1 true false).2)) :=
  ⟨⟨by decide, wfc_new .categorical,
      fun i e he => by simp [Graph.new] at he⟩,
    C8_activate_missing_policy 3 (by decide) (Graph.new .categorical) []
      (wfc_new .categorical) 0 (fun i e he => by simp [Graph.new] at he) 1 false⟩

/-- C9: on a graph satisfying the chain invariant, activating any element
(any signal and propagation flags) and then calling deactivate_sensor
leaves every element of the graph with activation exactly 0. -/
theorem C9_activate_then_deactivate_sensor_zeroes (g : Graph) (L : List ℕ)
    (hc : ChainOK g L) (eid : ℕ) (sig : ℚ) (ph pv : Bool) :
    ∀ (i : ℕ) (e : Element),
      (Graph.deactivate_sensor
        { g with elems := (elemActivate g.elems eid sig ph pv).1 }).elems[i]?
        = some e →
      e.activation = 0 :=
  activate_deactivate_zero hc eid sig ph pv

theorem C9_activate_then_deactivate_sensor_zeroes_witness :
    ChainOK (Graph.new .numerical) [] ∧
    (∀ (i : ℕ) (e : Element),
      (Graph.deactivate_sensor
        { Graph.new .numerical with
            elems := (elemActivate (Graph.new .numerical).elems 0 1 true true).1 }).elems[i]?
        = some e →
      e.activation = 0) :=
  ⟨(wfc_new .numerical).chain,
   C9_activate_then_deactivate_sensor_zeroes (Graph.new .numerical) []
     (wfc_new .numerical).chain 0 1 true true⟩
/-!
Concrete runs used by the claim theorems.  Each literal below is the graph
state after a prefix of an insert sequence (ORDER 3, numerical category),
and each step lemma verifies one insert transition by evaluation, so that a
whole run is the chain of its step lemmas.
-/

/-- State 1 of the counter-conservation scenario: 1, 2, 3, 4, 5 and then the duplicate 4. -/
def gA1 : Graph :=
  { dataCategory := .numerical,
    root := .mk [1] [0] [] true,
    elems := [
      { key := 1, counter := 1, activation := 0, next := none, prev := none, defs := [] }],
    element_min := (some 0), element_max := (some 0), key_min := (some 1), key_max := (some 1) }

set_option maxHeartbeats 2000000 in
/-- Insert step 1 of the counter-conservation scenario: 1, 2, 3, 4, 5 and then the duplicate 4, checked by evaluation. -/
theorem stepA1 : (Graph.new .numerical).insert 3 (1) = some (gA1, 0) := by
  norm_num [gA1, insertList, Graph.insert, Graph.new, BT.newLeaf, BT.size, BT.keys,
    Graph.insert_first_element, Graph.split_root, maxKeys, Graph.extreme_keys,
    insertGo, insert_existing_key, scanIdx, BT.isLeaf, BT.elemIds, BT.children,
    insert_key_leaf, chainNeighbours, set_connections, modAt, Element.new,
    Graph.rangeD, Graph.range, dist, qabs, wf, Graph.set_extrema,
    Graph.update_elements_weights, update_weights_go, BT.msize, msizeList,
    BT.setChild, split_child, keyAt, threshold, defsAt, srIdx, search_left,
    search_right, Graph.search, Graph.sensor_search, Graph.activate,
    countAggGo, Graph.count_elements_agg, countUniqueGo, Graph.count_elements_unique,
    elemActivate, fuzzy_activate, fuzzyGoNext, fuzzyGoPrev, simple_activate,
    deactGoNext, deactGoPrev, deactivate_neighbours, elemDeactivate,
    deactSensorGo, Graph.deactivate_sensor]

/-- State 2 of the counter-conservation scenario: 1, 2, 3, 4, 5 and then the duplicate 4. -/
def gA2 : Graph :=
  { dataCategory := .numerical,
    root := .mk [1, 2] [0, 1] [] true,
    elems := [
      { key := 1, counter := 1, activation := 0, next := (some (1, 0)), prev := none, defs := [] },
      { key := 2, counter := 1, activation := 0, next := none, prev := (some (0, 0)), defs := [] }],
    element_min := (some 0), element_max := (some 1), key_min := (some 1), key_max := (some 2) }

set_option maxHeartbeats 2000000 in
/-- Insert step 2 of the counter-conservation scenario: 1, 2, 3, 4, 5 and then the duplicate 4, checked by evaluation. -/
theorem stepA2 : gA1.insert 3 (2) = some (gA2, 1) := by
  norm_num [gA2, gA1, insertList, Graph.insert, Graph.new, BT.newLeaf, BT.size, BT.keys,
    Graph.insert_first_element, Graph.split_root, maxKeys, Graph.extreme_keys,
    insertGo, insert_existing_key, scanIdx, BT.isLeaf, BT.elemIds, BT.children,
    insert_key_leaf, chainNeighbours, set_connections, modAt, Element.new,
    Graph.rangeD, Graph.range, dist, qabs, wf, Graph.set_extrema,
    Graph.update_elements_weights, update_weights_go, BT.msize, msizeList,
    BT.setChild, split_child, keyAt, threshold, defsAt, srIdx, search_left,
    search_right, Graph.search, Graph.sensor_search, Graph.activate,
    countAggGo, Graph.count_elements_agg, countUniqueGo, Graph.count_elements_unique,
    elemActivate, fuzzy_activate, fuzzyGoNext, fuzzyGoPrev, simple_activate,
    deactGoNext, deactGoPrev, deactivate_neighbours, elemDeactivate,
    deactSensorGo, Graph.deactivate_sensor]

/-- State 3 of the counter-conservation scenario: 1, 2, 3, 4, 5 and then the duplicate 4. -/
def gA3 : Graph :=
  { dataCategory := .numerical,
    root := .mk [1, 2, 3] [0, 1, 2] [] true,
    elems := [
      { key := 1, counter := 1, activation := 0, next := (some (1, (1/2 : ℚ))), prev := none, defs := [] },
      { key := 2, counter := 1, activation := 0, next := (some (2, (1/2 : ℚ))), prev := (some (0, (1/2 : ℚ))), defs := [] },
      { key := 3, counter := 1, activation := 0, next := none, prev := (some (1, (1/2 : ℚ))), defs := [] }],
    element_min := (some 0), element_max := (some 2), key_min := (some 1), key_max := (some 3) }

set_option maxHeartbeats 2000000 in
/-- Insert step 3 of the counter-conservation scenario: 1, 2, 3, 4, 5 and then the duplicate 4, checked by evaluation. -/
theorem stepA3 : gA2.insert 3 (3) = some (gA3, 2) := by
  norm_num [gA3, gA2, insertList, Graph.insert, Graph.new, BT.newLeaf, BT.size, BT.keys,
    Graph.insert_first_element, Graph.split_root, maxKeys, Graph.extreme_keys,
    insertGo, insert_existing_key, scanIdx, BT.isLeaf, BT.elemIds, BT.children,
    insert_key_leaf, chainNeighbours, set_connections, modAt, Element.new,
    Graph.rangeD, Graph.range, dist, qabs, wf, Graph.set_extrema,
    Graph.update_elements_weights, update_weights_go, BT.msize, msizeList,
    BT.setChild, split_child, keyAt, threshold, defsAt, srIdx, search_left,
    search_right, Graph.search, Graph.sensor_search, Graph.activate,
    countAggGo, Graph.count_elements_agg, countUniqueGo, Graph.count_elements_unique,
    elemActivate, fuzzy_activate, fuzzyGoNext, fuzzyGoPrev, simple_activate,
    deactGoNext, deactGoPrev, deactivate_neighbours, elemDeactivate,
    deactSensorGo, Graph.deactivate_sensor]

/-- State 4 of the counter-conservation scenario: 1, 2, 3, 4, 5 and then the duplicate 4. -/
def gA4 : Graph :=
  { dataCategory := .numerical,
    root := .mk [2] [1] [.mk [1] [0] [] true, .mk [3, 4] [2, 3] [] true] false,
    elems := [
      { key := 1, counter := 1, activation := 0, next := (some (1, (2/3 : ℚ))), prev := none, defs := [] },
      { key := 2, counter := 1, activation := 0, next := (some (2, (2/3 : ℚ))), prev := (some (0, (2/3 : ℚ))), defs := [] },
      { key := 3, counter := 1, activation := 0, next := (some (3, (2/3 : ℚ))), prev := (some (1, (2/3 : ℚ))), defs := [] },
      { key := 4, counter := 1, activation := 0, next := none, prev := (some (2, (2/3 : ℚ))), defs := [] }],
    element_min := (some 0), element_max := (some 3), key_min := (some 1), key_max := (some 4) }

set_option maxHeartbeats 2000000 in
/-- Insert step 4 of the counter-conservation scenario: 1, 2, 3, 4, 5 and then the duplicate 4, checked by evaluation. -/
theorem stepA4 : gA3.insert 3 (4) = some (gA4, 3) := by
  norm_num [gA4, gA3, insertList, Graph.insert, Graph.new, BT.newLeaf, BT.size, BT.keys,
    Graph.insert_first_element, Graph.split_root, maxKeys, Graph.extreme_keys,
    insertGo, insert_existing_key, scanIdx, BT.isLeaf, BT.elemIds, BT.children,
    insert_key_leaf, chainNeighbours, set_connections, modAt, Element.new,
    Graph.rangeD, Graph.range, dist, qabs, wf, Graph.set_extrema,
    Graph.update_elements_weights, update_weights_go, BT.msize, msizeList,
    BT.setChild, split_child, keyAt, threshold, defsAt, srIdx, search_left,
    search_right, Graph.search, Graph.sensor_search, Graph.activate,
    countAggGo, Graph.count_elements_agg, countUniqueGo, Graph.count_elements_unique,
    elemActivate, fuzzy_activate, fuzzyGoNext, fuzzyGoPrev, simple_activate,
    deactGoNext, deactGoPrev, deactivate_neighbours, elemDeactivate,
    deactSensorGo, Graph.deactivate_sensor]

/-- State 5 of the counter-conservation scenario: 1, 2, 3, 4, 5 and then the duplicate 4. -/
def gA5 : Graph :=
  { dataCategory := .numerical,
    root := .mk [2] [1] [.mk [1] [0] [] true, .mk [3, 4, 5] [2, 3, 4] [] true] false,
    elems := [
      { key := 1, counter := 1, activation := 0, next := (some (1, (3/4 : ℚ))), prev := none, defs := [] },
      { key := 2, counter := 1, activation := 0, next := (some (2, (3/4 : ℚ))), prev := (some (0, (3/4 : ℚ))), defs := [] },
      { key := 3, counter := 1, activation := 0, next := (some (3, (3/4 : ℚ))), prev := (some (1, (3/4 : ℚ))), defs := [] },
      { key := 4, counter := 1, activation := 0, next := (some (4, (3/4 : ℚ))), prev := (some (2, (3/4 : ℚ))), defs := [] },
      { key := 5, counter := 1, activation := 0, next := none, prev := (some (3, (3/4 : ℚ))), defs := [] }],
    element_min := (some 0), element_max := (some 4), key_min := (some 1), key_max := (some 5) }

set_option maxHeartbeats 2000000 in
/-- Insert step 5 of the counter-conservation scenario: 1, 2, 3, 4, 5 and then the duplicate 4, checked by evaluation. -/
theorem stepA5 : gA4.insert 3 (5) = some (gA5, 4) := by
  norm_num [gA5, gA4, insertList, Graph.insert, Graph.new, BT.newLeaf, BT.size, BT.keys,
    Graph.insert_first_element, Graph.split_root, maxKeys, Graph.extreme_keys,
    insertGo, insert_existing_key, scanIdx, BT.isLeaf, BT.elemIds, BT.children,
    insert_key_leaf, chainNeighbours, set_connections, modAt, Element.new,
    Graph.rangeD, Graph.range, dist, qabs, wf, Graph.set_extrema,
    Graph.update_elements_weights, update_weights_go, BT.msize, msizeList,
    BT.setChild, split_child, keyAt, threshold, defsAt, srIdx, search_left,
    search_right, Graph.search, Graph.sensor_search, Graph.activate,
    countAggGo, Graph.count_elements_agg, countUniqueGo, Graph.count_elements_unique,
    elemActivate, fuzzy_activate, fuzzyGoNext, fuzzyGoPrev, simple_activate,
    deactGoNext, deactGoPrev, deactivate_neighbours, elemDeactivate,
    deactSensorGo, Graph.deactivate_sensor]

/-- State 6 of the counter-conservation scenario: 1, 2, 3, 4, 5 and then the duplicate 4. -/
def gA6 : Graph :=
  { dataCategory := .numerical,
    root := .mk [2, 4] [1, 3] [.mk [1] [0] [] true, .mk [3] [2] [] true, .mk [5] [4] [] true] false,
    elems := [
      { key := 1, counter := 1, activation := 0, next := (some (1, (3/4 : ℚ))), prev := none, defs := [] },
      { key := 2, counter := 1, activation := 0, next := (some (2, (3/4 : ℚ))), prev := (some (0, (3/4 : ℚ))), defs := [] },
      { key := 3, counter := 1, activation := 0, next := (some (3, (3/4 : ℚ))), prev := (some (1, (3/4 : ℚ))), defs := [] },
      { key := 4, counter := 1, activation := 0, next := (some (4, (3/4 : ℚ))), prev := (some (2, (3/4 : ℚ))), defs := [] },
      { key := 5, counter := 1, activation := 0, next := none, prev := (some (3, (3/4 : ℚ))), defs := [] }],
    element_min := (some 0), element_max := (some 4), key_min := (some 1), key_max := (some 5) }

set_option maxHeartbeats 2000000 in
/-- Insert step 6 of the counter-conservation scenario: 1, 2, 3, 4, 5 and then the duplicate 4, checked by evaluation. -/
theorem stepA6 : gA5.insert 3 (4) = some (gA6, 3) := by
  norm_num [gA6, gA5, insertList, Graph.insert, Graph.new, BT.newLeaf, BT.size, BT.keys,
    Graph.insert_first_element, Graph.split_root, maxKeys, Graph.extreme_keys,
    insertGo, insert_existing_key, scanIdx, BT.isLeaf, BT.elemIds, BT.children,
    insert_key_leaf, chainNeighbours, set_connections, modAt, Element.new,
    Graph.rangeD, Graph.range, dist, qabs, wf, Graph.set_extrema,
    Graph.update_elements_weights, update_weights_go, BT.msize, msizeList,
    BT.setChild, split_child, keyAt, threshold, defsAt, srIdx, search_left,
    search_right, Graph.search, Graph.sensor_search, Graph.activate,
    countAggGo, Graph.count_elements_agg, countUniqueGo, Graph.count_elements_unique,
    elemActivate, fuzzy_activate, fuzzyGoNext, fuzzyGoPrev, simple_activate,
    deactGoNext, deactGoPrev, deactivate_neighbours, elemDeactivate,
    deactSensorGo, Graph.deactivate_sensor]

/-- State 1 of the fractional-range scenario: 0 then 1/2. -/
def gB1 : Graph :=
  { dataCategory := .numerical,
    root := .mk [0] [0] [] true,
    elems := [
      { key := 0, counter := 1, activation := 0, next := none, prev := none, defs := [] }],
    element_min := (some 0), element_max := (some 0), key_min := (some 0), key_max := (some 0) }

set_option maxHeartbeats 2000000 in
/-- Insert step 1 of the fractional-range scenario: 0 then 1/2, checked by evaluation. -/
theorem stepB1 : (Graph.new .numerical).insert 3 (0) = some (gB1, 0) := by
  norm_num [gB1, insertList, Graph.insert, Graph.new, BT.newLeaf, BT.size, BT.keys,
    Graph.insert_first_element, Graph.split_root, maxKeys, Graph.extreme_keys,
    insertGo, insert_existing_key, scanIdx, BT.isLeaf, BT.elemIds, BT.children,
    insert_key_leaf, chainNeighbours, set_connections, modAt, Element.new,
    Graph.rangeD, Graph.range, dist, qabs, wf, Graph.set_extrema,
    Graph.update_elements_weights, update_weights_go, BT.msize, msizeList,
    BT.setChild, split_child, keyAt, threshold, defsAt, srIdx, search_left,
    search_right, Graph.search, Graph.sensor_search, Graph.activate,
    countAggGo, Graph.count_elements_agg, countUniqueGo, Graph.count_elements_unique,
    elemActivate, fuzzy_activate, fuzzyGoNext, fuzzyGoPrev, simple_activate,
    deactGoNext, deactGoPrev, deactivate_neighbours, elemDeactivate,
    deactSensorGo, Graph.deactivate_sensor]

/-- State 2 of the fractional-range scenario: 0 then 1/2. -/
def gB2 : Graph :=
  { dataCategory := .numerical,
    root := .mk [0, (1/2 : ℚ)] [0, 1] [] true,
    elems := [
      { key := 0, counter := 1, activation := 0, next := (some (1, 0)), prev := none, defs := [] },
      { key := (1/2 : ℚ), counter := 1, activation := 0, next := none, prev := (some (0, 0)), defs := [] }],
    element_min := (some 0), element_max := (some 1), key_min := (some 0), key_max := (some (1/2 : ℚ)) }

set_option maxHeartbeats 2000000 in
/-- Insert step 2 of the fractional-range scenario: 0 then 1/2, checked by evaluation. -/
theorem stepB2 : gB1.insert 3 (1/2) = some (gB2, 1) := by
  norm_num [gB2, gB1, insertList, Graph.insert, Graph.new, BT.newLeaf, BT.size, BT.keys,
    Graph.insert_first_element, Graph.split_root, maxKeys, Graph.extreme_keys,
    insertGo, insert_existing_key, scanIdx, BT.isLeaf, BT.elemIds, BT.children,
    insert_key_leaf, chainNeighbours, set_connections, modAt, Element.new,
    Graph.rangeD, Graph.range, dist, qabs, wf, Graph.set_extrema,
    Graph.update_elements_weights, update_weights_go, BT.msize, msizeList,
    BT.setChild, split_child, keyAt, threshold, defsAt, srIdx, search_left,
    search_right, Graph.search, Graph.sensor_search, Graph.activate,
    countAggGo, Graph.count_elements_agg, countUniqueGo, Graph.count_elements_unique,
    elemActivate, fuzzy_activate, fuzzyGoNext, fuzzyGoPrev, simple_activate,
    deactGoNext, deactGoPrev, deactivate_neighbours, elemDeactivate,
    deactSensorGo, Graph.deactivate_sensor]

/-- State 1 of the fuzzy-activation scenario: 9 down to 1. -/
def gC1 : Graph :=
  { dataCategory := .numerical,
    root := .mk [9] [0] [] true,
    elems := [
      { key := 9, counter := 1, activation := 0, next := none, prev := none, defs := [] }],
    element_min := (some 0), element_max := (some 0), key_min := (some 9), key_max := (some 9) }

set_option maxHeartbeats 2000000 in
/-- Insert step 1 of the fuzzy-activation scenario: 9 down to 1, checked by evaluation. -/
theorem stepC1 : (Graph.new .numerical).insert 3 (9) = some (gC1, 0) := by
  norm_num [gC1, insertList, Graph.insert, Graph.new, BT.newLeaf, BT.size, BT.keys,
    Graph.insert_first_element, Graph.split_root, maxKeys, Graph.extreme_keys,
    insertGo, insert_existing_key, scanIdx, BT.isLeaf, BT.elemIds, BT.children,
    insert_key_leaf, chainNeighbours, set_connections, modAt, Element.new,
    Graph.rangeD, Graph.range, dist, qabs, wf, Graph.set_extrema,
    Graph.update_elements_weights, update_weights_go, BT.msize, msizeList,
    BT.setChild, split_child, keyAt, threshold, defsAt, srIdx, search_left,
    search_right, Graph.search, Graph.sensor_search, Graph.activate,
    countAggGo, Graph.count_elements_agg, countUniqueGo, Graph.count_elements_unique,
    elemActivate, fuzzy_activate, fuzzyGoNext, fuzzyGoPrev, simple_activate,
    deactGoNext, deactGoPrev, deactivate_neighbours, elemDeactivate,
    deactSensorGo, Graph.deactivate_sensor]

/-- State 2 of the fuzzy-activation scenario: 9 down to 1. -/
def gC2 : Graph :=
  { dataCategory := .numerical,
    root := .mk [8, 9] [1, 0] [] true,
    elems := [
      { key := 9, counter := 1, activation := 0, next := none, prev := (some (1, 0)), defs := [] },
      { key := 8, counter := 1, activation := 0, next := (some (0, 0)), prev := none, defs := [] }],
    element_min := (some 1), element_max := (some 0), key_min := (some 8), key_max := (some 9) }

set_option maxHeartbeats 2000000 in
/-- Insert step 2 of the fuzzy-activation scenario: 9 down to 1, checked by evaluation. -/
theorem stepC2 : gC1.insert 3 (8) = some (gC2, 1) := by
  norm_num [gC2, gC1, insertList, Graph.insert, Graph.new, BT.newLeaf, BT.size, BT.keys,
    Graph.insert_first_element, Graph.split_root, maxKeys, Graph.extreme_keys,
    insertGo, insert_existing_key, scanIdx, BT.isLeaf, BT.elemIds, BT.children,
    insert_key_leaf, chainNeighbours, set_connections, modAt, Element.new,
    Graph.rangeD, Graph.range, dist, qabs, wf, Graph.set_extrema,
    Graph.update_elements_weights, update_weights_go, BT.msize, msizeList,
    BT.setChild, split_child, keyAt, threshold, defsAt, srIdx, search_left,
    search_right, Graph.search, Graph.sensor_search, Graph.activate,
    countAggGo, Graph.count_elements_agg, countUniqueGo, Graph.count_elements_unique,
    elemActivate, fuzzy_activate, fuzzyGoNext, fuzzyGoPrev, simple_activate,
    deactGoNext, deactGoPrev, deactivate_neighbours, elemDeactivate,
    deactSensorGo, Graph.deactivate_sensor]

/-- State 3 of the fuzzy-activation scenario: 9 down to 1. -/
def gC3 : Graph :=
  { dataCategory := .numerical,
    root := .mk [7, 8, 9] [2, 1, 0] [] true,
    elems := [
      { key := 9, counter := 1, activation := 0, next := none, prev := (some (1, (1/2 : ℚ))), defs := [] },
      { key := 8, counter := 1, activation := 0, next := (some (0, (1/2 : ℚ))), prev := (some (2, (1/2 : ℚ))), defs := [] },
      { key := 7, counter := 1, activation := 0, next := (some (1, (1/2 : ℚ))), prev := none, defs := [] }],
    element_min := (some 2), element_max := (some 0), key_min := (some 7), key_max := (some 9) }

set_option maxHeartbeats 2000000 in
/-- Insert step 3 of the fuzzy-activation scenario: 9 down to 1, checked by evaluation. -/
theorem stepC3 : gC2.insert 3 (7) = some (gC3, 2) := by
  norm_num [gC3, gC2, insertList, Graph.insert, Graph.new, BT.newLeaf, BT.size, BT.keys,
    Graph.insert_first_element, Graph.split_root, maxKeys, Graph.extreme_keys,
    insertGo, insert_existing_key, scanIdx, BT.isLeaf, BT.elemIds, BT.children,
    insert_key_leaf, chainNeighbours, set_connections, modAt, Element.new,
    Graph.rangeD, Graph.range, dist, qabs, wf, Graph.set_extrema,
    Graph.update_elements_weights, update_weights_go, BT.msize, msizeList,
    BT.setChild, split_child, keyAt, threshold, defsAt, srIdx, search_left,
    search_right, Graph.search, Graph.sensor_search, Graph.activate,
    countAggGo, Graph.count_elements_agg, countUniqueGo, Graph.count_elements_unique,
    elemActivate, fuzzy_activate, fuzzyGoNext, fuzzyGoPrev, simple_activate,
    deactGoNext, deactGoPrev, deactivate_neighbours, elemDeactivate,
    deactSensorGo, Graph.deactivate_sensor]

/-- State 4 of the fuzzy-activation scenario: 9 down to 1. -/
def gC4 : Graph :=
  { dataCategory := .numerical,
    root := .mk [8] [1] [.mk [6, 7] [3, 2] [] true, .mk [9] [0] [] true] false,
    elems := [
      { key := 9, counter := 1, activation := 0, next := none, prev := (some (1, (2/3 : ℚ))), defs := [] },
      { key := 8, counter := 1, activation := 0, next := (some (0, (2/3 : ℚ))), prev := (some (2, (2/3 : ℚ))), defs := [] },
      { key := 7, counter := 1, activation := 0, next := (some (1, (2/3 : ℚ))), prev := (some (3, (2/3 : ℚ))), defs := [] },
      { key := 6, counter := 1, activation := 0, next := (some (2, (2/3 : ℚ))), prev := none, defs := [] }],
    element_min := (some 3), element_max := (some 0), key_min := (some 6), key_max := (some 9) }

set_option maxHeartbeats 2000000 in
/-- Insert step 4 of the fuzzy-activation scenario: 9 down to 1, checked by evaluation. -/
theorem stepC4 : gC3.insert 3 (6) = some (gC4, 3) := by
  norm_num [gC4, gC3, insertList, Graph.insert, Graph.new, BT.newLeaf, BT.size, BT.keys,
    Graph.insert_first_element, Graph.split_root, maxKeys, Graph.extreme_keys,
    insertGo, insert_existing_key, scanIdx, BT.isLeaf, BT.elemIds, BT.children,
    insert_key_leaf, chainNeighbours, set_connections, modAt, Element.new,
    Graph.rangeD, Graph.range, dist, qabs, wf, Graph.set_extrema,
    Graph.update_elements_weights, update_weights_go, BT.msize, msizeList,
    BT.setChild, split_child, keyAt, threshold, defsAt, srIdx, search_left,
    search_right, Graph.search, Graph.sensor_search, Graph.activate,
    countAggGo, Graph.count_elements_agg, countUniqueGo, Graph.count_elements_unique,
    elemActivate, fuzzy_activate, fuzzyGoNext, fuzzyGoPrev, simple_activate,
    deactGoNext, deactGoPrev, deactivate_neighbours, elemDeactivate,
    deactSensorGo, Graph.deactivate_sensor]

/-- State 5 of the fuzzy-activation scenario: 9 down to 1. -/
def gC5 : Graph :=
  { dataCategory := .numerical,
    root := .mk [8] [1] [.mk [5, 6, 7] [4, 3, 2] [] true, .mk [9] [0] [] true] false,
    elems := [
      { key := 9, counter := 1, activation := 0, next := none, prev := (some (1, (3/4 : ℚ))), defs := [] },
      { key := 8, counter := 1, activation := 0, next := (some (0, (3/4 : ℚ))), prev := (some (2, (3/4 : ℚ))), defs := [] },
      { key := 7, counter := 1, activation := 0, next := (some (1, (3/4 : ℚ))), prev := (some (3, (3/4 : ℚ))), defs := [] },
      { key := 6, counter := 1, activation := 0, next := (some (2, (3/4 : ℚ))), prev := (some (4, (3/4 : ℚ))), defs := [] },
      { key := 5, counter := 1, activation := 0, next := (some (3, (3/4 : ℚ))), prev := none, defs := [] }],
    element_min := (some 4), element_max := (some 0), key_min := (some 5), key_max := (some 9) }

set_option maxHeartbeats 2000000 in
/-- Insert step 5 of the fuzzy-activation scenario: 9 down to 1, checked by evaluation. -/
theorem stepC5 : gC4.insert 3 (5) = some (gC5, 4) := by
  norm_num [gC5, gC4, insertList, Graph.insert, Graph.new, BT.newLeaf, BT.size, BT.keys,
    Graph.insert_first_element, Graph.split_root, maxKeys, Graph.extreme_keys,
    insertGo, insert_existing_key, scanIdx, BT.isLeaf, BT.elemIds, BT.children,
    insert_key_leaf, chainNeighbours, set_connections, modAt, Element.new,
    Graph.rangeD, Graph.range, dist, qabs, wf, Graph.set_extrema,
    Graph.update_elements_weights, update_weights_go, BT.msize, msizeList,
    BT.setChild, split_child, keyAt, threshold, defsAt, srIdx, search_left,
    search_right, Graph.search, Graph.sensor_search, Graph.activate,
    countAggGo, Graph.count_elements_agg, countUniqueGo, Graph.count_elements_unique,
    elemActivate, fuzzy_activate, fuzzyGoNext, fuzzyGoPrev, simple_activate,
    deactGoNext, deactGoPrev, deactivate_neighbours, elemDeactivate,
    deactSensorGo, Graph.deactivate_sensor]

/-- State 6 of the fuzzy-activation scenario: 9 down to 1. -/
def gC6 : Graph :=
  { dataCategory := .numerical,
    root := .mk [6, 8] [3, 1] [.mk [4, 5] [5, 4] [] true, .mk [7] [2] [] true, .mk [9] [0] [] true] false,
    elems := [
      { key := 9, counter := 1, activation := 0, next := none, prev := (some (1, (4/5 : ℚ))), defs := [] },
      { key := 8, counter := 1, activation := 0, next := (some (0, (4/5 : ℚ))), prev := (some (2, (4/5 : ℚ))), defs := [] },
      { key := 7, counter := 1, activation := 0, next := (some (1, (4/5 : ℚ))), prev := (some (3, (4/5 : ℚ))), defs := [] },
      { key := 6, counter := 1, activation := 0, next := (some (2, (4/5 : ℚ))), prev := (some (4, (4/5 : ℚ))), defs := [] },
      { key := 5, counter := 1, activation := 0, next := (some (3, (4/5 : ℚ))), prev := (some (5, (4/5 : ℚ))), defs := [] },
      { key := 4, counter := 1, activation := 0, next := (some (4, (4/5 : ℚ))), prev := none, defs := [] }],
    element_min := (some 5), element_max := (some 0), key_min := (some 4), key_max := (some 9) }

set_option maxHeartbeats 2000000 in
/-- Insert step 6 of the fuzzy-activation scenario: 9 down to 1, checked by evaluation. -/
theorem stepC6 : gC5.insert 3 (4) = some (gC6, 5) := by
  norm_num [gC6, gC5, insertList, Graph.insert, Graph.new, BT.newLeaf, BT.size, BT.keys,
    Graph.insert_first_element, Graph.split_root, maxKeys, Graph.extreme_keys,
    insertGo, insert_existing_key, scanIdx, BT.isLeaf, BT.elemIds, BT.children,
    insert_key_leaf, chainNeighbours, set_connections, modAt, Element.new,
    Graph.rangeD, Graph.range, dist, qabs, wf, Graph.set_extrema,
    Graph.update_elements_weights, update_weights_go, BT.msize, msizeList,
    BT.setChild, split_child, keyAt, threshold, defsAt, srIdx, search_left,
    search_right, Graph.search, Graph.sensor_search, Graph.activate,
    countAggGo, Graph.count_elements_agg, countUniqueGo, Graph.count_elements_unique,
    elemActivate, fuzzy_activate, fuzzyGoNext, fuzzyGoPrev, simple_activate,
    deactGoNext, deactGoPrev, deactivate_neighbours, elemDeactivate,
    deactSensorGo, Graph.deactivate_sensor]

/-- State 7 of the fuzzy-activation scenario: 9 down to 1. -/
def gC7 : Graph :=
  { dataCategory := .numerical,
    root := .mk [6, 8] [3, 1] [.mk [3, 4, 5] [6, 5, 4] [] true, .mk [7] [2] [] true, .mk [9] [0] [] true] false,
    elems := [
      { key := 9, counter := 1, activation := 0, next := none, prev := (some (1, (5/6 : ℚ))), defs := [] },
      { key := 8, counter := 1, activation := 0, next := (some (0, (5/6 : ℚ))), prev := (some (2, (5/6 : ℚ))), defs := [] },
      { key := 7, counter := 1, activation := 0, next := (some (1, (5/6 : ℚ))), prev := (some (3, (5/6 : ℚ))), defs := [] },
      { key := 6, counter := 1, activation := 0, next := (some (2, (5/6 : ℚ))), prev := (some (4, (5/6 : ℚ))), defs := [] },
      { key := 5, counter := 1, activation := 0, next := (some (3, (5/6 : ℚ))), prev := (some (5, (5/6 : ℚ))), defs := [] },
      { key := 4, counter := 1, activation := 0, next := (some (4, (5/6 : ℚ))), prev := (some (6, (5/6 : ℚ))), defs := [] },
      { key := 3, counter := 1, activation := 0, next := (some (5, (5/6 : ℚ))), prev := none, defs := [] }],
    element_min := (some 6), element_max := (some 0), key_min := (some 3), key_max := (some 9) }

set_option maxHeartbeats 2000000 in
/-- Insert step 7 of the fuzzy-activation scenario: 9 down to 1, checked by evaluation. -/
theorem stepC7 : gC6.insert 3 (3) = some (gC7, 6) := by
  norm_num [gC7, gC6, insertList, Graph.insert, Graph.new, BT.newLeaf, BT.size, BT.keys,
    Graph.insert_first_element, Graph.split_root, maxKeys, Graph.extreme_keys,
    insertGo, insert_existing_key, scanIdx, BT.isLeaf, BT.elemIds, BT.children,
    insert_key_leaf, chainNeighbours, set_connections, modAt, Element.new,
    Graph.rangeD, Graph.range, dist, qabs, wf, Graph.set_extrema,
    Graph.update_elements_weights, update_weights_go, BT.msize, msizeList,
    BT.setChild, split_child, keyAt, threshold, defsAt, srIdx, search_left,
    search_right, Graph.search, Graph.sensor_search, Graph.activate,
    countAggGo, Graph.count_elements_agg, countUniqueGo, Graph.count_elements_unique,
    elemActivate, fuzzy_activate, fuzzyGoNext, fuzzyGoPrev, simple_activate,
    deactGoNext, deactGoPrev, deactivate_neighbours, elemDeactivate,
    deactSensorGo, Graph.deactivate_sensor]

/-- State 8 of the fuzzy-activation scenario: 9 down to 1. -/
def gC8 : Graph :=
  { dataCategory := .numerical,
    root := .mk [4, 6, 8] [5, 3, 1] [.mk [2, 3] [7, 6] [] true, .mk [5] [4] [] true, .mk [7] [2] [] true, .mk [9] [0] [] true] false,
    elems := [
      { key := 9, counter := 1, activation := 0, next := none, prev := (some (1, (6/7 : ℚ))), defs := [] },
      { key := 8, counter := 1, activation := 0, next := (some (0, (6/7 : ℚ))), prev := (some (2, (6/7 : ℚ))), defs := [] },
      { key := 7, counter := 1, activation := 0, next := (some (1, (6/7 : ℚ))), prev := (some (3, (6/7 : ℚ))), defs := [] },
      { key := 6, counter := 1, activation := 0, next := (some (2, (6/7 : ℚ))), prev := (some (4, (6/7 : ℚ))), defs := [] },
      { key := 5, counter := 1, activation := 0, next := (some (3, (6/7 : ℚ))), prev := (some (5, (6/7 : ℚ))), defs := [] },
      { key := 4, counter := 1, activation := 0, next := (some (4, (6/7 : ℚ))), prev := (some (6, (6/7 : ℚ))), defs := [] },
      { key := 3, counter := 1, activation := 0, next := (some (5, (6/7 : ℚ))), prev := (some (7, (6/7 : ℚ))), defs := [] },
      { key := 2, counter := 1, activation := 0, next := (some (6, (6/7 : ℚ))), prev := none, defs := [] }],
    element_min := (some 7), element_max := (some 0), key_min := (some 2), key_max := (some 9) }

set_option maxHeartbeats 2000000 in
/-- Insert step 8 of the fuzzy-activation scenario: 9 down to 1, checked by evaluation. -/
theorem stepC8 : gC7.insert 3 (2) = some (gC8, 7) := by
  norm_num [gC8, gC7, insertList, Graph.insert, Graph.new, BT.newLeaf, BT.size, BT.keys,
    Graph.insert_first_element, Graph.split_root, maxKeys, Graph.extreme_keys,
    insertGo, insert_existing_key, scanIdx, BT.isLeaf, BT.elemIds, BT.children,
    insert_key_leaf, chainNeighbours, set_connections, modAt, Element.new,
    Graph.rangeD, Graph.range, dist, qabs, wf, Graph.set_extrema,
    Graph.update_elements_weights, update_weights_go, BT.msize, msizeList,
    BT.setChild, split_child, keyAt, threshold, defsAt, srIdx, search_left,
    search_right, Graph.search, Graph.sensor_search, Graph.activate,
    countAggGo, Graph.count_elements_agg, countUniqueGo, Graph.count_elements_unique,
    elemActivate, fuzzy_activate, fuzzyGoNext, fuzzyGoPrev, simple_activate,
    deactGoNext, deactGoPrev, deactivate_neighbours, elemDeactivate,
    deactSensorGo, Graph.deactivate_sensor]

/-- State 9 of the fuzzy-activation scenario: 9 down to 1. -/
def gC9 : Graph :=
  { dataCategory := .numerical,
    root := .mk [6] [3] [.mk [4] [5] [.mk [1, 2, 3] [8, 7, 6] [] true, .mk [5] [4] [] true] false, .mk [8] [1] [.mk [7] [2] [] true, .mk [9] [0] [] true] false] false,
    elems := [
      { key := 9, counter := 1, activation := 0, next := none, prev := (some (1, (7/8 : ℚ))), defs := [] },
      { key := 8, counter := 1, activation := 0, next := (some (0, (7/8 : ℚ))), prev := (some (2, (7/8 : ℚ))), defs := [] },
      { key := 7, counter := 1, activation := 0, next := (some (1, (7/8 : ℚ))), prev := (some (3, (7/8 : ℚ))), defs := [] },
      { key := 6, counter := 1, activation := 0, next := (some (2, (7/8 : ℚ))), prev := (some (4, (7/8 : ℚ))), defs := [] },
      { key := 5, counter := 1, activation := 0, next := (some (3, (7/8 : ℚ))), prev := (some (5, (7/8 : ℚ))), defs := [] },
      { key := 4, counter := 1, activation := 0, next := (some (4, (7/8 : ℚ))), prev := (some (6, (7/8 : ℚ))), defs := [] },
      { key := 3, counter := 1, activation := 0, next := (some (5, (7/8 : ℚ))), prev := (some (7, (7/8 : ℚ))), defs := [] },
      { key := 2, counter := 1, activation := 0, next := (some (6, (7/8 : ℚ))), prev := (some (8, (7/8 : ℚ))), defs := [] },
      { key := 1, counter := 1, activation := 0, next := (some (7, (7/8 : ℚ))), prev := none, defs := [] }],
    element_min := (some 8), element_max := (some 0), key_min := (some 1), key_max := (some 9) }

set_option maxHeartbeats 2000000 in
/-- Insert step 9 of the fuzzy-activation scenario: 9 down to 1, checked by evaluation. -/
theorem stepC9 : gC8.insert 3 (1) = some (gC9, 8) := by
  norm_num [gC9, gC8, insertList, Graph.insert, Graph.new, BT.newLeaf, BT.size, BT.keys,
    Graph.insert_first_element, Graph.split_root, maxKeys, Graph.extreme_keys,
    insertGo, insert_existing_key, scanIdx, BT.isLeaf, BT.elemIds, BT.children,
    insert_key_leaf, chainNeighbours, set_connections, modAt, Element.new,
    Graph.rangeD, Graph.range, dist, qabs, wf, Graph.set_extrema,
    Graph.update_elements_weights, update_weights_go, BT.msize, msizeList,
    BT.setChild, split_child, keyAt, threshold, defsAt, srIdx, search_left,
    search_right, Graph.search, Graph.sensor_search, Graph.activate,
    countAggGo, Graph.count_elements_agg, countUniqueGo, Graph.count_elements_unique,
    elemActivate, fuzzy_activate, fuzzyGoNext, fuzzyGoPrev, simple_activate,
    deactGoNext, deactGoPrev, deactivate_neighbours, elemDeactivate,
    deactSensorGo, Graph.deactivate_sensor]


/-!
Claim theorems on the concrete runs.
-/

/-- Observable of a facade activate result: the harvested neuron list and
the per-element (key, activation) table. -/
def activationProfile (r : ActRes) : Option (List ℕ × List (ℚ × ℚ)) :=
  match r with
  | .ok g ns => some (ns, g.elems.map (fun e => (e.key, e.activation)))
  | _ => none

/-- C1: during insert descent with a full chosen child the child is split,
but when the inserted key equals the promoted key the promoted element is
returned with its counter unchanged, not incremented as the claim states.
In gA5 (after inserting 1, 2, 3, 4, 5) the root holds the single key 2 and
its chosen child for key 4 is the full leaf 3, 4, 5 (size 3 = MAX_KEYS for
ORDER 3; the claim writes the full size as ORDER - 1, which also disagrees
with the source); inserting 4 splits that child, promotes its median 4 into
the root, and returns element 3 (the element whose key is 4) with counter
still 1.  An insert_existing_key match would have incremented it to 2. -/
theorem C1_promoted_median_duplicate_not_incremented :
    gA5.root.keys = [2] ∧
    (gA5.root.children.map BT.size) = [1, 3] ∧
    (gA5.elems[3]?).map (fun e => (e.key, e.counter)) = some (4, 1) ∧
    gA5.insert 3 4 = some (gA6, 3) ∧
    gA6.root.keys = [2, 4] ∧
    (gA6.elems[3]?).map (fun e => (e.key, e.counter)) = some (4, 1) := by
  refine ⟨by norm_num [gA5, BT.keys], by norm_num [gA5, BT.size, BT.children, BT.keys],
    by norm_num [gA5], stepA6, by norm_num [gA6, BT.keys], by norm_num [gA6]⟩

/-- C2: count conservation fails on the code: the six inserts 1, 2, 3, 4,
5, 4 leave a total counter sum of 5, because the duplicate insert of 4 hits
the promoted-median early return of the insert loop (graph.rs lines
238-240), which returns the element without incrementing its counter. -/
theorem C2_count_conservation_violated :
    insertList 3 (Graph.new .numerical) [1, 2, 3, 4, 5, 4] = some gA6 ∧
    gA6.count_elements_agg = 5 ∧
    [(1 : ℚ), 2, 3, 4, 5, 4].length = 6 := by
  refine ⟨?_, ?_, rfl⟩
  · simp only [insertList, stepA1, stepA2, stepA3, stepA4, stepA5, stepA6]
  · norm_num [gA6, Graph.count_elements_agg, countAggGo]

/-- C4: the Sensor-facade search wraps the unwrapped inner result in Some
(graph.rs line 42, sensor.rs lines 34-38), so instead of returning none it
panics whenever the key is absent: on the empty graph and on a missing key
of a populated graph.  A present key is returned as some neuron. -/
theorem C4_sensor_search_panics_instead_of_none :
    (Graph.new .numerical).sensor_search 0 = .panicked ∧
    gA5.sensor_search 6 = .panicked ∧
    gA5.sensor_search 4 = .ok (some 3) := by
  refine ⟨by norm_num [Graph.new, Graph.sensor_search, Graph.search, Graph.extreme_keys,
      BT.newLeaf], ?_, ?_⟩
  · norm_num [gA5, insertList, Graph.insert, Graph.new, BT.newLeaf, BT.size, BT.keys,
    Graph.insert_first_element, Graph.split_root, maxKeys, Graph.extreme_keys,
    insertGo, insert_existing_key, scanIdx, BT.isLeaf, BT.elemIds, BT.children,
    insert_key_leaf, chainNeighbours, set_connections, modAt, Element.new,
    Graph.rangeD, Graph.range, dist, qabs, wf, Graph.set_extrema,
    Graph.update_elements_weights, update_weights_go, BT.msize, msizeList,
    BT.setChild, split_child, keyAt, threshold, defsAt, srIdx, search_left,
    search_right, Graph.search, Graph.sensor_search, Graph.activate,
    countAggGo, Graph.count_elements_agg, countUniqueGo, Graph.count_elements_unique,
    elemActivate, fuzzy_activate, fuzzyGoNext, fuzzyGoPrev, simple_activate,
    deactGoNext, deactGoPrev, deactivate_neighbours, elemDeactivate,
    deactSensorGo, Graph.deactivate_sensor]
  · norm_num [gA5, insertList, Graph.insert, Graph.new, BT.newLeaf, BT.size, BT.keys,
    Graph.insert_first_element, Graph.split_root, maxKeys, Graph.extreme_keys,
    insertGo, insert_existing_key, scanIdx, BT.isLeaf, BT.elemIds, BT.children,
    insert_key_leaf, chainNeighbours, set_connections, modAt, Element.new,
    Graph.rangeD, Graph.range, dist, qabs, wf, Graph.set_extrema,
    Graph.update_elements_weights, update_weights_go, BT.msize, msizeList,
    BT.setChild, split_child, keyAt, threshold, defsAt, srIdx, search_left,
    search_right, Graph.search, Graph.sensor_search, Graph.activate,
    countAggGo, Graph.count_elements_agg, countUniqueGo, Graph.count_elements_unique,
    elemActivate, fuzzy_activate, fuzzyGoNext, fuzzyGoPrev, simple_activate,
    deactGoNext, deactGoPrev, deactivate_neighbours, elemDeactivate,
    deactSensorGo, Graph.deactivate_sensor]

/-- C5, counterexample: after inserting 0 and then 1/2 the extrema are at
distance 1/2, and range() returns 1/2, not max(1/2, 1) = 1 as the claim
states: the code substitutes 1 only when the distance is exactly 0
(graph.rs line 251). -/
theorem C5_range_counterexample :
    insertList 3 (Graph.new .numerical) [0, 1/2] = some gB2 ∧
    gB2.key_min = some 0 ∧ gB2.key_max = some (1/2) ∧
    gB2.range = some (1/2) ∧
    gB2.range ≠ some (max (dist 0 (1/2)) 1) := by
  refine ⟨?_, by norm_num [gB2], by norm_num [gB2], ?_, ?_⟩
  · simp only [insertList, stepB1, stepB2]
  · norm_num [gB2, Graph.range, dist, qabs]
  · norm_num [gB2, Graph.range, dist, qabs]

/-- C5, amended: range() returns the distance of the extrema when both are
set and the distance is non-zero, 1 when both are set at distance zero, and
NaN (modelled as none) when either is unset.  Only the max(distance, 1)
clamp of the claim is corrected: for extrema closer than 1 the code returns
their actual distance. -/
theorem C5_range_amended (g : Graph) :
    (∀ a b, g.key_min = some a → g.key_max = some b →
      g.range = some (if dist a b = 0 then 1 else dist a b)) ∧
    ((g.key_min = none ∨ g.key_max = none) → g.range = none) := by
  constructor
  · intro a b ha hb
    unfold Graph.range
    rw [ha, hb]
  · intro h
    unfold Graph.range
    rcases h with h | h
    · rw [h]
    · rw [h]
      cases g.key_min <;> rfl

/-- Witness for the amended C5 at the concrete graph gB2. -/
theorem C5_range_amended_witness :
    gB2.range = some (if dist 0 (1/2) = 0 then 1 else dist 0 (1/2)) :=
  (C5_range_amended gB2).1 0 (1/2) (by norm_num [gB2]) (by norm_num [gB2])

/-- C6, counterexample: in gB2 (inserts 0 then 1/2) the two chain links
carry the cached weight 0 on both sides, but the claim's formula
1 - distance / max(range, 1) gives 1/2: after the extremum change the
re-weighting sweep divides by the raw extremum distance 1/2 (graph.rs line
348), not by max(distance, 1). -/
theorem C6_weight_counterexample :
    insertList 3 (Graph.new .numerical) [0, 1/2] = some gB2 ∧
    (gB2.elems[0]?).bind Element.next = some (1, 0) ∧
    (gB2.elems[1]?).bind Element.prev = some (0, 0) ∧
    (0 : ℚ) ≠ 1 - dist 0 (1/2) / max (dist 0 (1/2)) 1 := by
  refine ⟨?_, by norm_num [gB2], by norm_num [gB2], ?_⟩
  · simp only [insertList, stepB1, stepB2]
  · norm_num [dist, qabs]

/-- C7: on the ORDER-3 graph of the keys 9 down to 1, activate(5, 1.0,
true, true) succeeds and returns an empty neuron set, but the activation
vector it leaves is 0, 0, 0, 7/8, 1, 7/8, 0, 0, 0 over the keys 1..9: the
propagation stops after a single hop on each side, because the loop of
Element::fuzzy_activate reads the activation of the element it has just
moved to (element.rs line 117), which is still 0, instead of the updated
activation of the neighbour it has just excited.  The claim (and the
in-source test sensor(), graph.rs lines 680-694) expects 0.765625 = 49/64
at the keys 3 and 7. -/
theorem C7_fuzzy_activation_stops_after_one_hop :
    insertList 3 (Graph.new .numerical) [9, 8, 7, 6, 5, 4, 3, 2, 1] = some gC9 ∧
    activationProfile (gC9.activate 3 5 1 true true)
      = some ([], [(9, 0), (8, 0), (7, 0), (6, 7/8), (5, 1), (4, 7/8),
                   (3, 0), (2, 0), (1, 0)]) ∧
    ((0 : ℚ) ≠ 49/64) := by
  refine ⟨?_, ?_, by norm_num⟩
  · simp only [insertList, stepC1, stepC2, stepC3, stepC4, stepC5, stepC6, stepC7,
      stepC8, stepC9]
  · norm_num [gC9, activationProfile, insertList, Graph.insert, Graph.new, BT.newLeaf, BT.size, BT.keys,
    Graph.insert_first_element, Graph.split_root, maxKeys, Graph.extreme_keys,
    insertGo, insert_existing_key, scanIdx, BT.isLeaf, BT.elemIds, BT.children,
    insert_key_leaf, chainNeighbours, set_connections, modAt, Element.new,
    Graph.rangeD, Graph.range, dist, qabs, wf, Graph.set_extrema,
    Graph.update_elements_weights, update_weights_go, BT.msize, msizeList,
    BT.setChild, split_child, keyAt, threshold, defsAt, srIdx, search_left,
    search_right, Graph.search, Graph.sensor_search, Graph.activate,
    countAggGo, Graph.count_elements_agg, countUniqueGo, Graph.count_elements_unique,
    elemActivate, fuzzy_activate, fuzzyGoNext, fuzzyGoPrev, simple_activate,
    deactGoNext, deactGoPrev, deactivate_neighbours, elemDeactivate,
    deactSensorGo, Graph.deactivate_sensor]

/-- C10: deactivate_sensor on a graph without element_min returns with the
graph unchanged (graph.rs lines 100-103: the None arm only logs a
warning). -/
theorem C10_deactivate_sensor_empty_noop (g : Graph) (h : g.element_min = none) :
    g.deactivate_sensor = g := by
  unfold Graph.deactivate_sensor
  rw [h]

/-- Witness for C10 at the freshly constructed graph. -/
theorem C10_deactivate_sensor_empty_noop_witness :
    (Graph.new .numerical).deactivate_sensor = Graph.new .numerical :=
  C10_deactivate_sensor_empty_noop (Graph.new .numerical) rfl

end ASA
